import Mathlib

/-!
Team generator: group sizes, groups, projects and the grouping engine.

A shallow embedding of the Go package `pkg/teamgenerator/generator`, and of `parseStudent`
from `pkg/teamgenerator/parser`.

Conventions of the embedding:

* Go `int` values are modelled as `Int`.  The sentinels `math.MaxInt64` and
  `math.MinInt64` used by `indiciesOfExtremes` are kept.
* `int(math.Floor(float64(k)))` and `int(math.Abs(float64(k)))` are modelled by
  `k` and `|k|`.  The conversions are exact for `|k| ≤ 2^53`, so the statements
  about the size computation are made for class sizes up to `maxExactInt = 2^53`,
  which also keeps every size below the sentinels.
* An unbounded `for { ... }` loop takes a fuel argument and yields
  `Fault.outOfFuel` when it runs out; a Go run-time panic (division by zero,
  index out of range, nil dereference, `rand.Intn` of a non-positive number)
  yields `Fault.panic`.
* `sort.Ints` is modelled by insertion sort on `≤`.
* A Go string is modelled by a string of characters.
-/

namespace generator

/-- Ways in which a run of the embedded code yields no value. -/
inductive Fault where
  | outOfFuel
  | panic
  deriving DecidableEq, Repr

/-- Result of running embedded code. -/
abbrev Run (α : Type) := Except Fault α

instance instDecidableEqRun {α : Type} [DecidableEq α] : DecidableEq (Run α)
  | .ok a, .ok b =>
    if h : a = b then isTrue (by rw [h]) else isFalse (fun e => h (Except.ok.inj e))
  | .error a, .error b =>
    if h : a = b then isTrue (by rw [h]) else isFalse (fun e => h (Except.error.inj e))
  | .ok _, .error _ => isFalse (fun e => Except.noConfusion e)
  | .error _, .ok _ => isFalse (fun e => Except.noConfusion e)

/-! ## project.go: group sizes -/

/-- Go constant `math.MaxInt64`. -/
def maxInt64 : Int := 9223372036854775807

/-- Go constant `math.MinInt64`. -/
def minInt64 : Int := -9223372036854775808

/-- The largest `n` such that every integer of absolute value at most `n` converts to `float64`
and back without change: `2^53`. -/
def maxExactInt : Int := 9007199254740992

/-- Go function `sort.Ints`: sorts in increasing order. -/
def sortInts (numbers : List Int) : List Int :=
  numbers.insertionSort (· ≤ ·)

/-- Inner loop of `largestInequality`: `j` runs over the entries from position `i` on. -/
def largestInequalityInner (numberI : Int) : List Int → Int → Int
  | [], largest => largest
  | numberJ :: rest, largest =>
    let difference : Int := ((numberI - numberJ).natAbs : Int)
    largestInequalityInner numberI rest (if difference > largest then difference else largest)

/-- Outer loop of `largestInequality`: `i` runs over all positions. -/
def largestInequalityOuter : List Int → Int → Int
  | [], largest => largest
  | numberI :: rest, largest =>
    largestInequalityOuter rest (largestInequalityInner numberI (numberI :: rest) largest)

/-- Go function `largestInequality`: the largest inequality between any two numbers in the list. -/
def largestInequality (numbers : List Int) : Int :=
  largestInequalityOuter numbers 0

/-- Local variables of the loop of `indiciesOfExtremes`. -/
structure Extremes where
  smallestIndex : Nat
  largestIndex : Nat
  smallestNumber : Int
  largestNumber : Int
  deriving DecidableEq, Repr

/-- One iteration of the loop of `indiciesOfExtremes` at index `i`. -/
def extremesStep (i : Nat) (number : Int) (st : Extremes) : Extremes :=
  let st1 : Extremes :=
    if number > st.largestNumber then
      { st with largestIndex := i, largestNumber := number }
    else st
  if number < st1.smallestNumber then
    { st1 with smallestIndex := i, smallestNumber := number }
  else st1

/-- The loop `for i, number := range numbers` of `indiciesOfExtremes`, from index `i` on. -/
def extremesLoop : List Int → Nat → Extremes → Extremes
  | [], _, st => st
  | number :: rest, i, st => extremesLoop rest (i + 1) (extremesStep i number st)

/-- Go function `indiciesOfExtremes`: `(smallestIndex, largestIndex)`. -/
def indiciesOfExtremes (numbers : List Int) : Nat × Nat :=
  let st := extremesLoop numbers 0
    { smallestIndex := 0, largestIndex := 0, smallestNumber := maxInt64, largestNumber := minInt64 }
  (st.smallestIndex, st.largestIndex)

/-- The loop of `indiciesOfTwoSmallest` that builds `newNumbers`, from index `i` on. -/
def replaceSmallest (smallestIndex : Nat) : List Int → Nat → List Int
  | [], _ => []
  | value :: rest, i =>
    (if i = smallestIndex then maxInt64 else value) :: replaceSmallest smallestIndex rest (i + 1)

/-- Go function `indiciesOfTwoSmallest`: `(smallestIndex, secondSmallestIndex)`. -/
def indiciesOfTwoSmallest (numbers : List Int) : Nat × Nat :=
  let smallestIndex := (indiciesOfExtremes numbers).1
  let newNumbers := replaceSmallest smallestIndex numbers 0
  let secondSmallestIndex := (indiciesOfExtremes newNumbers).1
  (smallestIndex, secondSmallestIndex)

/-- The `for { ... }` loop of `determineSmallerGroupSizes`. -/
def determineSmallerLoop : Nat → List Int → Run (List Int)
  | 0, _ => .error .outOfFuel
  | fuel + 1, groupSizes =>
    if largestInequality groupSizes < 2 then .ok groupSizes
    else
      let smallestIndex := (indiciesOfExtremes groupSizes).1
      let largestIndex := (indiciesOfExtremes groupSizes).2
      let groupSizes := groupSizes.set largestIndex (groupSizes.getD largestIndex 0 - 1)
      let groupSizes := groupSizes.set smallestIndex (groupSizes.getD smallestIndex 0 + 1)
      determineSmallerLoop fuel groupSizes

/-- The initial list of `determineSmallerGroupSizes` and `determineLargerGroupSizes`:
`numOptimalGroups` entries `optimalGroupSize`, then `numRemainingStudents`. -/
def initialGroupSizes (optimalGroupSize numOptimalGroups numRemainingStudents : Int) : List Int :=
  List.replicate numOptimalGroups.toNat optimalGroupSize ++ [numRemainingStudents]

/-- Go function `determineSmallerGroupSizes`. -/
def determineSmallerGroupSizes (fuel : Nat)
    (optimalGroupSize numOptimalGroups numRemainingStudents : Int) : Run (List Int) :=
  (determineSmallerLoop fuel
    (initialGroupSizes optimalGroupSize numOptimalGroups numRemainingStudents)).map sortInts

/-- The `for { ... }` loop of `determineLargerGroupSizes`. -/
def determineLargerLoop : Nat → List Int → Run (List Int)
  | 0, _ => .error .outOfFuel
  | fuel + 1, groupSizes =>
    if largestInequality groupSizes < 2 then .ok groupSizes
    else
      let smallestIndex := (indiciesOfTwoSmallest groupSizes).1
      let secondSmallestIndex := (indiciesOfTwoSmallest groupSizes).2
      let groupSizes :=
        groupSizes.set secondSmallestIndex (groupSizes.getD secondSmallestIndex 0 + 1)
      let groupSizes := groupSizes.set smallestIndex (groupSizes.getD smallestIndex 0 - 1)
      let groupSizes :=
        if groupSizes.getD smallestIndex 0 = 0 then
          groupSizes.take smallestIndex ++ groupSizes.drop (smallestIndex + 1)
        else groupSizes
      determineLargerLoop fuel groupSizes

/-- Go function `determineLargerGroupSizes`. -/
def determineLargerGroupSizes (fuel : Nat)
    (optimalGroupSize numOptimalGroups numRemainingStudents : Int) : Run (List Int) :=
  (determineLargerLoop fuel
    (initialGroupSizes optimalGroupSize numOptimalGroups numRemainingStudents)).map sortInts

/-- Go function `determineGroupSizes`.  The integer division panics on a zero divisor. -/
def determineGroupSizes (fuel : Nat) (numStudents optimalGroupSize : Int)
    (preferSmallerGroups : Bool) : Run (List Int) :=
  if numStudents < optimalGroupSize then .ok [numStudents]
  else if optimalGroupSize = 0 then .error .panic
  else
    let numOptimalGroups := Int.tdiv numStudents optimalGroupSize
    let numRemainingStudents := numStudents - optimalGroupSize * numOptimalGroups
    if numRemainingStudents > 0 then
      if preferSmallerGroups then
        determineSmallerGroupSizes fuel optimalGroupSize numOptimalGroups numRemainingStudents
      else
        determineLargerGroupSizes fuel optimalGroupSize numOptimalGroups numRemainingStudents
    else
      .ok (sortInts (List.replicate numOptimalGroups.toNat optimalGroupSize))

/-! ## api/types.go -/

namespace api

/-- Go type `api.Student`: a student in the class. -/
structure Student where
  FullName : String
  NetID : String
  deriving DecidableEq, Repr

/-- Go type `api.Group`: a collection of students. -/
structure Group where
  Members : List Student
  deriving DecidableEq, Repr

/-- Go type `api.ProjectGrouping`: a collection of groups. -/
structure ProjectGrouping where
  Name : String
  Groups : List Group
  deriving DecidableEq, Repr

/-- Go type `api.ClassGrouping`: all project groupings of a class. -/
structure ClassGrouping where
  Projects : List ProjectGrouping
  deriving DecidableEq, Repr

end api

/-! ## student.go

A `*Student` is modelled by its address together with the embedded `api.Student`, which is never
modified after `NewStudent`.  The `collaborators` maps, keyed by `*Student`, live in the package
state `Env`, keyed by address; an absent key is `none`. -/

/-- A pointer `*Student`: its address and the embedded `api.Student`. -/
structure Student where
  addr : Nat
  toAPIStudent : api.Student
  deriving DecidableEq, Repr

/-- Go method `Student.ToAPIStudent`. -/
def Student.ToAPIStudent (s : Student) : api.Student := s.toAPIStudent

/-- Go method `Student.Equals`: the NetIDs are the same. -/
def Student.Equals (s otherStudent : Student) : Bool :=
  s.toAPIStudent.NetID == otherStudent.toAPIStudent.NetID

/-- The mutable state of the package: the `collaborators` map of every student and the
package-level counters of generator.go. -/
structure Env where
  collaborators : Nat → Nat → Option Int
  desiredRepairings : Int
  netRepairings : Int
  numReshuffles : Int
  randCalls : Nat

/-- The package state before anything has run: no ledger entry, all counters zero. -/
def Env.initial : Env :=
  { collaborators := fun _ _ => none, desiredRepairings := 0, netRepairings := 0,
    numReshuffles := 0, randCalls := 0 }

/-- Go map read `student.collaborators[partner]`: zero for an absent key. -/
def Env.count (e : Env) (student partner : Student) : Int :=
  (e.collaborators student.addr partner.addr).getD 0

/-- Go map write `student.collaborators[partner] = value`. -/
def Env.setCount (e : Env) (student partner : Student) (value : Int) : Env :=
  { e with collaborators := fun s p =>
      if s = student.addr ∧ p = partner.addr then some value else e.collaborators s p }

/-- Go statement `delete(student.collaborators, partner)`. -/
def Env.deleteCount (e : Env) (student partner : Student) : Env :=
  { e with collaborators := fun s p =>
      if s = student.addr ∧ p = partner.addr then none else e.collaborators s p }

/-- Go method `Student.HasCollaboratedWith`. -/
def HasCollaboratedWith (e : Env) (s student : Student) : Bool :=
  decide (e.count s student > 0)

/-- Go function `Collaborate`. -/
def Collaborate (e : Env) (student partner : Student) : Env :=
  let e := e.setCount student partner (e.count student partner + 1)
  let e := e.setCount partner student (e.count partner student + 1)
  if e.count student partner > 1 then { e with netRepairings := e.netRepairings + 1 } else e

/-- Go function `Uncollaborate`. -/
def Uncollaborate (e : Env) (student partner : Student) : Env :=
  let e := e.setCount student partner (e.count student partner - 1)
  let e := if e.count student partner < 1 then e.deleteCount student partner else e
  let e := e.setCount partner student (e.count partner student - 1)
  let e := if e.count partner student < 1 then e.deleteCount partner student else e
  if e.count student partner > 0 then { e with netRepairings := e.netRepairings - 1 } else e

/-! ## group.go -/

/-- Go type `Group`. -/
structure Group where
  members : List Student
  DesiredSize : Int
  deriving DecidableEq, Repr

/-- Go function `NewGroup`. -/
def NewGroup (desiredSize : Int) : Group := { members := [], DesiredSize := desiredSize }

/-- Go method `Group.ToAPIGroup`. -/
def Group.ToAPIGroup (g : Group) : api.Group :=
  { Members := g.members.map Student.ToAPIStudent }

/-- Go method `Group.Contains`. -/
def Group.Contains (g : Group) (student : Student) : Bool :=
  g.members.any (fun member => member.Equals student)

/-- Go method `Group.ContainsCollaboratorsOf`. -/
def Group.ContainsCollaboratorsOf (e : Env) (g : Group) (student : Student) : Bool :=
  g.members.any (fun member => HasCollaboratedWith e member student)

/-- Go method `Group.AddMember`. -/
def Group.AddMember (e : Env) (g : Group) (student : Student) : Env × Group :=
  let e := g.members.foldl (fun e currentMember => Collaborate e currentMember student) e
  (e, { g with members := g.members ++ [student] })

/-- The loop of `Group.RemoveMember` from index `i` on: every member is uncollaborated from
`student`, and `removeIndex` ends as the last index of a member equal to `student`. -/
def removeMemberLoop (student : Student) : List Student → Nat → Env × Int → Env × Int
  | [], _, st => st
  | currentMember :: rest, i, (e, removeIndex) =>
    removeMemberLoop student rest (i + 1)
      (Uncollaborate e currentMember student,
        if currentMember.Equals student then (i : Int) else removeIndex)

/-- Go method `Group.RemoveMember`. -/
def Group.RemoveMember (e : Env) (g : Group) (student : Student) : Env × Group :=
  let (e, removeIndex) := removeMemberLoop student g.members 0 (e, -1)
  if removeIndex > 0 then
    (e, { g with members :=
      g.members.take removeIndex.toNat ++ g.members.drop removeIndex.toNat })
  else (e, g)

/-- Go method `Group.IsFull`. -/
def Group.IsFull (g : Group) : Bool :=
  decide ((g.members.length : Int) = g.DesiredSize)

/-! ## project.go: projects -/

/-- Go type `Project`.  A `*Group` of the project is modelled by its index in `Groups`. -/
structure Project where
  Groups : List Group
  Name : String
  UngroupedStudents : List Student
  deriving DecidableEq, Repr

/-- Go function `NewProject`. -/
def NewProject (fuel : Nat) (name : String) (roster : List Student) (optimalGroupSize : Int)
    (preferSmallerGroups : Bool) : Run Project := do
  let groupSizes ←
    determineGroupSizes fuel (roster.length : Int) optimalGroupSize preferSmallerGroups
  pure { Groups := groupSizes.map NewGroup, Name := name, UngroupedStudents := roster }

/-- Go method `Project.ToAPIProjectGrouping`. -/
def Project.ToAPIProjectGrouping (p : Project) : api.ProjectGrouping :=
  { Name := p.Name, Groups := p.Groups.map Group.ToAPIGroup }

/-- The loop of `Project.MarkStudentGrouped` from index `i` on: `removeIndex` ends as the last
index of an unassigned student equal to `student`. -/
def markStudentGroupedLoop (student : Student) : List Student → Nat → Int → Int
  | [], _, removeIndex => removeIndex
  | unassignedStudent :: rest, i, removeIndex =>
    markStudentGroupedLoop student rest (i + 1)
      (if unassignedStudent.Equals student then (i : Int) else removeIndex)

/-- Go method `Project.MarkStudentGrouped`. -/
def Project.MarkStudentGrouped (p : Project) (student : Student) : Project :=
  let removeIndex := markStudentGroupedLoop student p.UngroupedStudents 0 (-1)
  if removeIndex > 0 then
    { p with UngroupedStudents :=
      p.UngroupedStudents.take removeIndex.toNat ++ p.UngroupedStudents.drop removeIndex.toNat }
  else p

/-- Go method `Project.MarkStudentUngrouped`. -/
def Project.MarkStudentUngrouped (p : Project) (student : Student) : Project :=
  { p with UngroupedStudents := p.UngroupedStudents ++ [student] }

/-! ## group_queue.go

The nodes of the linked list live in a heap `nodes`; a `*groupNode` is an index into it and `nil`
is `none`.  The queued values are `*Group` pointers, modelled by the index of the group in
`Project.Groups`. -/

/-- Go type `groupNode`. -/
structure groupNode where
  value : Nat
  next : Option Nat
  deriving DecidableEq, Repr

/-- Go type `GroupQueue`, with the heap of the nodes allocated so far. -/
structure GroupQueue where
  nodes : List groupNode
  head : Option Nat
  tail : Option Nat
  deriving DecidableEq, Repr

/-- Go value `GroupQueue{}`. -/
def GroupQueue.empty : GroupQueue := { nodes := [], head := none, tail := none }

/-- Go method `GroupQueue.Enqueue`. -/
def GroupQueue.Enqueue (q : GroupQueue) (group : Nat) : GroupQueue :=
  let newNode := q.nodes.length
  let nodes := q.nodes ++ [{ value := group, next := none }]
  let nodes :=
    match q.tail with
    | some t =>
      match nodes[t]? with
      | some node => nodes.set t { node with next := some newNode }
      | none => nodes
    | none => nodes
  let q : GroupQueue := { nodes := nodes, head := q.head, tail := some newNode }
  if q.head = none then { q with head := q.tail } else q

/-- Go method `GroupQueue.Dequeue`: the dequeued group (`none` for `nil`) and the queue. -/
def GroupQueue.Dequeue (q : GroupQueue) : Option Nat × GroupQueue :=
  match q.head with
  | none => (none, q)
  | some h =>
    match q.nodes[h]? with
    | none => (none, q)
    | some oldestNode => (some oldestNode.value, { q with head := oldestNode.next })

/-- Go method `GroupQueue.Peek`: dereferences `q.head`, so it panics on an empty queue. -/
def GroupQueue.Peek (q : GroupQueue) : Run Nat :=
  match q.head with
  | none => .error .panic
  | some h =>
    match q.nodes[h]? with
    | none => .error .panic
    | some node => .ok node.value

/-- Go method `GroupQueue.IsEmpty`. -/
def GroupQueue.IsEmpty (q : GroupQueue) : Bool := q.head.isNone

/-! ## generator.go

Random choices come from a stream `rand : Nat → Nat`: the `k`-th call of `rand.Intn n` in a run
returns `rand k % n`, and panics when `n` is zero. -/

/-- Go constant `maxReshuffles`. -/
def maxReshuffles : Int := 1000

/-- Go function `rand.Intn`. -/
def Intn (rand : Nat → Nat) (e : Env) (n : Nat) : Run (Nat × Env) :=
  if n = 0 then .error .panic
  else .ok (rand e.randCalls % n, { e with randCalls := e.randCalls + 1 })

/-- The group a `*Group` of the project points to. -/
def Project.getGroup (p : Project) (group : Nat) : Group :=
  p.Groups.getD group (NewGroup 0)

/-- Writes through a `*Group` of the project. -/
def Project.setGroup (p : Project) (group : Nat) (g : Group) : Project :=
  { p with Groups := p.Groups.set group g }

/-- Everything `addMemberToGroup` reads and writes. -/
structure FillState where
  env : Env
  project : Project
  groupsToFill : GroupQueue

/-- The loop `for _, unluckyGroup := range project.Groups` of `poachStudentIntoGroup`. -/
def poachLoop (studentToPoach : Student) : List Nat → Bool × FillState → Bool × FillState
  | [], acc => acc
  | unluckyGroup :: rest, (previouslyGrouped, st) =>
    if (st.project.getGroup unluckyGroup).Contains studentToPoach then
      let groupsToFill :=
        if (st.project.getGroup unluckyGroup).IsFull then st.groupsToFill.Enqueue unluckyGroup
        else st.groupsToFill
      let (e, g) := (st.project.getGroup unluckyGroup).RemoveMember st.env studentToPoach
      poachLoop studentToPoach rest
        (true,
          { env := e, project := st.project.setGroup unluckyGroup g,
            groupsToFill := groupsToFill })
    else poachLoop studentToPoach rest (previouslyGrouped, st)

/-- Go function `poachStudentIntoGroup`. -/
def poachStudentIntoGroup (studentToPoach : Student) (groupNeedingMember : Nat)
    (st : FillState) : FillState :=
  let (previouslyGrouped, st) :=
    poachLoop studentToPoach (List.range st.project.Groups.length) (false, st)
  let project :=
    if !previouslyGrouped then st.project.MarkStudentGrouped studentToPoach else st.project
  let (e, g) := (project.getGroup groupNeedingMember).AddMember st.env studentToPoach
  let project := project.setGroup groupNeedingMember g
  let groupsToFill :=
    if !(project.getGroup groupNeedingMember).IsFull then
      st.groupsToFill.Enqueue groupNeedingMember
    else st.groupsToFill
  { env := e, project := project, groupsToFill := groupsToFill }

/-- The students of the roster that have not collaborated with anyone in the group. -/
def potentialStudentsOf (e : Env) (g : Group) (roster : List Student) : List Student :=
  roster.filter (fun student => !g.ContainsCollaboratorsOf e student)

/-- The eviction loop of `addMemberToGroup`: members of the group are removed at random until a
student of the roster can join. -/
def evictLoop (rand : Nat → Nat) (roster : List Student) (group : Nat) :
    Nat → List Student → Env → Project → Run (List Student × Env × Project)
  | 0, _, _, _ => .error .outOfFuel
  | fuel + 1, potentialStudents, e, project =>
    if potentialStudents.length > 0 then .ok (potentialStudents, e, project)
    else do
      let (choice, e) ← Intn rand e (project.getGroup group).members.length
      match (project.getGroup group).members[choice]? with
      | none => .error .panic
      | some unluckyStudent =>
        let (e, g) := (project.getGroup group).RemoveMember e unluckyStudent
        let project := (project.setGroup group g).MarkStudentUngrouped unluckyStudent
        evictLoop rand roster group fuel
          (potentialStudents ++ potentialStudentsOf e (project.getGroup group) roster) e project

/-- The body of `addMemberToGroup` after the dequeue, without the deferred call: whether the
reshuffle-quota error is returned, and the state. -/
def addMemberBody (fuel : Nat) (rand : Nat → Nat) (roster : List Student) (group : Nat)
    (st : FillState) : Run (Bool × FillState) :=
  let ungroupedFreshStudents :=
    potentialStudentsOf st.env (st.project.getGroup group) st.project.UngroupedStudents
  if ungroupedFreshStudents.length ≠ 0 then do
    let (choice, e) ← Intn rand st.env ungroupedFreshStudents.length
    match ungroupedFreshStudents[choice]? with
    | none => .error .panic
    | some studentToAdd =>
      let (e, g) := (st.project.getGroup group).AddMember e studentToAdd
      let project := (st.project.setGroup group g).MarkStudentGrouped studentToAdd
      pure (false, { st with env := e, project := project })
  else if st.env.netRepairings < st.env.desiredRepairings then do
    let (choice, e) ← Intn rand st.env st.project.UngroupedStudents.length
    match st.project.UngroupedStudents[choice]? with
    | none => .error .panic
    | some studentToAdd =>
      let (e, g) := (st.project.getGroup group).AddMember e studentToAdd
      let project := (st.project.setGroup group g).MarkStudentGrouped studentToAdd
      pure (false, { st with env := e, project := project })
  else
    let e : Env := { st.env with numReshuffles := st.env.numReshuffles + 1 }
    if e.numReshuffles ≥ maxReshuffles then pure (true, { st with env := e })
    else
      let potentialStudents := potentialStudentsOf e (st.project.getGroup group) roster
      if potentialStudents.length ≠ 0 then do
        let (choice, e) ← Intn rand e potentialStudents.length
        match potentialStudents[choice]? with
        | none => .error .panic
        | some studentToPoach =>
          pure (false, poachStudentIntoGroup studentToPoach group { st with env := e })
      else do
        let (potentialStudents, e, project) ←
          evictLoop rand roster group fuel potentialStudents e st.project
        let (choice, e) ← Intn rand e potentialStudents.length
        match potentialStudents[choice]? with
        | none => .error .panic
        | some studentToPoach =>
          pure (false,
            poachStudentIntoGroup studentToPoach group
              { st with env := e, project := project })

/-- Go function `addMemberToGroup`: whether the reshuffle-quota error is returned, and the
state.  Every path of the Go function dereferences the dequeued group, so a `nil` group
panics. -/
def addMemberToGroup (fuel : Nat) (rand : Nat → Nat) (roster : List Student)
    (st : FillState) : Run (Bool × FillState) :=
  match st.groupsToFill.Dequeue with
  | (none, _) => .error .panic
  | (some group, groupsToFill) => do
    let (err, st) ← addMemberBody fuel rand roster group { st with groupsToFill := groupsToFill }
    if !(st.project.getGroup group).IsFull then
      pure (err, { st with groupsToFill := st.groupsToFill.Enqueue group })
    else pure (err, st)

/-- The `for { ... }` loop of `groupStudentsForProject`. -/
def groupStudentsLoop (fuel : Nat) (rand : Nat → Nat) (roster : List Student) :
    Nat → FillState → Run (Bool × FillState)
  | 0, _ => .error .outOfFuel
  | steps + 1, st =>
    if st.groupsToFill.IsEmpty then .ok (false, st)
    else do
      let (err, st) ← addMemberToGroup fuel rand roster st
      if err then pure (true, st) else groupStudentsLoop fuel rand roster steps st

/-- Go function `groupStudentsForProject`: whether the reshuffle-quota error is returned, the
package state and the project. -/
def groupStudentsForProject (fuel : Nat) (rand : Nat → Nat) (e : Env) (project : Project)
    (roster : List Student) : Run (Bool × Env × Project) := do
  let groupsToFill :=
    (List.range project.Groups.length).foldl GroupQueue.Enqueue GroupQueue.empty
  let (err, st) ← groupStudentsLoop fuel rand roster fuel
    { env := e, project := project, groupsToFill := groupsToFill }
  pure (err, st.env, st.project)

/-- Go type `classGrouping`. -/
structure classGrouping where
  optimalGroupSize : Int
  preferSmallerGroups : Bool
  deriving DecidableEq, Repr

/-- Go function `NewClassGrouping`. -/
def NewClassGrouping (optimalGroupSize : Int) (preferSmallerGroups : Bool) : classGrouping :=
  { optimalGroupSize := optimalGroupSize, preferSmallerGroups := preferSmallerGroups }

/-- The loop that builds the roster: `NewStudent` allocates the `i`-th student of an attempt at
address `i`. -/
def newRoster : List api.Student → Nat → List Student
  | [], _ => []
  | student :: rest, i => { addr := i, toAPIStudent := student } :: newRoster rest (i + 1)

/-- The loop that builds the projects of an attempt. -/
def newProjects (fuel : Nat) (g : classGrouping) (roster : List Student) :
    List String → Run (List Project)
  | [] => .ok []
  | name :: rest => do
    let project ← NewProject fuel name roster g.optimalGroupSize g.preferSmallerGroups
    let projects ← newProjects fuel g roster rest
    pure (project :: projects)

/-- The loop `for _, project := range projects` of `Generate`: on the reshuffle-quota error
`desiredRepairings` is incremented and the loop continues with the next project. -/
def fillProjects (fuel : Nat) (rand : Nat → Nat) (roster : List Student) :
    List Project → Env → Run (List Project × Env)
  | [], e => .ok ([], e)
  | project :: rest, e => do
    let (err, e, project) ← groupStudentsForProject fuel rand e project roster
    let e : Env :=
      if err then { e with desiredRepairings := e.desiredRepairings + 1 } else e
    let (projects, e) ← fillProjects fuel rand roster rest e
    pure (project :: projects, e)

/-- The outer `for { ... }` loop of `Generate`; every attempt starts from fresh students, whose
`collaborators` maps are empty. -/
def generateLoop (fuel : Nat) (rand : Nat → Nat) (g : classGrouping)
    (students : List api.Student) (groupingNames : List String) :
    Nat → Env → Run (api.ClassGrouping × Env)
  | 0, _ => .error .outOfFuel
  | attempts + 1, e => do
    let roster := newRoster students 0
    let e : Env := { e with collaborators := fun _ _ => none }
    let projects ← newProjects fuel g roster groupingNames
    let e : Env := { e with netRepairings := 0, numReshuffles := 0 }
    let (projects, e) ← fillProjects fuel rand roster projects e
    if e.netRepairings ≤ e.desiredRepairings then
      pure ({ Projects := projects.map Project.ToAPIProjectGrouping }, e)
    else
      generateLoop fuel rand g students groupingNames attempts
        { e with desiredRepairings := e.desiredRepairings + 1 }

/-- Go method `classGrouping.Generate`, run from the package state `e`: the grouping returned
and the package state afterwards. -/
def classGrouping.Generate (g : classGrouping) (fuel : Nat) (rand : Nat → Nat) (e : Env)
    (students : List api.Student) (groupingNames : List String) :
    Run (api.ClassGrouping × Env) :=
  generateLoop fuel rand g students groupingNames fuel e

/-- The balanced split of `total` into `count` sizes, in increasing order:
`count - total mod count` copies of `total / count`, then `total mod count` copies of
`total / count + 1`. -/
def balancedSizes (count : Nat) (total : Int) : List Int :=
  List.replicate (count - (total % (count : Int)).toNat) (total / (count : Int)) ++
    List.replicate (total % (count : Int)).toNat (total / (count : Int) + 1)


/-! ## Sequences of ledger calls -/

/-- A call of `Collaborate` or of `Uncollaborate`. -/
inductive LedgerCall where
  | collaborate (student partner : Student)
  | uncollaborate (student partner : Student)
  deriving DecidableEq, Repr

/-- The first argument of a ledger call. -/
def LedgerCall.student : LedgerCall → Student
  | .collaborate student _ => student
  | .uncollaborate student _ => student

/-- The second argument of a ledger call. -/
def LedgerCall.partner : LedgerCall → Student
  | .collaborate _ partner => partner
  | .uncollaborate _ partner => partner

/-- Runs one ledger call. -/
def LedgerCall.run (e : Env) : LedgerCall → Env
  | .collaborate student partner => Collaborate e student partner
  | .uncollaborate student partner => Uncollaborate e student partner

/-- Runs a sequence of ledger calls, the first call first. -/
def runLedgerCalls (e : Env) (calls : List LedgerCall) : Env :=
  calls.foldl LedgerCall.run e

/-- The count that the student at address `s` stores for the student at address `p`. -/
def Env.countAt (e : Env) (s p : Nat) : Int :=
  (e.collaborators s p).getD 0

/-- The unordered pairs of distinct students, given the addresses of the students: the pairs
of addresses in increasing order. -/
def studentPairs (students : Finset Nat) : Finset (Nat × Nat) :=
  (students ×ˢ students).filter (fun q => q.1 < q.2)

/-- The number of unordered pairs of students whose ledger count is greater than 1. -/
def repeatedPairs (e : Env) (students : Finset Nat) : Nat :=
  ((studentPairs students).filter (fun q => 1 < e.countAt q.1 q.2)).card

/-- The sum over the unordered pairs of students of `max 0 (count - 1)`. -/
def repairingsTotal (e : Env) (students : Finset Nat) : Int :=
  Finset.sum (studentPairs students) (fun q => max 0 (e.countAt q.1 q.2 - 1))

/-- The ledger is symmetric: each student stores for the other the same count. -/
def LedgerSymmetric (e : Env) : Prop :=
  ∀ s p : Nat, e.countAt s p = e.countAt p s

/-- The ledger calls of a sequence are all on pairs of distinct students among `students`. -/
def CallsOnDistinct (students : Finset Nat) (calls : List LedgerCall) : Prop :=
  ∀ call ∈ calls,
    call.student.addr ≠ call.partner.addr ∧ call.student.addr ∈ students ∧
      call.partner.addr ∈ students

/-! ## generator.go: `GenerateWithPriors` -/

/-- The part of the first loop of `GenerateWithPriors` that fills `associativeRoster`, a
`map[string]*Student` keyed by NetID: a later student with the same NetID replaces an earlier
one. -/
def associativeRosterLoop : List Student → (String → Option Student) → String → Option Student
  | [], associativeRoster => associativeRoster
  | internalStudent :: rest, associativeRoster =>
    associativeRosterLoop rest
      (fun netID =>
        if netID = internalStudent.toAPIStudent.NetID then some internalStudent
        else associativeRoster netID)

/-- The loop `for _, member := range group.Members` of `GenerateWithPriors`: the members that
are on the roster are added to the throwaway group. -/
def replayPriorMembers (associativeRoster : String → Option Student) :
    List api.Student → Env × Group → Env × Group
  | [], st => st
  | member :: rest, (e, throwaway) =>
    match associativeRoster member.NetID with
    | some student =>
      replayPriorMembers associativeRoster rest (throwaway.AddMember e student)
    | none => replayPriorMembers associativeRoster rest (e, throwaway)

/-- The loop `for _, group := range prior.Groups` of `GenerateWithPriors`. -/
def replayPriorGroups (associativeRoster : String → Option Student) :
    List api.Group → Env → Env
  | [], e => e
  | group :: rest, e =>
    replayPriorGroups associativeRoster rest
      (replayPriorMembers associativeRoster group.Members
        (e, NewGroup (group.Members.length : Int))).1

/-- The loop `for _, prior := range priorGroupings` of `GenerateWithPriors`. -/
def replayPriors (associativeRoster : String → Option Student) :
    List api.ProjectGrouping → Env → Env
  | [], e => e
  | prior :: rest, e =>
    replayPriors associativeRoster rest (replayPriorGroups associativeRoster prior.Groups e)

/-- The outer `for { ... }` loop of `GenerateWithPriors`. -/
def generateWithPriorsLoop (fuel : Nat) (rand : Nat → Nat) (g : classGrouping)
    (students : List api.Student) (priorGroupings : List api.ProjectGrouping)
    (groupingNames : List String) : Nat → Env → Run (api.ClassGrouping × Env)
  | 0, _ => .error .outOfFuel
  | attempts + 1, e => do
    let roster := newRoster students 0
    let associativeRoster := associativeRosterLoop roster (fun _ => none)
    let e : Env := { e with collaborators := fun _ _ => none }
    let projects ← newProjects fuel g roster groupingNames
    let e := replayPriors associativeRoster priorGroupings e
    let e : Env := { e with netRepairings := 0, numReshuffles := 0 }
    let (projects, e) ← fillProjects fuel rand roster projects e
    if e.netRepairings ≤ e.desiredRepairings then
      pure ({ Projects := projects.map Project.ToAPIProjectGrouping }, e)
    else
      generateWithPriorsLoop fuel rand g students priorGroupings groupingNames attempts
        { e with desiredRepairings := e.desiredRepairings + 1 }

/-- Go method `classGrouping.GenerateWithPriors`, run from the package state `e`: the grouping
returned and the package state afterwards. -/
def classGrouping.GenerateWithPriors (g : classGrouping) (fuel : Nat) (rand : Nat → Nat)
    (e : Env) (students : List api.Student) (priorGroupings : List api.ProjectGrouping)
    (groupingNames : List String) : Run (api.ClassGrouping × Env) :=
  generateWithPriorsLoop fuel rand g students priorGroupings groupingNames fuel e


/-! ## group_queue.go: observing the queue

The calls of a client of the queue, the groups the linked list holds from `head` on, and the
first-in first-out list the queue is compared with. -/

/-- A call of `Enqueue` or `Dequeue` on a `GroupQueue`. -/
inductive QueueCall where
  | enqueue (group : Nat)
  | dequeue
  deriving DecidableEq, Repr

/-- Runs the calls on the queue in order: the result of every `Dequeue` call (`none` for
`nil`), and the queue afterwards. -/
def runQueueCalls : List QueueCall → GroupQueue → List (Option Nat) × GroupQueue
  | [], q => ([], q)
  | .enqueue group :: rest, q => runQueueCalls rest (q.Enqueue group)
  | .dequeue :: rest, q =>
    ((q.Dequeue).1 :: (runQueueCalls rest (q.Dequeue).2).1, (runQueueCalls rest (q.Dequeue).2).2)

/-- The first-in first-out list of the specification under the same calls: `Enqueue` appends at
the back, `Dequeue` takes the front entry, or reports `none` on the empty list and leaves it
empty. -/
def runFifoCalls : List QueueCall → List Nat → List (Option Nat) × List Nat
  | [], l => ([], l)
  | .enqueue group :: rest, l => runFifoCalls rest (l ++ [group])
  | .dequeue :: rest, [] => (none :: (runFifoCalls rest []).1, (runFifoCalls rest []).2)
  | .dequeue :: rest, oldest :: l =>
    (some oldest :: (runFifoCalls rest l).1, (runFifoCalls rest l).2)

/-- Follows the `next` pointers from node `i` for at most `fuel` nodes and lists the values. -/
def chaseNodes (nodes : List groupNode) : Nat → Option Nat → List Nat
  | 0, _ => []
  | _ + 1, none => []
  | fuel + 1, some i =>
    match nodes[i]? with
    | none => []
    | some node => node.value :: chaseNodes nodes fuel node.next

/-- The groups in the queue, oldest first: the values of the nodes reachable from `head`. -/
def GroupQueue.contents (q : GroupQueue) : List Nat :=
  chaseNodes q.nodes q.nodes.length q.head

/-- The linked list from the node `head` to the node `t` holds the values `l`: every node
points to a node allocated later, and `t`, the last one, points to `nil`. -/
def QueueChain (nodes : List groupNode) (t : Nat) : Option Nat → List Nat → Prop
  | _, [] => False
  | head, [v] => head = some t ∧ nodes[t]? = some { value := v, next := none }
  | head, v :: w :: l =>
    ∃ i j, head = some i ∧ nodes[i]? = some { value := v, next := some j } ∧ i < j ∧
      QueueChain nodes t (some j) (w :: l)

/-- The queue holds the groups `l`, oldest first: `head` is `nil` when `l` is empty, a `tail`
that is not `nil` is an allocated node, and otherwise the nodes from `head` to `tail` hold
`l`. -/
def QueueHolds (q : GroupQueue) (l : List Nat) : Prop :=
  (l = [] ∧ q.head = none ∧ ∀ t, q.tail = some t → t < q.nodes.length) ∨
    ∃ t, q.tail = some t ∧ QueueChain q.nodes t q.head l

/-- The state of the loop of `groupStudentsForProject` after at most `steps` calls of
`addMemberToGroup`. -/
def groupStudentsSteps (fuel : Nat) (rand : Nat → Nat) (roster : List Student) :
    Nat → FillState → Run FillState
  | 0, st => .ok st
  | steps + 1, st =>
    if st.groupsToFill.IsEmpty then .ok st
    else do
      let (err, st) ← addMemberToGroup fuel rand roster st
      if err then pure st else groupStudentsSteps fuel rand roster steps st

/-! ## project.go: the positions `indiciesOfExtremes` and `indiciesOfTwoSmallest` look for -/

/-- Index `i` is the first index of `numbers` that holds its minimum. -/
def IsFirstIndexOfMin (numbers : List Int) (i : Nat) : Prop :=
  i < numbers.length ∧ (∀ k, k < numbers.length → numbers.getD i 0 ≤ numbers.getD k 0) ∧
    ∀ k, k < i → numbers.getD i 0 < numbers.getD k 0

/-- Index `j` is the first index of `numbers` that holds its maximum. -/
def IsFirstIndexOfMax (numbers : List Int) (j : Nat) : Prop :=
  j < numbers.length ∧ (∀ k, k < numbers.length → numbers.getD k 0 ≤ numbers.getD j 0) ∧
    ∀ k, k < j → numbers.getD k 0 < numbers.getD j 0

/-- Index `j` is the first index that holds the minimum of `numbers` with position `i`
excluded. -/
def IsFirstIndexOfMinExcluding (numbers : List Int) (i j : Nat) : Prop :=
  j < numbers.length ∧ j ≠ i ∧
    (∀ k, k < numbers.length → k ≠ i → numbers.getD j 0 ≤ numbers.getD k 0) ∧
    ∀ k, k < j → k ≠ i → numbers.getD j 0 < numbers.getD k 0

/-! ## parser/roster.go

A Go string is modelled by a string of characters; `strings.Split` with the separator `","`
and `strings.Trim` with the cutset `" "` look at one ASCII character only, so on well-formed
UTF-8 they cut at the same places as the functions below. -/

namespace parser

/-- Go function `strings.Split(s, sep)` for a separator of one character, on the characters of
`s`: the pieces between the separators, one piece more than there are separators. -/
def stringsSplit (sep : Char) : List Char → List (List Char)
  | [] => [[]]
  | c :: cs =>
    if c = sep then [] :: stringsSplit sep cs
    else
      match stringsSplit sep cs with
      | [] => [[c]]
      | piece :: pieces => (c :: piece) :: pieces

/-- Go function `strings.Trim(s, cutset)` for a cutset of one character: `s` without its
leading and trailing occurrences of the character. -/
def stringsTrim (cutset : Char) (s : List Char) : List Char :=
  ((s.dropWhile (fun c => c == cutset)).reverse.dropWhile (fun c => c == cutset)).reverse

/-- The two errors `parseStudent` builds with `fmt.Errorf`, with the arguments of the format
string. -/
inductive ParseError where
  | wrongColumns (record : List String) (columns : Nat)
  | malformedName (name : String) (commas : Int)
  deriving DecidableEq, Repr

/-- Go function `parseStudent`: the student and the error (`none` for `nil`). -/
def parseStudent (record : List String) : api.Student × Option ParseError :=
  if record.length ≠ 2 then
    ({ FullName := "", NetID := "" }, some (.wrongColumns record record.length))
  else
    let names := stringsSplit ',' (record.getD 1 "").toList
    if names.length ≠ 2 then
      ({ FullName := "", NetID := "" },
        some (.malformedName (record.getD 1 "") ((names.length : Int) - 1)))
    else
      ({ FullName := String.mk (stringsTrim ' ' (names.getD 1 []) ++ [' '] ++ names.getD 0 []),
         NetID := record.getD 0 "" }, none)

end parser

/-- The prior groupings without the members whose NetID is not on the roster. -/
def withoutAbsentMembers (students : List api.Student)
    (priorGroupings : List api.ProjectGrouping) : List api.ProjectGrouping :=
  priorGroupings.map (fun prior =>
    { prior with
      Groups := prior.Groups.map (fun group =>
        { Members := group.Members.filter (fun member =>
            decide (member.NetID ∈ students.map (fun student => student.NetID))) }) })


/-! ## generator.go: what the fill loop keeps true, and what it uses up -/

/-- What every step of the fill loop keeps true of the package state and the project, for a
roster and a number of groups: no count is negative, the list of ungrouped students is not
empty and holds students of the roster only, the members of the groups are students of the
roster, and the project has that many groups. -/
structure BodyInv (roster : List Student) (groups : Nat) (e : Env) (project : Project) :
    Prop where
  nonneg : ∀ x y : Nat, 0 ≤ e.countAt x y
  ungrouped_ne : project.UngroupedStudents ≠ []
  ungrouped_mem : ∀ s ∈ project.UngroupedStudents, s ∈ roster
  members_mem : ∀ g ∈ project.Groups, ∀ s ∈ g.members, s ∈ roster
  groups_length : project.Groups.length = groups

/-- What every step of the fill loop keeps true of the fill queue: it is a well-formed linked
list of groups of the project. -/
def QueueInv (groups : Nat) (q : GroupQueue) : Prop :=
  ∃ l, QueueHolds q l ∧ ∀ g ∈ l, g < groups

/-- The invariant of the loop of `groupStudentsForProject`. -/
def FillInv (roster : List Student) (groups : Nat) (st : FillState) : Prop :=
  BodyInv roster groups st.env st.project ∧ QueueInv groups st.groupsToFill

/-- The number of roster students that could still join the group as fresh candidates, plus
one while the group is empty. -/
def freshCount (e : Env) (roster : List Student) (g : Group) : Nat :=
  (potentialStudentsOf e g roster).length + (if g.members.length = 0 then 1 else 0)

/-- The sum of `freshCount` over the groups of the project. -/
def freshTotal (e : Env) (roster : List Student) (project : Project) : Nat :=
  ((List.range project.Groups.length).map
    (fun i => freshCount e roster (project.getGroup i))).sum

/-- The sum of the ledger counts over all pairs of roster students. -/
def ledgerTotal (e : Env) (roster : List Student) : Int :=
  (roster.map (fun x => (roster.map (fun y => e.countAt x.addr y.addr)).sum)).sum

/-- What the fill loop uses up: the reshuffles left in the quota, then the repairings left in
the budget, then the fresh candidates left. -/
def fillMeasure (roster : List Student) (e : Env) (project : Project) : Nat × Nat × Nat :=
  ((maxReshuffles - e.numReshuffles).toNat,
    (e.desiredRepairings - e.netRepairings).toNat, freshTotal e roster project)

/-- The lexicographic order in which `fillMeasure` decreases. -/
def FillLt (m m' : Nat × Nat × Nat) : Prop :=
  Prod.Lex (fun a b : Nat => a < b) (Prod.Lex (fun a b : Nat => a < b) (fun a b : Nat => a < b))
    m m'

/-- Every group of the project is waiting in the fill queue or is full. -/
def QueuedOrFull (groups : Nat) (st : FillState) : Prop :=
  ∀ j, j < groups → j ∈ st.groupsToFill.contents ∨ (st.project.getGroup j).IsFull = true

/-! ## Membership bookkeeping: `Generate`, `RemoveMember` and `MarkStudentGrouped` -/

set_option maxRecDepth 100000 in
/-- C1 fails on the code: for the roster `A` (NetID `a`), `B` (NetID `b`), optimal size 1, one
project and random choices that are all 0, `Generate` returns the groups `[A]` and `[A]`, so `B`
is in no group of the project and `A` is in two.  For nine students with distinct NetIDs, optimal
size 3, two projects and the random choices 0, 1, 2, ... it returns three groups of three per
project in which `n0` occurs twice and `n6`, `n7` (first project) are missing. -/
theorem Generate_not_a_partition :
    (classGrouping.Generate (NewClassGrouping 1 false) 3 (fun _ => 0) Env.initial
        [⟨"A", "a"⟩, ⟨"B", "b"⟩] ["p"]).map Prod.fst =
      .ok ⟨[⟨"p", [⟨[⟨"A", "a"⟩]⟩, ⟨[⟨"A", "a"⟩]⟩]⟩]⟩ ∧
    (classGrouping.Generate (NewClassGrouping 3 false) 10 (fun k => k) Env.initial
        [⟨"S0", "n0"⟩, ⟨"S1", "n1"⟩, ⟨"S2", "n2"⟩, ⟨"S3", "n3"⟩, ⟨"S4", "n4"⟩, ⟨"S5", "n5"⟩,
          ⟨"S6", "n6"⟩, ⟨"S7", "n7"⟩, ⟨"S8", "n8"⟩] ["p", "q"]).map
        (fun r => r.1.Projects.map
          (fun project => project.Groups.map (fun group => group.Members.map (·.NetID)))) =
      .ok [[["n0", "n3", "n8"], ["n1", "n4", "n0"], ["n2", "n5", "n1"]],
        [["n0", "n5", "n7"], ["n1", "n7", "n6"], ["n2", "n0", "n6"]]] := by
  decide

/-! ## Auxiliary facts about lists -/

theorem set_append_cons (pre post : List Int) (x y : Int) :
    (pre ++ x :: post).set pre.length y = pre ++ y :: post := by
  induction pre with
  | nil => rfl
  | cons p pre ih => simp [List.set, ih]

theorem getD_append_cons (pre post : List Int) (x d : Int) :
    (pre ++ x :: post).getD pre.length d = x := by
  induction pre with
  | nil => rfl
  | cons p pre ih => simpa using ih

theorem take_append_cons (pre post : List Int) (x : Int) :
    (pre ++ x :: post).take pre.length = pre := by
  induction pre with
  | nil => rfl
  | cons p pre ih => simp

theorem drop_append_cons (pre post : List Int) (x : Int) :
    (pre ++ x :: post).drop (pre.length + 1) = post := by
  induction pre with
  | nil => rfl
  | cons p pre ih => simp

/-! ## `largestInequality` -/

theorem ite_gt_lt_iff (d acc c : Int) :
    (if d > acc then d else acc) < c ↔ acc < c ∧ d < c := by
  split <;> omega

theorem largestInequalityInner_lt (x : Int) (l : List Int) (acc c : Int) :
    largestInequalityInner x l acc < c ↔
      acc < c ∧ ∀ y ∈ l, ((x - y).natAbs : Int) < c := by
  induction l generalizing acc with
  | nil => simp [largestInequalityInner]
  | cons y l ih =>
    simp only [largestInequalityInner, ih, List.mem_cons, forall_eq_or_imp, ite_gt_lt_iff]
    tauto

theorem largestInequalityOuter_lt (l : List Int) (acc c : Int) (hc : 0 < c) :
    largestInequalityOuter l acc < c ↔
      acc < c ∧ ∀ x ∈ l, ∀ y ∈ l, ((x - y).natAbs : Int) < c := by
  induction l generalizing acc with
  | nil => simp [largestInequalityOuter]
  | cons a l ih =>
    simp only [largestInequalityOuter, ih, largestInequalityInner_lt, List.mem_cons,
      forall_eq_or_imp, sub_self, Int.natAbs_zero, Nat.cast_zero]
    constructor
    · rintro ⟨⟨h1, _, h3⟩, h4⟩
      refine ⟨h1, ⟨hc, h3⟩, fun x hx => ⟨?_, h4 x hx⟩⟩
      have := h3 x hx
      omega
    · rintro ⟨h1, ⟨_, h3⟩, h4⟩
      exact ⟨⟨h1, hc, h3⟩, fun x hx => (h4 x hx).2⟩

theorem largestInequality_lt_two_iff (l : List Int) :
    largestInequality l < 2 ↔ ∀ x ∈ l, ∀ y ∈ l, x - y < 2 := by
  unfold largestInequality
  rw [largestInequalityOuter_lt l 0 2 (by decide)]
  constructor
  · rintro ⟨_, h⟩ x hx y hy
    have := h x hx y hy
    omega
  · intro h
    refine ⟨by decide, fun x hx y hy => ?_⟩
    have h1 := h x hx y hy
    have h2 := h y hy x hx
    omega

/-! ## `indiciesOfExtremes` -/

theorem extremesLoop_append (l1 l2 : List Int) (i : Nat) (st : Extremes) :
    extremesLoop (l1 ++ l2) i st = extremesLoop l2 (i + l1.length) (extremesLoop l1 i st) := by
  induction l1 generalizing i st with
  | nil => rfl
  | cons a l1 ih =>
    show extremesLoop (l1 ++ l2) (i + 1) _ = extremesLoop l2 (i + (l1.length + 1)) _
    rw [ih, show i + 1 + l1.length = i + (l1.length + 1) by omega]
    rfl

theorem extremesStep_smallest_of_le (i : Nat) (y : Int) (st : Extremes)
    (h : st.smallestNumber ≤ y) :
    (extremesStep i y st).smallestIndex = st.smallestIndex ∧
      (extremesStep i y st).smallestNumber = st.smallestNumber := by
  unfold extremesStep
  have h2 : ¬ y < st.smallestNumber := by omega
  by_cases h1 : y > st.largestNumber <;> simp [h1, h2]

theorem extremesStep_smallest_of_lt (i : Nat) (y : Int) (st : Extremes)
    (h : y < st.smallestNumber) :
    (extremesStep i y st).smallestIndex = i ∧ (extremesStep i y st).smallestNumber = y := by
  unfold extremesStep
  by_cases h1 : y > st.largestNumber <;> simp [h1, h]

theorem extremesStep_largest_of_le (i : Nat) (y : Int) (st : Extremes)
    (h : y ≤ st.largestNumber) :
    (extremesStep i y st).largestIndex = st.largestIndex ∧
      (extremesStep i y st).largestNumber = st.largestNumber := by
  unfold extremesStep
  have h' : ¬ y > st.largestNumber := by omega
  simp only [h', if_false]
  split <;> simp

theorem extremesStep_largest_of_lt (i : Nat) (y : Int) (st : Extremes)
    (h : st.largestNumber < y) :
    (extremesStep i y st).largestIndex = i ∧ (extremesStep i y st).largestNumber = y := by
  unfold extremesStep
  have h' : y > st.largestNumber := h
  simp only [h', if_true]
  split <;> simp

theorem extremesLoop_smallest_of_le (l : List Int) (i : Nat) (st : Extremes)
    (h : ∀ y ∈ l, st.smallestNumber ≤ y) :
    (extremesLoop l i st).smallestIndex = st.smallestIndex ∧
      (extremesLoop l i st).smallestNumber = st.smallestNumber := by
  induction l generalizing i st with
  | nil => exact ⟨rfl, rfl⟩
  | cons a l ih =>
    have ha := extremesStep_smallest_of_le i a st (h a (List.mem_cons_self a l))
    have hl : ∀ y ∈ l, (extremesStep i a st).smallestNumber ≤ y := by
      intro y hy
      rw [ha.2]
      exact h y (List.mem_cons_of_mem a hy)
    have := ih (i + 1) (extremesStep i a st) hl
    simp only [extremesLoop]
    rw [this.1, this.2, ha.1, ha.2]
    exact ⟨rfl, rfl⟩

theorem extremesLoop_smallest_gt (l : List Int) (i : Nat) (st : Extremes) (x : Int)
    (h : ∀ y ∈ l, x < y) (hst : x < st.smallestNumber) :
    x < (extremesLoop l i st).smallestNumber := by
  induction l generalizing i st with
  | nil => exact hst
  | cons a l ih =>
    simp only [extremesLoop]
    apply ih
    · exact fun y hy => h y (List.mem_cons_of_mem a hy)
    · have hax := h a (List.mem_cons_self a l)
      rcases Int.lt_or_le a st.smallestNumber with h1 | h1
      · rw [(extremesStep_smallest_of_lt i a st h1).2]
        exact hax
      · rw [(extremesStep_smallest_of_le i a st h1).2]
        exact hst

theorem extremesLoop_largest_of_le (l : List Int) (i : Nat) (st : Extremes)
    (h : ∀ y ∈ l, y ≤ st.largestNumber) :
    (extremesLoop l i st).largestIndex = st.largestIndex ∧
      (extremesLoop l i st).largestNumber = st.largestNumber := by
  induction l generalizing i st with
  | nil => exact ⟨rfl, rfl⟩
  | cons a l ih =>
    have ha := extremesStep_largest_of_le i a st (h a (List.mem_cons_self a l))
    have hl : ∀ y ∈ l, y ≤ (extremesStep i a st).largestNumber := by
      intro y hy
      rw [ha.2]
      exact h y (List.mem_cons_of_mem a hy)
    have := ih (i + 1) (extremesStep i a st) hl
    simp only [extremesLoop]
    rw [this.1, this.2, ha.1, ha.2]
    exact ⟨rfl, rfl⟩

theorem extremesLoop_largest_lt (l : List Int) (i : Nat) (st : Extremes) (x : Int)
    (h : ∀ y ∈ l, y < x) (hst : st.largestNumber < x) :
    (extremesLoop l i st).largestNumber < x := by
  induction l generalizing i st with
  | nil => exact hst
  | cons a l ih =>
    simp only [extremesLoop]
    apply ih
    · exact fun y hy => h y (List.mem_cons_of_mem a hy)
    · have hax := h a (List.mem_cons_self a l)
      rcases Int.lt_or_le st.largestNumber a with h1 | h1
      · rw [(extremesStep_largest_of_lt i a st h1).2]
        exact hax
      · rw [(extremesStep_largest_of_le i a st h1).2]
        exact hst

/-- The smallest index returned by `indiciesOfExtremes` is the position of an entry that is
strictly below all earlier entries and at most all later ones. -/
theorem indiciesOfExtremes_fst (pre post : List Int) (x : Int)
    (hpre : ∀ y ∈ pre, x < y) (hpost : ∀ y ∈ post, x ≤ y) (hx : x < maxInt64) :
    (indiciesOfExtremes (pre ++ x :: post)).1 = pre.length := by
  unfold indiciesOfExtremes
  simp only [extremesLoop_append, extremesLoop, Nat.zero_add]
  generalize hst : extremesLoop pre 0 _ = st
  have h1 : x < st.smallestNumber := by
    rw [← hst]
    exact extremesLoop_smallest_gt pre 0 _ x hpre hx
  have h2 := extremesStep_smallest_of_lt pre.length x st h1
  have h3 := extremesLoop_smallest_of_le post (pre.length + 1) (extremesStep pre.length x st)
    (by rw [h2.2]; exact hpost)
  rw [h3.1, h2.1]

/-- The largest index returned by `indiciesOfExtremes` is the position of an entry that is
strictly above all earlier entries and at least all later ones. -/
theorem indiciesOfExtremes_snd (pre post : List Int) (x : Int)
    (hpre : ∀ y ∈ pre, y < x) (hpost : ∀ y ∈ post, y ≤ x) (hx : minInt64 < x) :
    (indiciesOfExtremes (pre ++ x :: post)).2 = pre.length := by
  unfold indiciesOfExtremes
  simp only [extremesLoop_append, extremesLoop, Nat.zero_add]
  generalize hst : extremesLoop pre 0 _ = st
  have h1 : st.largestNumber < x := by
    rw [← hst]
    exact extremesLoop_largest_lt pre 0 _ x hpre hx
  have h2 := extremesStep_largest_of_lt pre.length x st h1
  have h3 := extremesLoop_largest_of_le post (pre.length + 1) (extremesStep pre.length x st)
    (by rw [h2.2]; exact hpost)
  rw [h3.1, h2.1]

theorem replaceSmallest_of_lt (k : Nat) (l : List Int) (i : Nat) (h : k < i) :
    replaceSmallest k l i = l := by
  induction l generalizing i with
  | nil => rfl
  | cons a l ih =>
    have hne : ¬ i = k := by omega
    simp only [replaceSmallest, hne, if_false]
    rw [ih (i + 1) (by omega)]

theorem replaceSmallest_append_cons (pre post : List Int) (x : Int) (i : Nat) :
    replaceSmallest (i + pre.length) (pre ++ x :: post) i = pre ++ maxInt64 :: post := by
  induction pre generalizing i with
  | nil =>
    simp only [List.length_nil, Nat.add_zero, List.nil_append, replaceSmallest, if_true]
    rw [replaceSmallest_of_lt i post (i + 1) (by omega)]
  | cons a pre ih =>
    have hne : ¬ i = i + (pre.length + 1) := by omega
    simp only [List.length_cons, List.cons_append, replaceSmallest, hne, if_false]
    rw [show i + (pre.length + 1) = (i + 1) + pre.length by omega]
    exact congrArg (List.cons a) (ih (i + 1))

/-- The two indices returned by `indiciesOfTwoSmallest` on a list whose strict minimum is its
last entry. -/
theorem indiciesOfTwoSmallest_last (pre post : List Int) (y m : Int)
    (hpre : ∀ z ∈ pre, y < z) (hpost : ∀ z ∈ post, y ≤ z) (hy : y < maxInt64) (hm : m < y) :
    indiciesOfTwoSmallest (pre ++ y :: post ++ [m]) = ((pre ++ y :: post).length, pre.length) := by
  have h1 : (indiciesOfExtremes (pre ++ y :: post ++ [m])).1 = (pre ++ y :: post).length := by
    apply indiciesOfExtremes_fst (pre ++ y :: post) [] m
    · intro z hz
      rcases List.mem_append.1 hz with hz | hz
      · exact lt_trans hm (hpre z hz)
      · rcases List.mem_cons.1 hz with hz | hz
        · rw [hz]; exact hm
        · exact lt_of_lt_of_le hm (hpost z hz)
    · simp
    · exact lt_trans hm hy
  unfold indiciesOfTwoSmallest
  simp only [h1]
  have h2 := replaceSmallest_append_cons (pre ++ y :: post) [] m 0
  rw [Nat.zero_add] at h2
  rw [h2, List.append_assoc, List.cons_append]
  rw [indiciesOfExtremes_fst pre (post ++ [maxInt64]) y hpre _ hy]
  intro z hz
  rcases List.mem_append.1 hz with hz | hz
  · exact hpost z hz
  · rw [List.mem_singleton.1 hz]; exact le_of_lt hy

/-! ## One iteration of the balancing loops -/

/-- One iteration of the loop of `determineSmallerGroupSizes` on a list whose first maximum is
`M` and whose strict minimum is the last entry `m`. -/
theorem determineSmallerLoop_step (fuel : Nat) (A B : List Int) (M m : Int)
    (hA : ∀ z ∈ A, z < M ∧ m < z) (hB : ∀ z ∈ B, z ≤ M ∧ m < z)
    (hMm : m + 2 ≤ M) (hM : minInt64 < M) (hm : m < maxInt64) :
    determineSmallerLoop (fuel + 1) (A ++ M :: B ++ [m]) =
      determineSmallerLoop fuel (A ++ (M - 1) :: B ++ [m + 1]) := by
  have hineq : ¬ largestInequality (A ++ M :: B ++ [m]) < 2 := by
    rw [largestInequality_lt_two_iff]
    intro h
    have := h M (by simp) m (by simp)
    omega
  have hs : (indiciesOfExtremes (A ++ M :: B ++ [m])).1 = (A ++ M :: B).length := by
    apply indiciesOfExtremes_fst (A ++ M :: B) [] m
    · intro z hz
      rcases List.mem_append.1 hz with hz | hz
      · exact (hA z hz).2
      · rcases List.mem_cons.1 hz with hz | hz
        · rw [hz]; omega
        · exact (hB z hz).2
    · simp
    · exact hm
  have hl : (indiciesOfExtremes (A ++ M :: B ++ [m])).2 = A.length := by
    rw [List.append_assoc, List.cons_append]
    apply indiciesOfExtremes_snd A (B ++ [m]) M
    · exact fun z hz => (hA z hz).1
    · intro z hz
      rcases List.mem_append.1 hz with hz | hz
      · exact (hB z hz).1
      · rw [List.mem_singleton.1 hz]; omega
    · exact hM
  rw [determineSmallerLoop, if_neg hineq]
  simp only [hs, hl]
  have e1 : (A ++ M :: B ++ [m]).getD A.length 0 = M := by
    rw [List.append_assoc, List.cons_append]
    exact getD_append_cons A (B ++ [m]) M 0
  have e2 : (A ++ M :: B ++ [m]).set A.length (M - 1) = A ++ (M - 1) :: B ++ [m] := by
    rw [List.append_assoc, List.cons_append, set_append_cons, List.append_assoc, List.cons_append]
  have e3 : (A ++ M :: B).length = (A ++ (M - 1) :: B).length := by simp
  rw [e1, e2, e3]
  have e4 : (A ++ (M - 1) :: B ++ [m]).getD (A ++ (M - 1) :: B).length 0 = m :=
    getD_append_cons (A ++ (M - 1) :: B) [] m 0
  have e5 : (A ++ (M - 1) :: B ++ [m]).set (A ++ (M - 1) :: B).length (m + 1) =
      A ++ (M - 1) :: B ++ [m + 1] :=
    set_append_cons (A ++ (M - 1) :: B) [] m (m + 1)
  rw [e4, e5]

/-- One iteration of the loop of `determineLargerGroupSizes` on a list whose strict minimum is
the last entry `m` and whose first second-smallest entry is `y`. -/
theorem determineLargerLoop_step (fuel : Nat) (A B : List Int) (y m : Int)
    (hA : ∀ z ∈ A, y < z) (hB : ∀ z ∈ B, y ≤ z)
    (hym : m + 2 ≤ y) (hy : y < maxInt64) :
    determineLargerLoop (fuel + 1) (A ++ y :: B ++ [m]) =
      determineLargerLoop fuel
        (if m - 1 = 0 then A ++ (y + 1) :: B else A ++ (y + 1) :: B ++ [m - 1]) := by
  have hineq : ¬ largestInequality (A ++ y :: B ++ [m]) < 2 := by
    rw [largestInequality_lt_two_iff]
    intro h
    have := h y (by simp) m (by simp)
    omega
  have hi := indiciesOfTwoSmallest_last A B y m hA hB hy (by omega)
  rw [determineLargerLoop, if_neg hineq]
  simp only [hi]
  have e1 : (A ++ y :: B ++ [m]).getD A.length 0 = y := by
    rw [List.append_assoc, List.cons_append]
    exact getD_append_cons A (B ++ [m]) y 0
  have e2 : (A ++ y :: B ++ [m]).set A.length (y + 1) = A ++ (y + 1) :: B ++ [m] := by
    rw [List.append_assoc, List.cons_append, set_append_cons, List.append_assoc, List.cons_append]
  have e3 : (A ++ y :: B).length = (A ++ (y + 1) :: B).length := by simp
  rw [e1, e2, e3]
  have e4 : (A ++ (y + 1) :: B ++ [m]).getD (A ++ (y + 1) :: B).length 0 = m :=
    getD_append_cons (A ++ (y + 1) :: B) [] m 0
  have e5 : (A ++ (y + 1) :: B ++ [m]).set (A ++ (y + 1) :: B).length (m - 1) =
      A ++ (y + 1) :: B ++ [m - 1] :=
    set_append_cons (A ++ (y + 1) :: B) [] m (m - 1)
  rw [e4, e5]
  have e6 : (A ++ (y + 1) :: B ++ [m - 1]).getD (A ++ (y + 1) :: B).length 0 = m - 1 :=
    getD_append_cons (A ++ (y + 1) :: B) [] (m - 1) 0
  have e7 : (A ++ (y + 1) :: B ++ [m - 1]).take (A ++ (y + 1) :: B).length = A ++ (y + 1) :: B :=
    take_append_cons (A ++ (y + 1) :: B) [] (m - 1)
  have e8 : (A ++ (y + 1) :: B ++ [m - 1]).drop ((A ++ (y + 1) :: B).length + 1) = [] :=
    drop_append_cons (A ++ (y + 1) :: B) [] (m - 1)
  rw [e6, e7, e8, List.append_nil]

/-! ## The balancing loops on the lists they are started on -/

theorem replicate_append_cons_self (a : Nat) (x : Int) (B : List Int) :
    List.replicate a x ++ x :: B = List.replicate (a + 1) x ++ B := by
  rw [List.replicate_succ', List.append_assoc]
  rfl

/-- The loop of `determineSmallerGroupSizes` started on `a` entries `v - 1`, then `b ≥ 1`
entries `v`, then one entry `l ≤ v`: it stops within `v - l + 1` iterations, on a list of the
same form whose last entry is within one of the others. -/
theorem determineSmallerLoop_run (fuel : Nat) :
    ∀ (a b : Nat) (v l : Int), 1 ≤ b → l ≤ v → v ≤ maxInt64 → minInt64 < l →
      (v - l).toNat < fuel →
      ∃ (a' b' : Nat) (v' l' : Int),
        determineSmallerLoop fuel (List.replicate a (v - 1) ++ List.replicate b v ++ [l]) =
            .ok (List.replicate a' (v' - 1) ++ List.replicate b' v' ++ [l']) ∧
          a' + b' = a + b ∧ 1 ≤ b' ∧ v' - 1 ≤ l' ∧ l' ≤ v' ∧
          (List.replicate a' (v' - 1) ++ List.replicate b' v' ++ [l']).sum =
            (List.replicate a (v - 1) ++ List.replicate b v ++ [l]).sum := by
  induction fuel with
  | zero => intro a b v l _ _ _ _ h; omega
  | succ fuel ih =>
    intro a b v l hb hl hv hmin hfuel
    by_cases hstop : v - 1 ≤ l
    · refine ⟨a, b, v, l, ?_, rfl, hb, hstop, hl, rfl⟩
      have hineq : largestInequality
          (List.replicate a (v - 1) ++ List.replicate b v ++ [l]) < 2 := by
        rw [largestInequality_lt_two_iff]
        intro x hx y hy
        simp only [List.mem_append, List.mem_replicate, List.mem_singleton] at hx hy
        rcases hx with (⟨_, hx⟩ | ⟨_, hx⟩) | hx <;> rcases hy with (⟨_, hy⟩ | ⟨_, hy⟩) | hy <;>
          omega
      rw [determineSmallerLoop, if_pos hineq]
    · obtain ⟨b0, rfl⟩ : ∃ b0, b = b0 + 1 := ⟨b - 1, by omega⟩
      have hstep := determineSmallerLoop_step fuel (List.replicate a (v - 1))
        (List.replicate b0 v) v l
        (by intro z hz; rw [List.mem_replicate] at hz; omega)
        (by intro z hz; rw [List.mem_replicate] at hz; omega)
        (by omega) (by omega) (by omega)
      rw [List.replicate_succ, hstep, replicate_append_cons_self]
      have hsum : (List.replicate (a + 1) (v - 1) ++ List.replicate b0 v ++ [l + 1]).sum =
          (List.replicate a (v - 1) ++ v :: List.replicate b0 v ++ [l]).sum := by
        rw [List.replicate_succ']
        simp only [List.sum_append, List.sum_cons, List.sum_nil]
        omega
      by_cases hb0 : 1 ≤ b0
      · obtain ⟨a', b', v', l', h1, h2, h3, h4, h5, h6⟩ :=
          ih (a + 1) b0 v (l + 1) hb0 (by omega) hv (by omega) (by omega)
        exact ⟨a', b', v', l', h1, by omega, h3, h4, h5, by rw [h6, hsum]⟩
      · have hb0' : b0 = 0 := by omega
        subst hb0'
        obtain ⟨a', b', v', l', h1, h2, h3, h4, h5, h6⟩ :=
          ih 0 (a + 1) (v - 1) (l + 1) (by omega) (by omega) (by omega) (by omega) (by omega)
        simp only [List.replicate_zero, List.nil_append, List.append_nil] at h1 h6 hsum ⊢
        exact ⟨a', b', v', l', h1, by omega, h3, h4, h5, by rw [h6, hsum]⟩

theorem determineLoop_stop_of_balanced (a b : Nat) (v : Int) :
    largestInequality (List.replicate a (v + 1) ++ List.replicate b v) < 2 := by
  rw [largestInequality_lt_two_iff]
  intro x hx y hy
  simp only [List.mem_append, List.mem_replicate] at hx hy
  rcases hx with ⟨_, hx⟩ | ⟨_, hx⟩ <;> rcases hy with ⟨_, hy⟩ | ⟨_, hy⟩ <;> omega

/-- The loop of `determineLargerGroupSizes` started on `a` entries `v + 1`, then `b ≥ 1`
entries `v`, then one entry `l` with `1 ≤ l ≤ v - 2`: it empties and removes the last entry
within `l` iterations and stops on the next one. -/
theorem determineLargerLoop_run (fuel : Nat) :
    ∀ (a b : Nat) (v l : Int), 1 ≤ b → 1 ≤ l → l + 2 ≤ v → v + l ≤ maxInt64 →
      l.toNat < fuel →
      ∃ (a' b' : Nat) (v' : Int),
        determineLargerLoop fuel (List.replicate a (v + 1) ++ List.replicate b v ++ [l]) =
            .ok (List.replicate a' (v' + 1) ++ List.replicate b' v') ∧
          a' + b' = a + b ∧ 1 ≤ b' ∧ v ≤ v' ∧
          (List.replicate a' (v' + 1) ++ List.replicate b' v').sum =
            (List.replicate a (v + 1) ++ List.replicate b v ++ [l]).sum := by
  induction fuel with
  | zero => intro a b v l _ _ _ _ h; omega
  | succ fuel ih =>
    intro a b v l hb hl1 hlv hmax hfuel
    obtain ⟨b0, rfl⟩ : ∃ b0, b = b0 + 1 := ⟨b - 1, by omega⟩
    have hstep := determineLargerLoop_step fuel (List.replicate a (v + 1))
      (List.replicate b0 v) v l
      (by intro z hz; rw [List.mem_replicate] at hz; omega)
      (by intro z hz; rw [List.mem_replicate] at hz; omega)
      (by omega) (by omega)
    rw [List.replicate_succ, hstep, replicate_append_cons_self]
    have hsum : (List.replicate (a + 1) (v + 1) ++ List.replicate b0 v ++ [l - 1]).sum =
        (List.replicate a (v + 1) ++ v :: List.replicate b0 v ++ [l]).sum := by
      rw [List.replicate_succ']
      simp only [List.sum_append, List.sum_cons, List.sum_nil]
      omega
    by_cases hlast : l - 1 = 0
    · rw [if_pos hlast]
      rw [hlast] at hsum
      simp only [List.sum_append, List.sum_cons, List.sum_nil, add_zero] at hsum
      obtain ⟨f, rfl⟩ : ∃ f, fuel = f + 1 := ⟨fuel - 1, by omega⟩
      by_cases hb0 : 1 ≤ b0
      · refine ⟨a + 1, b0, v, ?_, by omega, hb0, le_refl v, ?_⟩
        · rw [determineLargerLoop, if_pos (determineLoop_stop_of_balanced (a + 1) b0 v)]
        · simp only [List.sum_append, List.sum_cons, List.sum_nil, add_zero]
          omega
      · have hb0' : b0 = 0 := by omega
        subst hb0'
        refine ⟨0, a + 1, v + 1, ?_, by omega, by omega, by omega, ?_⟩
        · have := determineLoop_stop_of_balanced 0 (a + 1) (v + 1)
          simp only [List.replicate_zero, List.nil_append, List.append_nil] at this ⊢
          rw [determineLargerLoop, if_pos this]
        · simp only [List.replicate_zero, List.nil_append, List.append_nil, List.sum_append,
            List.sum_cons, List.sum_nil, add_zero] at hsum ⊢
          omega
    · rw [if_neg hlast]
      by_cases hb0 : 1 ≤ b0
      · obtain ⟨a', b', v', h1, h2, h3, h4, h5⟩ :=
          ih (a + 1) b0 v (l - 1) hb0 (by omega) (by omega) (by omega) (by omega)
        exact ⟨a', b', v', h1, by omega, h3, h4, by rw [h5, hsum]⟩
      · have hb0' : b0 = 0 := by omega
        subst hb0'
        obtain ⟨a', b', v', h1, h2, h3, h4, h5⟩ :=
          ih 0 (a + 1) (v + 1) (l - 1) (by omega) (by omega) (by omega) (by omega) (by omega)
        simp only [List.replicate_zero, List.nil_append, List.append_nil] at h1 h5 hsum ⊢
        exact ⟨a', b', v', h1, by omega, h3, by omega, by rw [h5, hsum]⟩

/-! ## More fuel does not change a result -/

theorem determineSmallerLoop_mono (fuel : Nat) :
    ∀ (groupSizes res : List Int), determineSmallerLoop fuel groupSizes = .ok res →
      ∀ fuel', fuel ≤ fuel' → determineSmallerLoop fuel' groupSizes = .ok res := by
  induction fuel with
  | zero => intro gs res h; simp [determineSmallerLoop] at h
  | succ fuel ih =>
    intro gs res h fuel' hle
    obtain ⟨f, rfl⟩ : ∃ f, fuel' = f + 1 := ⟨fuel' - 1, by omega⟩
    rw [determineSmallerLoop] at h ⊢
    split
    · rename_i hlt
      rw [if_pos hlt] at h
      exact h
    · rename_i hlt
      rw [if_neg hlt] at h
      exact ih _ _ h f (by omega)

theorem determineLargerLoop_mono (fuel : Nat) :
    ∀ (groupSizes res : List Int), determineLargerLoop fuel groupSizes = .ok res →
      ∀ fuel', fuel ≤ fuel' → determineLargerLoop fuel' groupSizes = .ok res := by
  induction fuel with
  | zero => intro gs res h; simp [determineLargerLoop] at h
  | succ fuel ih =>
    intro gs res h fuel' hle
    obtain ⟨f, rfl⟩ : ∃ f, fuel' = f + 1 := ⟨fuel' - 1, by omega⟩
    rw [determineLargerLoop] at h ⊢
    split
    · rename_i hlt
      rw [if_pos hlt] at h
      exact h
    · rename_i hlt
      rw [if_neg hlt] at h
      exact ih _ _ h f (by omega)

theorem map_eq_ok {α β : Type} (f : α → β) (x : Run α) (y : β)
    (h : x.map f = .ok y) : ∃ a, x = .ok a ∧ f a = y := by
  cases x with
  | error e => simp [Except.map] at h
  | ok a => exact ⟨a, rfl, by simpa [Except.map] using h⟩

theorem determineGroupSizes_mono (fuel fuel' : Nat) (numStudents optimalGroupSize : Int)
    (preferSmallerGroups : Bool) (res : List Int) (hle : fuel ≤ fuel')
    (h : determineGroupSizes fuel numStudents optimalGroupSize preferSmallerGroups = .ok res) :
    determineGroupSizes fuel' numStudents optimalGroupSize preferSmallerGroups = .ok res := by
  unfold determineGroupSizes at h ⊢
  split
  · rename_i h1; rw [if_pos h1] at h; exact h
  · rename_i h1
    rw [if_neg h1] at h
    split
    · rename_i h2; rw [if_pos h2] at h; exact h
    · rename_i h2
      rw [if_neg h2] at h
      simp only at h ⊢
      split
      · rename_i h3
        rw [if_pos h3] at h
        split
        · rename_i h4
          rw [if_pos h4] at h
          unfold determineSmallerGroupSizes at h ⊢
          obtain ⟨a, ha, hs⟩ := map_eq_ok _ _ _ h
          rw [determineSmallerLoop_mono fuel _ a ha fuel' hle, ← hs]
          rfl
        · rename_i h4
          rw [if_neg h4] at h
          unfold determineLargerGroupSizes at h ⊢
          obtain ⟨a, ha, hs⟩ := map_eq_ok _ _ _ h
          rw [determineLargerLoop_mono fuel _ a ha fuel' hle, ← hs]
          rfl
      · rename_i h3; rw [if_neg h3] at h; exact h

/-- Any two runs of `determineGroupSizes` that return agree, whatever their fuel. -/
theorem determineGroupSizes_unique (fuel fuel' : Nat) (numStudents optimalGroupSize : Int)
    (preferSmallerGroups : Bool) (res res' : List Int)
    (h : determineGroupSizes fuel numStudents optimalGroupSize preferSmallerGroups = .ok res)
    (h' : determineGroupSizes fuel' numStudents optimalGroupSize preferSmallerGroups = .ok res') :
    res = res' := by
  have e1 := determineGroupSizes_mono fuel (max fuel fuel') _ _ _ res (le_max_left _ _) h
  have e2 := determineGroupSizes_mono fuel' (max fuel fuel') _ _ _ res' (le_max_right _ _) h'
  rw [e1] at e2
  exact Except.ok.inj e2

/-! ## Sorting a list of two adjacent values -/

theorem sortInts_eq_of_perm {l t : List Int} (hp : l.Perm t) (hs : t.Sorted (· ≤ ·)) :
    sortInts l = t :=
  List.eq_of_perm_of_sorted ((List.perm_insertionSort _ l).trans hp)
    (List.sorted_insertionSort _ l) hs

theorem sorted_replicate_append (c d : Nat) (w : Int) :
    (List.replicate c w ++ List.replicate d (w + 1)).Sorted (· ≤ ·) := by
  unfold List.Sorted
  rw [List.pairwise_append]
  refine ⟨?_, ?_, ?_⟩
  · rw [List.pairwise_replicate]; right; exact le_refl w
  · rw [List.pairwise_replicate]; right; exact le_refl _
  · intro x hx y hy
    rw [List.mem_replicate] at hx hy
    omega

theorem perm_replicate_of_two_values (w : Int) (l : List Int)
    (h : ∀ x ∈ l, x = w ∨ x = w + 1) :
    l.Perm (List.replicate (l.count w) w ++ List.replicate (l.count (w + 1)) (w + 1)) := by
  induction l with
  | nil => simp
  | cons x l ih =>
    have ih' := ih (fun y hy => h y (List.mem_cons_of_mem x hy))
    rcases h x (List.mem_cons_self x l) with hx | hx
    · subst hx
      have hne : x + 1 ≠ x := by omega
      simp only [List.count_cons_self, List.count_cons_of_ne hne, List.replicate_succ,
        List.cons_append]
      exact List.Perm.cons x ih'
    · subst hx
      have hne : w ≠ w + 1 := by omega
      simp only [List.count_cons_self, List.count_cons_of_ne hne, List.replicate_succ]
      exact (List.Perm.cons (w + 1) ih').trans List.perm_middle.symm

theorem balancedSizes_eq (c d : Nat) (w : Int) (hc : 1 ≤ c) :
    balancedSizes (c + d) (((c + d : Nat) : Int) * w + d) =
      List.replicate c w ++ List.replicate d (w + 1) := by
  have hpos : (0 : Int) < ((c + d : Nat) : Int) := by omega
  have h := (Int.ediv_emod_unique (a := ((c + d : Nat) : Int) * w + d) (q := w) (r := (d : Int))
    hpos).2 ⟨by ring, by omega, by omega⟩
  unfold balancedSizes
  rw [h.1, h.2]
  simp

/-- Sorting a list whose entries are all `w` or `w + 1`, with `w` among them, gives the balanced
split of its sum into as many sizes as it has entries. -/
theorem sortInts_eq_balancedSizes (w : Int) (l : List Int) (hw : w ∈ l)
    (h : ∀ x ∈ l, x = w ∨ x = w + 1) :
    sortInts l = balancedSizes l.length l.sum := by
  have hp := perm_replicate_of_two_values w l h
  have hc : 1 ≤ l.count w := List.count_pos_iff.2 hw
  rw [sortInts_eq_of_perm hp (sorted_replicate_append _ _ w)]
  have hlen : l.length = l.count w + l.count (w + 1) := by
    rw [hp.length_eq]; simp
  have hsum : l.sum =
      ((l.count w + l.count (w + 1) : Nat) : Int) * w + (l.count (w + 1) : Nat) := by
    rw [hp.sum_eq]
    simp only [List.sum_append, List.sum_replicate, smul_eq_mul, nsmul_eq_mul]
    push_cast
    ring
  rw [hlen, hsum, balancedSizes_eq _ _ w hc]

/-! ## What `determineGroupSizes` returns -/

theorem sortInts_smaller_result (a b : Nat) (v l : Int) (h1 : v - 1 ≤ l) (h2 : l ≤ v) :
    sortInts (List.replicate a (v - 1) ++ List.replicate b v ++ [l]) =
      balancedSizes (a + b + 1)
        (List.replicate a (v - 1) ++ List.replicate b v ++ [l]).sum := by
  have hlen : (List.replicate a (v - 1) ++ List.replicate b v ++ [l]).length = a + b + 1 := by
    simp only [List.length_append, List.length_replicate, List.length_singleton]
  rw [← hlen]
  by_cases hcase : a = 0 ∧ l = v
  · obtain ⟨ha, hl⟩ := hcase
    subst ha hl
    apply sortInts_eq_balancedSizes l
    · simp
    · intro x hx
      simp only [List.replicate_zero, List.nil_append, List.mem_append, List.mem_replicate,
        List.mem_singleton] at hx
      omega
  · apply sortInts_eq_balancedSizes (v - 1)
    · simp only [List.mem_append, List.mem_replicate, List.mem_singleton]
      by_cases ha : a = 0
      · right; omega
      · left; left; exact ⟨ha, trivial⟩
    · intro x hx
      simp only [List.mem_append, List.mem_replicate, List.mem_singleton] at hx
      omega

theorem sortInts_replicate (n : Nat) (x : Int) :
    sortInts (List.replicate n x) = List.replicate n x := by
  apply sortInts_eq_of_perm (List.Perm.refl _)
  unfold List.Sorted
  rw [List.pairwise_replicate]
  right
  exact le_refl x

theorem div_facts (N S : Int) (hN : 0 ≤ N) (hS : 1 ≤ S) :
    Int.tdiv N S = N / S ∧ N - S * (N / S) = N % S ∧ 0 ≤ N % S ∧ N % S < S ∧ 0 ≤ N / S ∧
      (((N / S).toNat : Nat) : Int) = N / S ∧ S * (N / S) + N % S = N := by
  have h1 : Int.tdiv N S = N / S := Int.tdiv_eq_ediv hN (by omega)
  have h2 : N % S = N - S * (N / S) := Int.emod_def N S
  have h3 : 0 ≤ N % S := Int.emod_nonneg N (by omega)
  have h4 : N % S < S := Int.emod_lt_of_pos N (by omega)
  have h5 : 0 ≤ N / S := Int.ediv_nonneg hN (by omega)
  exact ⟨h1, h2.symm, h3, h4, h5, Int.toNat_of_nonneg h5, by omega⟩

theorem one_le_div (N S : Int) (hS : 1 ≤ S) (hSN : S ≤ N) : 1 ≤ N / S := by
  have := Int.ediv_le_ediv (by omega : (0 : Int) < S) hSN
  rwa [Int.ediv_self (by omega)] at this

theorem sum_initialGroupSizes (S : Int) (q : Nat) (r : Int) :
    (List.replicate q S ++ [r]).sum = (q : Int) * S + r := by
  simp [List.sum_append, List.sum_replicate]

/-- Too few students for one group: the single size `numStudents`. -/
theorem determineGroupSizes_of_lt (fuel : Nat) (N S : Int) (p : Bool) (h : N < S) :
    determineGroupSizes fuel N S p = .ok [N] := by
  unfold determineGroupSizes
  rw [if_pos h]

/-- The class divides evenly: `numStudents / optimalGroupSize` sizes `optimalGroupSize`. -/
theorem determineGroupSizes_of_dvd (fuel : Nat) (N S : Int) (p : Bool) (hS : 1 ≤ S)
    (hSN : S ≤ N) (hr : N % S = 0) :
    determineGroupSizes fuel N S p = .ok (List.replicate (N / S).toNat S) := by
  obtain ⟨h1, h2, _, _, _, _, _⟩ := div_facts N S (by omega) hS
  unfold determineGroupSizes
  rw [if_neg (by omega), if_neg (by omega)]
  simp only [h1, h2, hr, gt_iff_lt, lt_self_iff_false, if_false, sortInts_replicate]

/-- Preferring smaller groups with a remainder: the balanced split into one more group than
the number of optimal groups. -/
theorem determineGroupSizes_smaller (fuel : Nat) (N S : Int) (hS : 1 ≤ S) (hSN : S ≤ N)
    (hmax : N ≤ maxInt64) (hr : 0 < N % S) (hfuel : S.toNat < fuel) :
    determineGroupSizes fuel N S true = .ok (balancedSizes ((N / S).toNat + 1) N) := by
  obtain ⟨h1, h2, h3, h4, h5, h6, h7⟩ := div_facts N S (by omega) hS
  have hq := one_le_div N S hS hSN
  unfold determineGroupSizes
  rw [if_neg (by omega), if_neg (by omega)]
  simp only [h1, h2, gt_iff_lt, hr, if_true]
  unfold determineSmallerGroupSizes initialGroupSizes
  obtain ⟨a', b', v', l', e1, e2, e3, e4, e5, e6⟩ :=
    determineSmallerLoop_run fuel 0 (N / S).toNat S (N % S) (by omega) (by omega) (by omega)
      (by unfold minInt64; omega) (by omega)
  simp only [List.replicate_zero, List.nil_append] at e1 e6
  rw [e1]
  show Except.ok (sortInts _) = _
  rw [sortInts_smaller_result a' b' v' l' e4 e5, e6, sum_initialGroupSizes, h6]
  rw [show a' + b' + 1 = (N / S).toNat + 1 by omega]
  rw [show N / S * S + N % S = N by rw [mul_comm]; exact h7]

/-- Preferring larger groups with a remainder of at most `optimalGroupSize - 2`: the remainder
group is emptied and removed, leaving the balanced split into the optimal groups. -/
theorem determineGroupSizes_larger (fuel : Nat) (N S : Int) (hS : 1 ≤ S) (hSN : S ≤ N)
    (hmax : N ≤ maxInt64) (hr : 0 < N % S) (hr2 : N % S ≤ S - 2) (hfuel : S.toNat < fuel) :
    determineGroupSizes fuel N S false = .ok (balancedSizes (N / S).toNat N) := by
  obtain ⟨h1, h2, h3, h4, h5, h6, h7⟩ := div_facts N S (by omega) hS
  have hq := one_le_div N S hS hSN
  have hSr : S + N % S ≤ N := by
    have : S * 1 ≤ S * (N / S) := Int.mul_le_mul_of_nonneg_left hq (by omega)
    omega
  unfold determineGroupSizes
  rw [if_neg (by omega), if_neg (by omega)]
  simp only [h1, h2, gt_iff_lt, hr, if_true]
  unfold determineLargerGroupSizes initialGroupSizes
  obtain ⟨a', b', v', e1, e2, e3, _, e6⟩ :=
    determineLargerLoop_run fuel 0 (N / S).toNat S (N % S) (by omega) (by omega) (by omega)
      (by omega) (by omega)
  simp only [List.replicate_zero, List.nil_append] at e1 e6
  simp only [Bool.false_eq_true, if_false]
  rw [e1]
  show Except.ok (sortInts _) = _
  rw [sortInts_eq_balancedSizes v' _ (by simp; omega)
    (by intro x hx; simp only [List.mem_append, List.mem_replicate] at hx; omega)]
  rw [e6, sum_initialGroupSizes, h6]
  rw [show (List.replicate a' (v' + 1) ++ List.replicate b' v').length = (N / S).toNat by
    simp only [List.length_append, List.length_replicate]; omega]
  rw [show N / S * S + N % S = N by rw [mul_comm]; exact h7]

/-- Preferring larger groups with a remainder of `optimalGroupSize - 1`: the sizes already
differ by one, so the remainder group stays. -/
theorem determineGroupSizes_larger_keep (fuel : Nat) (N S : Int) (hS : 1 ≤ S) (hSN : S ≤ N)
    (hr : 0 < N % S) (hr2 : N % S = S - 1) (hfuel : 0 < fuel) :
    determineGroupSizes fuel N S false = .ok ((S - 1) :: List.replicate (N / S).toNat S) := by
  obtain ⟨h1, h2, h3, h4, h5, h6, h7⟩ := div_facts N S (by omega) hS
  unfold determineGroupSizes
  rw [if_neg (by omega), if_neg (by omega)]
  simp only [h1, h2, gt_iff_lt, hr, if_true, Bool.false_eq_true, if_false]
  unfold determineLargerGroupSizes initialGroupSizes
  obtain ⟨f, rfl⟩ : ∃ f, fuel = f + 1 := ⟨fuel - 1, by omega⟩
  have hineq : largestInequality (List.replicate (N / S).toNat S ++ [N % S]) < 2 := by
    rw [largestInequality_lt_two_iff]
    intro x hx y hy
    simp only [List.mem_append, List.mem_replicate, List.mem_singleton] at hx hy
    omega
  rw [determineLargerLoop, if_pos hineq]
  show Except.ok (sortInts _) = _
  rw [hr2, sortInts_eq_of_perm (List.perm_append_singleton (S - 1) _)]
  unfold List.Sorted
  rw [List.pairwise_cons, List.pairwise_replicate]
  refine ⟨?_, Or.inr (le_refl S)⟩
  intro x hx
  rw [List.mem_replicate] at hx
  omega

/-! ## The balanced split -/

theorem balancedSizes_mod_le (m : Nat) (N : Int) (hm : 1 ≤ m) :
    0 ≤ N % (m : Int) ∧ (N % (m : Int)).toNat ≤ m ∧ (N % (m : Int)).toNat < m := by
  have h1 : 0 ≤ N % (m : Int) := Int.emod_nonneg N (by omega)
  have h2 : N % (m : Int) < m := Int.emod_lt_of_pos N (by omega)
  omega

theorem balancedSizes_length (m : Nat) (N : Int) (hm : 1 ≤ m) :
    (balancedSizes m N).length = m := by
  have := balancedSizes_mod_le m N hm
  unfold balancedSizes
  simp only [List.length_append, List.length_replicate]
  omega

theorem balancedSizes_sum (m : Nat) (N : Int) (hm : 1 ≤ m) : (balancedSizes m N).sum = N := by
  obtain ⟨h0, h1, _⟩ := balancedSizes_mod_le m N hm
  have h2 := Int.emod_add_ediv N (m : Int)
  unfold balancedSizes
  simp only [List.sum_append, List.sum_replicate, smul_eq_mul, nsmul_eq_mul]
  rw [Nat.cast_sub h1, Int.toNat_of_nonneg h0]
  linear_combination h2

theorem balancedSizes_sorted (m : Nat) (N : Int) : (balancedSizes m N).Sorted (· ≤ ·) :=
  sorted_replicate_append _ _ _

theorem balancedSizes_mem (m : Nat) (N : Int) (x : Int) (hx : x ∈ balancedSizes m N) :
    x = N / (m : Int) ∨ x = N / (m : Int) + 1 := by
  unfold balancedSizes at hx
  simp only [List.mem_append, List.mem_replicate] at hx
  omega

/-- Whenever at least one optimal group can be formed, `determineGroupSizes` returns a balanced
split of the class. -/
theorem determineGroupSizes_balanced (fuel : Nat) (N S : Int) (p : Bool) (hS : 1 ≤ S)
    (hSN : S ≤ N) (hmax : N ≤ maxInt64) (hfuel : S.toNat < fuel) :
    ∃ m : Nat, 1 ≤ m ∧ determineGroupSizes fuel N S p = .ok (balancedSizes m N) := by
  obtain ⟨h1, h2, h3, h4, h5, h6, h7⟩ := div_facts N S (by omega) hS
  have hq := one_le_div N S hS hSN
  by_cases hr : N % S = 0
  · refine ⟨(N / S).toNat, by omega, ?_⟩
    rw [determineGroupSizes_of_dvd fuel N S p hS hSN hr]
    have := balancedSizes_eq (N / S).toNat 0 S (by omega)
    simp only [Nat.add_zero, Nat.cast_zero, add_zero, List.replicate_zero, List.append_nil,
      h6] at this
    rw [← this, show N / S * S = N by rw [mul_comm]; omega]
  · cases p with
    | true =>
      exact ⟨(N / S).toNat + 1, by omega,
        determineGroupSizes_smaller fuel N S hS hSN hmax (by omega) hfuel⟩
    | false =>
      by_cases hr2 : N % S ≤ S - 2
      · exact ⟨(N / S).toNat, by omega,
          determineGroupSizes_larger fuel N S hS hSN hmax (by omega) hr2 hfuel⟩
      · refine ⟨1 + (N / S).toNat, by omega, ?_⟩
        rw [determineGroupSizes_larger_keep fuel N S hS hSN (by omega) (by omega) (by omega)]
        have := balancedSizes_eq 1 (N / S).toNat (S - 1) (by omega)
        simp only [sub_add_cancel, List.replicate_one, List.singleton_append] at this
        rw [← this]
        congr 2
        push_cast
        rw [h6]
        have e : N % S = S - 1 := by omega
        rw [e] at h7
        linear_combination h7

theorem le_maxInt64_of_exact (N : Int) (h : N ≤ maxExactInt) : N ≤ maxInt64 := by
  unfold maxExactInt at h
  unfold maxInt64
  omega

/-! ## Claims about `determineGroupSizes` -/

/-- C2: for every roster size `N` (up to `2^53`, where the conversions to `float64` are exact),
optimal size `S ≥ 1` and either preference, `determineGroupSizes` returns, and the sizes it
returns sum to exactly `N`. -/
theorem determineGroupSizes_sum (N S : Int) (p : Bool) (hS : 1 ≤ S) (hexact : N ≤ maxExactInt) :
    (∃ fuel sizes, determineGroupSizes fuel N S p = .ok sizes) ∧
      ∀ fuel sizes, determineGroupSizes fuel N S p = .ok sizes → sizes.sum = N := by
  by_cases hlt : N < S
  · refine ⟨⟨0, [N], determineGroupSizes_of_lt 0 N S p hlt⟩, fun fuel sizes h => ?_⟩
    rw [determineGroupSizes_of_lt fuel N S p hlt] at h
    rw [← Except.ok.inj h]
    simp
  · obtain ⟨m, hm, e⟩ :=
      determineGroupSizes_balanced (S.toNat + 1) N S p hS (by omega)
        (le_maxInt64_of_exact N hexact) (by omega)
    refine ⟨⟨_, _, e⟩, fun fuel sizes h => ?_⟩
    rw [determineGroupSizes_unique _ _ _ _ _ _ _ h e]
    exact balancedSizes_sum m N hm

/-- Witness for C2 at `N = 21`, `S = 4`, preferring smaller groups. -/
theorem determineGroupSizes_sum_witness :
    (∃ fuel sizes, determineGroupSizes fuel 21 4 true = .ok sizes) ∧
      ∀ fuel sizes, determineGroupSizes fuel 21 4 true = .ok sizes → sizes.sum = 21 :=
  determineGroupSizes_sum 21 4 true (by decide) (by decide)

/-- C3: for every `N ≥ S ≥ 1` (with `N ≤ 2^53`, where the conversions to `float64` are exact)
and either preference,
`determineGroupSizes` returns, and any two sizes it returns differ by at most 1. -/
theorem determineGroupSizes_difference (N S : Int) (p : Bool) (hS : 1 ≤ S) (hSN : S ≤ N)
    (hexact : N ≤ maxExactInt) :
    (∃ fuel sizes, determineGroupSizes fuel N S p = .ok sizes) ∧
      ∀ fuel sizes, determineGroupSizes fuel N S p = .ok sizes →
        ∀ x ∈ sizes, ∀ y ∈ sizes, |x - y| ≤ 1 := by
  obtain ⟨m, _, e⟩ :=
    determineGroupSizes_balanced (S.toNat + 1) N S p hS hSN (le_maxInt64_of_exact N hexact)
      (by omega)
  refine ⟨⟨_, _, e⟩, fun fuel sizes h x hx y hy => ?_⟩
  rw [determineGroupSizes_unique _ _ _ _ _ _ _ h e] at hx hy
  have h1 := balancedSizes_mem m N x hx
  have h2 := balancedSizes_mem m N y hy
  rw [abs_le]
  omega

/-- Witness for C3 at `N = 13`, `S = 5`, preferring larger groups. -/
theorem determineGroupSizes_difference_witness :
    (∃ fuel sizes, determineGroupSizes fuel 13 5 false = .ok sizes) ∧
      ∀ fuel sizes, determineGroupSizes fuel 13 5 false = .ok sizes →
        ∀ x ∈ sizes, ∀ y ∈ sizes, |x - y| ≤ 1 :=
  determineGroupSizes_difference 13 5 false (by decide) (by decide) (by decide)

/-- C4: for every `N` (up to `2^53`, where the conversions to `float64` are exact),
`S ≥ 1` and either preference,
`determineGroupSizes` returns, and the list it returns is sorted in non-decreasing order. -/
theorem determineGroupSizes_sorted (N S : Int) (p : Bool) (hS : 1 ≤ S) (hexact : N ≤ maxExactInt) :
    (∃ fuel sizes, determineGroupSizes fuel N S p = .ok sizes) ∧
      ∀ fuel sizes, determineGroupSizes fuel N S p = .ok sizes → sizes.Sorted (· ≤ ·) := by
  by_cases hlt : N < S
  · refine ⟨⟨0, [N], determineGroupSizes_of_lt 0 N S p hlt⟩, fun fuel sizes h => ?_⟩
    rw [determineGroupSizes_of_lt fuel N S p hlt] at h
    rw [← Except.ok.inj h]
    exact List.sorted_singleton N
  · obtain ⟨m, hm, e⟩ :=
      determineGroupSizes_balanced (S.toNat + 1) N S p hS (by omega)
        (le_maxInt64_of_exact N hexact) (by omega)
    refine ⟨⟨_, _, e⟩, fun fuel sizes h => ?_⟩
    rw [determineGroupSizes_unique _ _ _ _ _ _ _ h e]
    exact balancedSizes_sorted m N

/-- Witness for C4 at `N = 11`, `S = 5`, preferring smaller groups. -/
theorem determineGroupSizes_sorted_witness :
    (∃ fuel sizes, determineGroupSizes fuel 11 5 true = .ok sizes) ∧
      ∀ fuel sizes, determineGroupSizes fuel 11 5 true = .ok sizes → sizes.Sorted (· ≤ ·) :=
  determineGroupSizes_sorted 11 5 true (by decide) (by decide)

/-- C5: for `N ≥ S ≥ 1` (with `N ≤ 2^53`, where the conversions to `float64` are exact),
`q = N / S` and remainder `N mod S > 0`,
`determineGroupSizes N S true` returns exactly `q + 1` sizes forming the balanced partition of
`N`: `q + 1 - N mod (q + 1)` copies of `N / (q + 1)` followed by `N mod (q + 1)` copies of
`N / (q + 1) + 1`. -/
theorem determineGroupSizes_smaller_partition (N S : Int) (hS : 1 ≤ S) (hSN : S ≤ N)
    (hexact : N ≤ maxExactInt) (hr : 0 < N % S) :
    (∃ fuel sizes, determineGroupSizes fuel N S true = .ok sizes) ∧
      ∀ fuel sizes, determineGroupSizes fuel N S true = .ok sizes →
        sizes.length = (N / S).toNat + 1 ∧
        sizes =
          List.replicate ((N / S).toNat + 1 - (N % (N / S + 1)).toNat) (N / (N / S + 1)) ++
            List.replicate (N % (N / S + 1)).toNat (N / (N / S + 1) + 1) := by
  have e := determineGroupSizes_smaller (S.toNat + 1) N S hS hSN
    (le_maxInt64_of_exact N hexact) hr (by omega)
  have h5 : 0 ≤ N / S := Int.ediv_nonneg (by omega) (by omega)
  refine ⟨⟨_, _, e⟩, fun fuel sizes h => ?_⟩
  rw [determineGroupSizes_unique _ _ _ _ _ _ _ h e]
  refine ⟨balancedSizes_length _ N (by omega), ?_⟩
  unfold balancedSizes
  rw [Nat.cast_add, Int.toNat_of_nonneg h5, Nat.cast_one]

/-- Witness for C5 at `N = 21`, `S = 4`. -/
theorem determineGroupSizes_smaller_partition_witness :
    (∃ fuel sizes, determineGroupSizes fuel 21 4 true = .ok sizes) ∧
      ∀ fuel sizes, determineGroupSizes fuel 21 4 true = .ok sizes →
        sizes.length = ((21 : Int) / 4).toNat + 1 ∧
        sizes =
          List.replicate (((21 : Int) / 4).toNat + 1 - ((21 : Int) % (21 / 4 + 1)).toNat)
              ((21 : Int) / (21 / 4 + 1)) ++
            List.replicate ((21 : Int) % (21 / 4 + 1)).toNat ((21 : Int) / (21 / 4 + 1) + 1) :=
  determineGroupSizes_smaller_partition 21 4 (by decide) (by decide) (by decide) (by decide)

/-- C6: for `N ≥ S ≥ 1` (with `N ≤ 2^53`, where the conversions to `float64` are exact),
`q = N / S` and remainder `r = N mod S > 0`,
`determineGroupSizes N S false` returns exactly `q` sizes when `r ≤ S - 2`, and exactly `q + 1`
sizes, namely `S - 1` followed by `q` copies of `S`, when `r = S - 1`. -/
theorem determineGroupSizes_larger_count (N S : Int) (hS : 1 ≤ S) (hSN : S ≤ N)
    (hexact : N ≤ maxExactInt) (hr : 0 < N % S) :
    (∃ fuel sizes, determineGroupSizes fuel N S false = .ok sizes) ∧
      ∀ fuel sizes, determineGroupSizes fuel N S false = .ok sizes →
        (N % S ≤ S - 2 → sizes.length = (N / S).toNat) ∧
        (N % S = S - 1 →
          sizes.length = (N / S).toNat + 1 ∧
            sizes = (S - 1) :: List.replicate (N / S).toNat S) := by
  have hq := one_le_div N S hS hSN
  by_cases hr2 : N % S ≤ S - 2
  · have e := determineGroupSizes_larger (S.toNat + 1) N S hS hSN
      (le_maxInt64_of_exact N hexact) hr hr2 (by omega)
    refine ⟨⟨_, _, e⟩, fun fuel sizes h => ⟨fun _ => ?_, fun h' => by omega⟩⟩
    rw [determineGroupSizes_unique _ _ _ _ _ _ _ h e]
    exact balancedSizes_length _ N (by omega)
  · have h4 : N % S < S := Int.emod_lt_of_pos N (by omega)
    have e := determineGroupSizes_larger_keep (S.toNat + 1) N S hS hSN hr (by omega) (by omega)
    refine ⟨⟨_, _, e⟩, fun fuel sizes h => ⟨fun h' => by omega, fun _ => ?_⟩⟩
    rw [determineGroupSizes_unique _ _ _ _ _ _ _ h e]
    simp

/-- Witness for C6 at `N = 13`, `S = 5`. -/
theorem determineGroupSizes_larger_count_witness :
    (∃ fuel sizes, determineGroupSizes fuel 13 5 false = .ok sizes) ∧
      ∀ fuel sizes, determineGroupSizes fuel 13 5 false = .ok sizes →
        ((13 : Int) % 5 ≤ 5 - 2 → sizes.length = ((13 : Int) / 5).toNat) ∧
        ((13 : Int) % 5 = 5 - 1 →
          sizes.length = ((13 : Int) / 5).toNat + 1 ∧
            sizes = (5 - 1) :: List.replicate ((13 : Int) / 5).toNat 5) :=
  determineGroupSizes_larger_count 13 5 (by decide) (by decide) (by decide) (by decide)

/-- C7: for every `N` and `S ≥ 1`, whatever the preference: if `N < S` then
`determineGroupSizes` returns the single-element list `[N]`, and if `N ≥ S` (with `N ≤ 2^53`,
where the conversions to `float64` are exact) and `S` divides `N` it returns exactly `N / S`
entries, all equal to `S`. -/
theorem determineGroupSizes_simple_cases (fuel : Nat) (N S : Int) (p : Bool) (hS : 1 ≤ S) :
    (N < S → determineGroupSizes fuel N S p = .ok [N]) ∧
      (S ≤ N → N ≤ maxExactInt → N % S = 0 →
        determineGroupSizes fuel N S p = .ok (List.replicate (N / S).toNat S) ∧
          (List.replicate (N / S).toNat S).length = (N / S).toNat) :=
  ⟨determineGroupSizes_of_lt fuel N S p,
    fun hSN _ hr => ⟨determineGroupSizes_of_dvd fuel N S p hS hSN hr, List.length_replicate _ _⟩⟩

/-- Witness for C7 at `N = 20`, `S = 4`. -/
theorem determineGroupSizes_simple_cases_witness :
    ((20 : Int) < 4 → determineGroupSizes 0 20 4 false = .ok [20]) ∧
      ((4 : Int) ≤ 20 → (20 : Int) ≤ maxExactInt → (20 : Int) % 4 = 0 →
        determineGroupSizes 0 20 4 false = .ok (List.replicate ((20 : Int) / 4).toNat 4) ∧
          (List.replicate ((20 : Int) / 4).toNat (4 : Int)).length = ((20 : Int) / 4).toNat) :=
  determineGroupSizes_simple_cases 0 20 4 false (by decide)

/-- C8 fails as stated: with 7 students, optimal size 4 and larger groups preferred, the sizes
are `[3, 4]`, and 3 is smaller than the optimal size. -/
theorem determineGroupSizes_larger_below_optimal :
    (4 : Int) ≤ 7 ∧ (7 : Int) % 4 > 0 ∧ determineGroupSizes 1 7 4 false = .ok [3, 4] ∧
      ¬ (∀ fuel sizes, determineGroupSizes fuel 7 4 false = .ok sizes →
          ∀ x ∈ sizes, (4 : Int) ≤ x) := by
  refine ⟨by decide, by decide, by decide, fun h => ?_⟩
  have := h 1 [3, 4] (by decide) 3 (by simp)
  omega

/-- C8 as amended: when larger groups are preferred, `N ≥ S ≥ 1` (with `N ≤ 2^53`, where the
conversions to `float64` are exact) and
the remainder `N mod S` is positive, `determineGroupSizes N S false` returns; if
`N mod S ≤ S - 2` no size it returns is smaller than `S`, and if `N mod S = S - 1` the first
size is `S - 1` and no size is smaller than `S - 1`. -/
theorem determineGroupSizes_larger_at_least (N S : Int) (hS : 1 ≤ S) (hSN : S ≤ N)
    (hexact : N ≤ maxExactInt) (hr : 0 < N % S) :
    (∃ fuel sizes, determineGroupSizes fuel N S false = .ok sizes) ∧
      ∀ fuel sizes, determineGroupSizes fuel N S false = .ok sizes →
        (N % S ≤ S - 2 → ∀ x ∈ sizes, S ≤ x) ∧
        (N % S = S - 1 → sizes.head? = some (S - 1) ∧ ∀ x ∈ sizes, S - 1 ≤ x) := by
  obtain ⟨h1, h2, h3, h4, h5, h6, h7⟩ := div_facts N S (by omega) hS
  have hq := one_le_div N S hS hSN
  by_cases hr2 : N % S ≤ S - 2
  · have e := determineGroupSizes_larger (S.toNat + 1) N S hS hSN
      (le_maxInt64_of_exact N hexact) hr hr2 (by omega)
    refine ⟨⟨_, _, e⟩, fun fuel sizes h => ⟨fun _ x hx => ?_, fun h' => by omega⟩⟩
    rw [determineGroupSizes_unique _ _ _ _ _ _ _ h e] at hx
    have hx' := balancedSizes_mem _ N x hx
    rw [h6] at hx'
    have hle : S ≤ N / (N / S) := by
      apply Int.le_ediv_of_mul_le (by omega)
      omega
    omega
  · have e := determineGroupSizes_larger_keep (S.toNat + 1) N S hS hSN hr (by omega) (by omega)
    refine ⟨⟨_, _, e⟩, fun fuel sizes h => ⟨fun h' => by omega, fun _ => ?_⟩⟩
    rw [determineGroupSizes_unique _ _ _ _ _ _ _ h e]
    refine ⟨rfl, fun x hx => ?_⟩
    simp only [List.mem_cons, List.mem_replicate] at hx
    omega

/-- Witness for the amended C8 at `N = 21`, `S = 4`. -/
theorem determineGroupSizes_larger_at_least_witness :
    (∃ fuel sizes, determineGroupSizes fuel 21 4 false = .ok sizes) ∧
      ∀ fuel sizes, determineGroupSizes fuel 21 4 false = .ok sizes →
        ((21 : Int) % 4 ≤ 4 - 2 → ∀ x ∈ sizes, (4 : Int) ≤ x) ∧
        ((21 : Int) % 4 = 4 - 1 → sizes.head? = some (4 - 1) ∧ ∀ x ∈ sizes, (4 : Int) - 1 ≤ x) :=
  determineGroupSizes_larger_at_least 21 4 (by decide) (by decide) (by decide) (by decide)

/-- `Group.RemoveMember` never changes the members of the group. -/
theorem RemoveMember_members (e : Env) (g : Group) (student : Student) :
    (g.RemoveMember e student).2.members = g.members := by
  unfold Group.RemoveMember
  split
  rename_i e' removeIndex _
  split
  · exact List.take_append_drop _ _
  · rfl

/-- `Project.MarkStudentGrouped` never changes the project. -/
theorem MarkStudentGrouped_eq (p : Project) (student : Student) :
    p.MarkStudentGrouped student = p := by
  unfold Project.MarkStudentGrouped
  simp only
  split
  · rw [List.take_append_drop]
  · rfl

/-- C9 fails on the code: removing `B` from the group `[A, B]`, or `A` from the group `[A]`,
leaves the group as it was, so it still contains the student and has as many members as
before. -/
theorem RemoveMember_keeps_member :
    let a : Student := ⟨0, ⟨"A", "a"⟩⟩
    let b : Student := ⟨1, ⟨"B", "b"⟩⟩
    (Group.mk [a, b] 2).Contains b = true ∧
      ((Group.mk [a, b] 2).RemoveMember Env.initial b).2.Contains b = true ∧
      ((Group.mk [a, b] 2).RemoveMember Env.initial b).2.members.length = 2 ∧
      (Group.mk [a] 1).Contains a = true ∧
      ((Group.mk [a] 1).RemoveMember Env.initial a).2.Contains a = true ∧
      ((Group.mk [a] 1).RemoveMember Env.initial a).2.members.length = 1 := by
  decide

/-- C10 fails on the code: marking `B` as grouped in a project whose ungrouped students are
`[A, B]`, or `A` in one whose ungrouped students are `[A]`, leaves the list as it was. -/
theorem MarkStudentGrouped_keeps_student :
    let a : Student := ⟨0, ⟨"A", "a"⟩⟩
    let b : Student := ⟨1, ⟨"B", "b"⟩⟩
    ((Project.mk [] "p" [a, b]).MarkStudentGrouped b).UngroupedStudents = [a, b] ∧
      ((Project.mk [] "p" [a]).MarkStudentGrouped a).UngroupedStudents = [a] := by
  decide

/-! ## The ledger: `Collaborate` and `Uncollaborate` -/

theorem count_eq_countAt (e : Env) (s p : Student) : e.count s p = e.countAt s.addr p.addr := rfl

theorem countAt_setCount (e : Env) (a b : Student) (v : Int) (s p : Nat) :
    (e.setCount a b v).countAt s p = if s = a.addr ∧ p = b.addr then v else e.countAt s p := by
  unfold Env.setCount Env.countAt
  simp only
  split <;> rfl

theorem countAt_deleteCount (e : Env) (a b : Student) (s p : Nat) :
    (e.deleteCount a b).countAt s p = if s = a.addr ∧ p = b.addr then 0 else e.countAt s p := by
  unfold Env.deleteCount Env.countAt
  simp only
  split <;> rfl

theorem countAt_ite_netRepairings (e : Env) (c : Prop) [Decidable c] (n : Int) (s p : Nat) :
    (if c then { e with netRepairings := n } else e).countAt s p = e.countAt s p := by
  split <;> rfl

theorem countAt_ite_deleteCount (e : Env) (c : Prop) [Decidable c] (a b : Student) (s p : Nat) :
    (if c then e.deleteCount a b else e).countAt s p =
      if c ∧ s = a.addr ∧ p = b.addr then 0 else e.countAt s p := by
  by_cases hc : c
  · simp only [hc, if_true, true_and, countAt_deleteCount]
  · simp only [hc, if_false, false_and]

/-- The counts after `Collaborate` on two distinct students. -/
theorem Collaborate_countAt (e : Env) (a b : Student) (hab : a.addr ≠ b.addr) (s p : Nat) :
    (Collaborate e a b).countAt s p =
      if s = a.addr ∧ p = b.addr then e.countAt a.addr b.addr + 1
      else if s = b.addr ∧ p = a.addr then e.countAt b.addr a.addr + 1
      else e.countAt s p := by
  unfold Collaborate
  simp only [count_eq_countAt, countAt_ite_netRepairings, countAt_setCount]
  have h1 : ¬ (b.addr = a.addr ∧ a.addr = b.addr) := fun h => hab h.2
  simp only [h1, if_false]
  by_cases h2 : s = b.addr ∧ p = a.addr
  · have h3 : ¬ (s = a.addr ∧ p = b.addr) := fun h => hab (h.1.symm.trans h2.1)
    simp only [h2, h3, h1, and_self, if_true, if_false]
  · simp only [h2, if_false]

/-- The repairing counter after `Collaborate` on two distinct students. -/
theorem Collaborate_netRepairings (e : Env) (a b : Student) (hab : a.addr ≠ b.addr) :
    (Collaborate e a b).netRepairings =
      if 0 < e.countAt a.addr b.addr then e.netRepairings + 1 else e.netRepairings := by
  unfold Collaborate
  simp only [count_eq_countAt, countAt_setCount]
  have h1 : ¬ (b.addr = a.addr ∧ a.addr = b.addr) := fun h => hab h.2
  have h2 : ¬ (a.addr = b.addr ∧ b.addr = a.addr) := fun h => hab h.1
  simp only [h1, h2, if_false, and_self, if_true]
  by_cases h : 0 < e.countAt a.addr b.addr
  · rw [if_pos (by omega), if_pos h]; rfl
  · rw [if_neg (by omega), if_neg h]; rfl

/-- The counts after `Uncollaborate` on two distinct students. -/
theorem Uncollaborate_countAt (e : Env) (a b : Student) (hab : a.addr ≠ b.addr) (s p : Nat) :
    (Uncollaborate e a b).countAt s p =
      if s = a.addr ∧ p = b.addr then
        (if 1 < e.countAt a.addr b.addr then e.countAt a.addr b.addr - 1 else 0)
      else if s = b.addr ∧ p = a.addr then
        (if 1 < e.countAt b.addr a.addr then e.countAt b.addr a.addr - 1 else 0)
      else e.countAt s p := by
  unfold Uncollaborate
  simp only [count_eq_countAt, countAt_ite_netRepairings, countAt_ite_deleteCount,
    countAt_setCount]
  have h1 : ¬ (b.addr = a.addr ∧ a.addr = b.addr) := fun h => hab h.2
  have h2 : ¬ (a.addr = b.addr ∧ b.addr = a.addr) := fun h => hab h.1
  simp only [h1, h2, if_false, and_self, if_true, and_false, false_and]
  by_cases h3 : s = a.addr ∧ p = b.addr
  · have h4 : ¬ (s = b.addr ∧ p = a.addr) := fun h => hab (h3.1.symm.trans h.1)
    simp only [h3, h4, h1, h2, and_self, if_true, if_false, and_true, and_false]
    split_ifs <;> omega
  · by_cases h4 : s = b.addr ∧ p = a.addr
    · simp only [h3, h4, h1, h2, and_self, if_true, if_false, and_true, and_false]
      split_ifs <;> omega
    · simp only [h3, h4, if_false, and_false]

/-- The repairing counter after `Uncollaborate` on two distinct students. -/
theorem Uncollaborate_netRepairings (e : Env) (a b : Student) (hab : a.addr ≠ b.addr) :
    (Uncollaborate e a b).netRepairings =
      if 1 < e.countAt a.addr b.addr then e.netRepairings - 1 else e.netRepairings := by
  unfold Uncollaborate
  simp only [count_eq_countAt, countAt_ite_deleteCount, countAt_setCount]
  have h1 : ¬ (b.addr = a.addr ∧ a.addr = b.addr) := fun h => hab h.2
  have h2 : ¬ (a.addr = b.addr ∧ b.addr = a.addr) := fun h => hab h.1
  simp only [h1, h2, if_false, and_self, if_true, and_false, and_true]
  by_cases h : 1 < e.countAt a.addr b.addr
  · have h' : ¬ (e.countAt a.addr b.addr - 1 < 1) := by omega
    simp only [h, h', if_true, if_false]
    rw [if_pos (by omega)]
    split <;> rfl
  · have h' : e.countAt a.addr b.addr - 1 < 1 := by omega
    simp only [h, h', if_true, if_false, lt_self_iff_false]
    split <;> rfl

theorem Collaborate_other_fields (e : Env) (a b : Student) :
    (Collaborate e a b).desiredRepairings = e.desiredRepairings ∧
      (Collaborate e a b).numReshuffles = e.numReshuffles ∧
      (Collaborate e a b).randCalls = e.randCalls := by
  unfold Collaborate
  simp only
  split <;> exact ⟨rfl, rfl, rfl⟩

theorem Uncollaborate_other_fields (e : Env) (a b : Student) :
    (Uncollaborate e a b).desiredRepairings = e.desiredRepairings ∧
      (Uncollaborate e a b).numReshuffles = e.numReshuffles ∧
      (Uncollaborate e a b).randCalls = e.randCalls := by
  unfold Uncollaborate
  simp only
  split <;> split <;> split <;> exact ⟨rfl, rfl, rfl⟩

/-- C11: for any two distinct students `a` and `b`, any ledger (counts are numbers of
co-occurrences, so non-negative; an absent entry and a zero count are the same entry) and any
value of `netRepairings`, `Collaborate a b` followed by `Uncollaborate a b` leaves every count
of every student and `netRepairings` (and the other counters) exactly as they were. -/
theorem Collaborate_then_Uncollaborate (e : Env) (a b : Student) (hab : a.addr ≠ b.addr)
    (hab0 : 0 ≤ e.count a b) (hba0 : 0 ≤ e.count b a) :
    (∀ s p : Student,
        (Uncollaborate (Collaborate e a b) a b).count s p = e.count s p) ∧
      (Uncollaborate (Collaborate e a b) a b).netRepairings = e.netRepairings ∧
      (Uncollaborate (Collaborate e a b) a b).desiredRepairings = e.desiredRepairings ∧
      (Uncollaborate (Collaborate e a b) a b).numReshuffles = e.numReshuffles := by
  rw [count_eq_countAt] at hab0 hba0
  have h1 : ¬ (b.addr = a.addr ∧ a.addr = b.addr) := fun h => hab h.2
  have h2 : ¬ (a.addr = b.addr ∧ b.addr = a.addr) := fun h => hab h.1
  refine ⟨fun s p => ?_, ?_, ?_, ?_⟩
  · simp only [count_eq_countAt, Uncollaborate_countAt _ a b hab, Collaborate_countAt e a b hab,
      h1, h2, and_self, if_true, if_false]
    by_cases h3 : s.addr = a.addr ∧ p.addr = b.addr
    · simp only [h3, and_self, if_true]
      split_ifs <;> omega
    · by_cases h4 : s.addr = b.addr ∧ p.addr = a.addr
      · simp only [h3, h4, and_self, if_true, if_false]
        split_ifs <;> omega
      · simp only [h3, h4, if_false]
  · rw [Uncollaborate_netRepairings _ a b hab, Collaborate_netRepairings e a b hab,
      Collaborate_countAt e a b hab]
    simp only [and_self, if_true]
    split_ifs <;> omega
  · rw [(Uncollaborate_other_fields _ a b).1, (Collaborate_other_fields e a b).1]
  · rw [(Uncollaborate_other_fields _ a b).2.1, (Collaborate_other_fields e a b).2.1]

/-- Witness for C11: two students with empty ledgers. -/
theorem Collaborate_then_Uncollaborate_witness :
    (∀ s p : Student,
        (Uncollaborate (Collaborate Env.initial ⟨0, ⟨"A", "a"⟩⟩ ⟨1, ⟨"B", "b"⟩⟩)
          ⟨0, ⟨"A", "a"⟩⟩ ⟨1, ⟨"B", "b"⟩⟩).count s p = Env.initial.count s p) ∧
      (Uncollaborate (Collaborate Env.initial ⟨0, ⟨"A", "a"⟩⟩ ⟨1, ⟨"B", "b"⟩⟩)
          ⟨0, ⟨"A", "a"⟩⟩ ⟨1, ⟨"B", "b"⟩⟩).netRepairings = Env.initial.netRepairings ∧
      (Uncollaborate (Collaborate Env.initial ⟨0, ⟨"A", "a"⟩⟩ ⟨1, ⟨"B", "b"⟩⟩)
          ⟨0, ⟨"A", "a"⟩⟩ ⟨1, ⟨"B", "b"⟩⟩).desiredRepairings = Env.initial.desiredRepairings ∧
      (Uncollaborate (Collaborate Env.initial ⟨0, ⟨"A", "a"⟩⟩ ⟨1, ⟨"B", "b"⟩⟩)
          ⟨0, ⟨"A", "a"⟩⟩ ⟨1, ⟨"B", "b"⟩⟩).numReshuffles = Env.initial.numReshuffles :=
  Collaborate_then_Uncollaborate Env.initial ⟨0, ⟨"A", "a"⟩⟩ ⟨1, ⟨"B", "b"⟩⟩ (by decide)
    (by decide) (by decide)

/-- `Collaborate` changes no count outside the pair it is called on. -/
theorem Collaborate_countAt_other (e : Env) (a b : Student) (s p : Nat)
    (h1 : ¬ (s = a.addr ∧ p = b.addr)) (h2 : ¬ (s = b.addr ∧ p = a.addr)) :
    (Collaborate e a b).countAt s p = e.countAt s p := by
  unfold Collaborate
  simp only [count_eq_countAt, countAt_ite_netRepairings, countAt_setCount, h1, h2, if_false]

/-- `Uncollaborate` changes no count outside the pair it is called on. -/
theorem Uncollaborate_countAt_other (e : Env) (a b : Student) (s p : Nat)
    (h1 : ¬ (s = a.addr ∧ p = b.addr)) (h2 : ¬ (s = b.addr ∧ p = a.addr)) :
    (Uncollaborate e a b).countAt s p = e.countAt s p := by
  unfold Uncollaborate
  simp only [count_eq_countAt, countAt_ite_netRepairings, countAt_ite_deleteCount,
    countAt_setCount, h1, h2, if_false, and_false]

theorem Collaborate_symmetric (e : Env) (a b : Student) (h : LedgerSymmetric e) :
    LedgerSymmetric (Collaborate e a b) := by
  intro s p
  by_cases hxy : a.addr = b.addr
  · by_cases hsp : s = a.addr ∧ p = a.addr
    · rw [hsp.1, hsp.2]
    · have h1 : ¬ (s = a.addr ∧ p = b.addr) := by rw [← hxy]; exact hsp
      have h2 : ¬ (s = b.addr ∧ p = a.addr) := by rw [← hxy]; exact hsp
      have h3 : ¬ (p = a.addr ∧ s = b.addr) := by rw [← hxy]; exact fun h => hsp ⟨h.2, h.1⟩
      have h4 : ¬ (p = b.addr ∧ s = a.addr) := by rw [← hxy]; exact fun h => hsp ⟨h.2, h.1⟩
      rw [Collaborate_countAt_other e a b s p h1 h2, Collaborate_countAt_other e a b p s h3 h4]
      exact h s p
  · rw [Collaborate_countAt e a b hxy, Collaborate_countAt e a b hxy]
    have hab := h a.addr b.addr
    have hsp := h s p
    by_cases h1 : s = a.addr ∧ p = b.addr
    · have h2 : ¬ (s = b.addr ∧ p = a.addr) := fun h => hxy (h1.1.symm.trans h.1)
      have h3 : ¬ (p = a.addr ∧ s = b.addr) := fun h => h2 ⟨h.2, h.1⟩
      have h4 : p = b.addr ∧ s = a.addr := ⟨h1.2, h1.1⟩
      simp only [h1, h3, h4, and_self, if_true, if_false]
      omega
    · by_cases h2 : s = b.addr ∧ p = a.addr
      · have h3 : p = a.addr ∧ s = b.addr := ⟨h2.2, h2.1⟩
        simp only [h1, h2, h3, and_self, if_true, if_false]
        omega
      · have h3 : ¬ (p = a.addr ∧ s = b.addr) := fun h => h2 ⟨h.2, h.1⟩
        have h4 : ¬ (p = b.addr ∧ s = a.addr) := fun h => h1 ⟨h.2, h.1⟩
        simp only [h1, h2, h3, h4, if_false]
        exact hsp

theorem Uncollaborate_symmetric (e : Env) (a b : Student) (h : LedgerSymmetric e) :
    LedgerSymmetric (Uncollaborate e a b) := by
  intro s p
  by_cases hxy : a.addr = b.addr
  · by_cases hsp : s = a.addr ∧ p = a.addr
    · rw [hsp.1, hsp.2]
    · have h1 : ¬ (s = a.addr ∧ p = b.addr) := by rw [← hxy]; exact hsp
      have h2 : ¬ (s = b.addr ∧ p = a.addr) := by rw [← hxy]; exact hsp
      have h3 : ¬ (p = a.addr ∧ s = b.addr) := by rw [← hxy]; exact fun h => hsp ⟨h.2, h.1⟩
      have h4 : ¬ (p = b.addr ∧ s = a.addr) := by rw [← hxy]; exact fun h => hsp ⟨h.2, h.1⟩
      rw [Uncollaborate_countAt_other e a b s p h1 h2,
        Uncollaborate_countAt_other e a b p s h3 h4]
      exact h s p
  · rw [Uncollaborate_countAt e a b hxy, Uncollaborate_countAt e a b hxy]
    have hab := h a.addr b.addr
    have hsp := h s p
    by_cases h1 : s = a.addr ∧ p = b.addr
    · have h2 : ¬ (s = b.addr ∧ p = a.addr) := fun h => hxy (h1.1.symm.trans h.1)
      have h3 : ¬ (p = a.addr ∧ s = b.addr) := fun h => h2 ⟨h.2, h.1⟩
      have h4 : p = b.addr ∧ s = a.addr := ⟨h1.2, h1.1⟩
      simp only [h1, h3, h4, and_self, if_true, if_false]
      rw [hab]
      split_ifs <;> rfl
    · by_cases h2 : s = b.addr ∧ p = a.addr
      · have h3 : p = a.addr ∧ s = b.addr := ⟨h2.2, h2.1⟩
        simp only [h1, h2, h3, and_self, if_true, if_false]
        rw [hab]
        split_ifs <;> rfl
      · have h3 : ¬ (p = a.addr ∧ s = b.addr) := fun h => h2 ⟨h.2, h.1⟩
        have h4 : ¬ (p = b.addr ∧ s = a.addr) := fun h => h1 ⟨h.2, h.1⟩
        simp only [h1, h2, h3, h4, if_false]
        exact hsp

theorem runLedgerCalls_symmetric (calls : List LedgerCall) :
    ∀ e : Env, LedgerSymmetric e → LedgerSymmetric (runLedgerCalls e calls) := by
  induction calls with
  | nil => intro e h; exact h
  | cons call calls ih =>
    intro e h
    show LedgerSymmetric (runLedgerCalls (call.run e) calls)
    apply ih
    cases call with
    | collaborate a b => exact Collaborate_symmetric e a b h
    | uncollaborate a b => exact Uncollaborate_symmetric e a b h

/-- C12: starting from students with empty ledgers, after any finite sequence of `Collaborate`
and `Uncollaborate` calls, for every pair of students `a`, `b` the count that `a` stores for
`b` equals the count that `b` stores for `a`. -/
theorem ledger_symmetric (calls : List LedgerCall) (a b : Student) :
    (runLedgerCalls Env.initial calls).count a b =
      (runLedgerCalls Env.initial calls).count b a :=
  runLedgerCalls_symmetric calls Env.initial (fun _ _ => rfl) a.addr b.addr

/-- C13 fails as stated: after three `Collaborate` calls on `A` and `B` the count is 3 and
`netRepairings` is 2; `Uncollaborate` then leaves the count at 2, still greater than 1, and
nevertheless decrements `netRepairings` to 1. -/
theorem Uncollaborate_decrements_while_repeated :
    (runLedgerCalls Env.initial
        [.collaborate ⟨0, ⟨"A", "a"⟩⟩ ⟨1, ⟨"B", "b"⟩⟩, .collaborate ⟨0, ⟨"A", "a"⟩⟩ ⟨1, ⟨"B", "b"⟩⟩,
          .collaborate ⟨0, ⟨"A", "a"⟩⟩ ⟨1, ⟨"B", "b"⟩⟩]).count
        ⟨0, ⟨"A", "a"⟩⟩ ⟨1, ⟨"B", "b"⟩⟩ = 3 ∧
      (runLedgerCalls Env.initial
        [.collaborate ⟨0, ⟨"A", "a"⟩⟩ ⟨1, ⟨"B", "b"⟩⟩, .collaborate ⟨0, ⟨"A", "a"⟩⟩ ⟨1, ⟨"B", "b"⟩⟩,
          .collaborate ⟨0, ⟨"A", "a"⟩⟩ ⟨1, ⟨"B", "b"⟩⟩]).netRepairings = 2 ∧
      (runLedgerCalls Env.initial
        [.collaborate ⟨0, ⟨"A", "a"⟩⟩ ⟨1, ⟨"B", "b"⟩⟩, .collaborate ⟨0, ⟨"A", "a"⟩⟩ ⟨1, ⟨"B", "b"⟩⟩,
          .collaborate ⟨0, ⟨"A", "a"⟩⟩ ⟨1, ⟨"B", "b"⟩⟩,
          .uncollaborate ⟨0, ⟨"A", "a"⟩⟩ ⟨1, ⟨"B", "b"⟩⟩]).count
        ⟨0, ⟨"A", "a"⟩⟩ ⟨1, ⟨"B", "b"⟩⟩ = 2 ∧
      (runLedgerCalls Env.initial
        [.collaborate ⟨0, ⟨"A", "a"⟩⟩ ⟨1, ⟨"B", "b"⟩⟩, .collaborate ⟨0, ⟨"A", "a"⟩⟩ ⟨1, ⟨"B", "b"⟩⟩,
          .collaborate ⟨0, ⟨"A", "a"⟩⟩ ⟨1, ⟨"B", "b"⟩⟩,
          .uncollaborate ⟨0, ⟨"A", "a"⟩⟩ ⟨1, ⟨"B", "b"⟩⟩]).netRepairings = 1 := by
  decide

/-- C13 as amended: for distinct students `a` and `b`, `Uncollaborate a b` decrements
`netRepairings` by one exactly when the count that `a` stores for `b` before the call was
greater than 1, which is exactly when the count after the call is still greater than 0; in every
other case `netRepairings` is unchanged. -/
theorem Uncollaborate_repairings (e : Env) (a b : Student) (hab : a.addr ≠ b.addr) :
    (1 < e.count a b → (Uncollaborate e a b).netRepairings = e.netRepairings - 1) ∧
      (¬ 1 < e.count a b → (Uncollaborate e a b).netRepairings = e.netRepairings) ∧
      (1 < e.count a b ↔ 0 < (Uncollaborate e a b).count a b) := by
  simp only [count_eq_countAt, Uncollaborate_netRepairings e a b hab,
    Uncollaborate_countAt e a b hab, and_self, if_true]
  refine ⟨fun h => by rw [if_pos h], fun h => by rw [if_neg h], ?_⟩
  split_ifs <;> omega

/-- Witness for the amended C13: two students with empty ledgers. -/
theorem Uncollaborate_repairings_witness :
    (1 < Env.initial.count ⟨0, ⟨"A", "a"⟩⟩ ⟨1, ⟨"B", "b"⟩⟩ →
        (Uncollaborate Env.initial ⟨0, ⟨"A", "a"⟩⟩ ⟨1, ⟨"B", "b"⟩⟩).netRepairings =
          Env.initial.netRepairings - 1) ∧
      (¬ 1 < Env.initial.count ⟨0, ⟨"A", "a"⟩⟩ ⟨1, ⟨"B", "b"⟩⟩ →
        (Uncollaborate Env.initial ⟨0, ⟨"A", "a"⟩⟩ ⟨1, ⟨"B", "b"⟩⟩).netRepairings =
          Env.initial.netRepairings) ∧
      (1 < Env.initial.count ⟨0, ⟨"A", "a"⟩⟩ ⟨1, ⟨"B", "b"⟩⟩ ↔
        0 < (Uncollaborate Env.initial ⟨0, ⟨"A", "a"⟩⟩ ⟨1, ⟨"B", "b"⟩⟩).count
          ⟨0, ⟨"A", "a"⟩⟩ ⟨1, ⟨"B", "b"⟩⟩) :=
  Uncollaborate_repairings Env.initial ⟨0, ⟨"A", "a"⟩⟩ ⟨1, ⟨"B", "b"⟩⟩ (by decide)

/-- Changing the summand of one unordered pair changes the sum over all unordered pairs by the
difference at that pair. -/
theorem sum_studentPairs_update (students : Finset Nat) (f f' : Nat × Nat → Int) (lo hi : Nat)
    (hlt : lo < hi) (hlo : lo ∈ students) (hhi : hi ∈ students)
    (hsame : ∀ q ∈ studentPairs students, q ≠ (lo, hi) → f' q = f q) :
    Finset.sum (studentPairs students) f' =
      Finset.sum (studentPairs students) f - f (lo, hi) + f' (lo, hi) := by
  have hmem : (lo, hi) ∈ studentPairs students := by
    unfold studentPairs
    simp only [Finset.mem_filter, Finset.mem_product]
    exact ⟨⟨hlo, hhi⟩, hlt⟩
  rw [← Finset.add_sum_erase _ f hmem, ← Finset.add_sum_erase _ f' hmem]
  have herase : Finset.sum ((studentPairs students).erase (lo, hi)) f' =
      Finset.sum ((studentPairs students).erase (lo, hi)) f := by
    apply Finset.sum_congr rfl
    intro q hq
    rw [Finset.mem_erase] at hq
    exact hsame q hq.2 hq.1
  rw [herase]
  ring

/-- On a symmetric ledger without negative counts in which `netRepairings` is the sum over the
unordered pairs of `max 0 (count - 1)`, `Collaborate` on two distinct students keeps the counts
non-negative and `netRepairings` equal to that sum. -/
theorem Collaborate_repairingsTotal (e : Env) (students : Finset Nat) (a b : Student)
    (hab : a.addr ≠ b.addr) (ha : a.addr ∈ students) (hb : b.addr ∈ students)
    (hsym : LedgerSymmetric e) (hnn : ∀ s p, 0 ≤ e.countAt s p)
    (hnet : e.netRepairings = repairingsTotal e students) :
    (∀ s p, 0 ≤ (Collaborate e a b).countAt s p) ∧
      (Collaborate e a b).netRepairings = repairingsTotal (Collaborate e a b) students := by
  constructor
  · intro s p
    rw [Collaborate_countAt e a b hab]
    have h1 := hnn a.addr b.addr
    have h2 := hnn b.addr a.addr
    have h3 := hnn s p
    split_ifs <;> omega
  · have hs := hsym a.addr b.addr
    have h0 := hnn a.addr b.addr
    rw [Collaborate_netRepairings e a b hab, hnet]
    unfold repairingsTotal
    rcases Nat.lt_or_gt_of_ne hab with hlt | hlt
    · rw [sum_studentPairs_update students (fun q => max 0 (e.countAt q.1 q.2 - 1))
        (fun q => max 0 ((Collaborate e a b).countAt q.1 q.2 - 1)) a.addr b.addr hlt ha hb]
      · simp only [Collaborate_countAt e a b hab, and_self, if_true]
        split_ifs <;> omega
      · intro q hq hne
        have h1 : ¬ (q.1 = a.addr ∧ q.2 = b.addr) := fun h => hne (Prod.ext h.1 h.2)
        have h2 : ¬ (q.1 = b.addr ∧ q.2 = a.addr) := by
          unfold studentPairs at hq
          simp only [Finset.mem_filter] at hq
          omega
        simp only [Collaborate_countAt_other e a b q.1 q.2 h1 h2]
    · rw [sum_studentPairs_update students (fun q => max 0 (e.countAt q.1 q.2 - 1))
        (fun q => max 0 ((Collaborate e a b).countAt q.1 q.2 - 1)) b.addr a.addr hlt hb ha]
      · have hne : ¬ (b.addr = a.addr ∧ a.addr = b.addr) := fun h => hab h.2
        simp only [Collaborate_countAt e a b hab, and_self, if_true, hne, if_false]
        split_ifs <;> omega
      · intro q hq hne
        have h1 : ¬ (q.1 = b.addr ∧ q.2 = a.addr) := fun h => hne (Prod.ext h.1 h.2)
        have h2 : ¬ (q.1 = a.addr ∧ q.2 = b.addr) := by
          unfold studentPairs at hq
          simp only [Finset.mem_filter] at hq
          omega
        simp only [Collaborate_countAt_other e a b q.1 q.2 h2 h1]

/-- The same for `Uncollaborate` on two distinct students. -/
theorem Uncollaborate_repairingsTotal (e : Env) (students : Finset Nat) (a b : Student)
    (hab : a.addr ≠ b.addr) (ha : a.addr ∈ students) (hb : b.addr ∈ students)
    (hsym : LedgerSymmetric e) (hnn : ∀ s p, 0 ≤ e.countAt s p)
    (hnet : e.netRepairings = repairingsTotal e students) :
    (∀ s p, 0 ≤ (Uncollaborate e a b).countAt s p) ∧
      (Uncollaborate e a b).netRepairings = repairingsTotal (Uncollaborate e a b) students := by
  constructor
  · intro s p
    rw [Uncollaborate_countAt e a b hab]
    have h3 := hnn s p
    split_ifs <;> omega
  · have hs := hsym a.addr b.addr
    have h0 := hnn a.addr b.addr
    rw [Uncollaborate_netRepairings e a b hab, hnet]
    unfold repairingsTotal
    rcases Nat.lt_or_gt_of_ne hab with hlt | hlt
    · rw [sum_studentPairs_update students (fun q => max 0 (e.countAt q.1 q.2 - 1))
        (fun q => max 0 ((Uncollaborate e a b).countAt q.1 q.2 - 1)) a.addr b.addr hlt ha hb]
      · simp only [Uncollaborate_countAt e a b hab, and_self, if_true]
        split_ifs <;> omega
      · intro q hq hne
        have h1 : ¬ (q.1 = a.addr ∧ q.2 = b.addr) := fun h => hne (Prod.ext h.1 h.2)
        have h2 : ¬ (q.1 = b.addr ∧ q.2 = a.addr) := by
          unfold studentPairs at hq
          simp only [Finset.mem_filter] at hq
          omega
        simp only [Uncollaborate_countAt_other e a b q.1 q.2 h1 h2]
    · rw [sum_studentPairs_update students (fun q => max 0 (e.countAt q.1 q.2 - 1))
        (fun q => max 0 ((Uncollaborate e a b).countAt q.1 q.2 - 1)) b.addr a.addr hlt hb ha]
      · have hne : ¬ (b.addr = a.addr ∧ a.addr = b.addr) := fun h => hab h.2
        simp only [Uncollaborate_countAt e a b hab, and_self, if_true, hne, if_false]
        split_ifs <;> omega
      · intro q hq hne
        have h1 : ¬ (q.1 = b.addr ∧ q.2 = a.addr) := fun h => hne (Prod.ext h.1 h.2)
        have h2 : ¬ (q.1 = a.addr ∧ q.2 = b.addr) := by
          unfold studentPairs at hq
          simp only [Finset.mem_filter] at hq
          omega
        simp only [Uncollaborate_countAt_other e a b q.1 q.2 h2 h1]

theorem runLedgerCalls_repairingsTotal (students : Finset Nat) (calls : List LedgerCall) :
    ∀ e : Env, CallsOnDistinct students calls → LedgerSymmetric e →
      (∀ s p, 0 ≤ e.countAt s p) → e.netRepairings = repairingsTotal e students →
      (runLedgerCalls e calls).netRepairings =
        repairingsTotal (runLedgerCalls e calls) students := by
  induction calls with
  | nil => intro e _ _ _ h; exact h
  | cons call calls ih =>
    intro e hcalls hsym hnn hnet
    have hcall := hcalls call (List.mem_cons_self call calls)
    have hrest : CallsOnDistinct students calls :=
      fun c hc => hcalls c (List.mem_cons_of_mem call hc)
    show (runLedgerCalls (call.run e) calls).netRepairings =
      repairingsTotal (runLedgerCalls (call.run e) calls) students
    cases call with
    | collaborate a b =>
      have h := Collaborate_repairingsTotal e students a b hcall.1 hcall.2.1 hcall.2.2 hsym hnn
        hnet
      exact ih _ hrest (Collaborate_symmetric e a b hsym) h.1 h.2
    | uncollaborate a b =>
      have h := Uncollaborate_repairingsTotal e students a b hcall.1 hcall.2.1 hcall.2.2 hsym
        hnn hnet
      exact ih _ hrest (Uncollaborate_symmetric e a b hsym) h.1 h.2

/-- C14 fails as stated: after three `Collaborate` calls on `A` and `B`, starting from empty
ledgers and `netRepairings = 0`, one unordered pair of students has a count greater than 1, but
`netRepairings` is 2. -/
theorem netRepairings_not_number_of_pairs :
    repeatedPairs
        (runLedgerCalls Env.initial
          [.collaborate ⟨0, ⟨"A", "a"⟩⟩ ⟨1, ⟨"B", "b"⟩⟩,
            .collaborate ⟨0, ⟨"A", "a"⟩⟩ ⟨1, ⟨"B", "b"⟩⟩,
            .collaborate ⟨0, ⟨"A", "a"⟩⟩ ⟨1, ⟨"B", "b"⟩⟩]) {0, 1} = 1 ∧
      (runLedgerCalls Env.initial
          [.collaborate ⟨0, ⟨"A", "a"⟩⟩ ⟨1, ⟨"B", "b"⟩⟩,
            .collaborate ⟨0, ⟨"A", "a"⟩⟩ ⟨1, ⟨"B", "b"⟩⟩,
            .collaborate ⟨0, ⟨"A", "a"⟩⟩ ⟨1, ⟨"B", "b"⟩⟩]).netRepairings = 2 := by
  decide

/-- C14 as amended: starting from empty ledgers and `netRepairings = 0`, after any finite
sequence of `Collaborate` and `Uncollaborate` calls on pairs of distinct students,
`netRepairings` equals the sum over the unordered pairs of students of `max 0 (count - 1)`:
every grouping of a pair beyond its first counts, not only the pair. -/
theorem netRepairings_eq_repairingsTotal (students : Finset Nat) (calls : List LedgerCall)
    (hcalls : CallsOnDistinct students calls) :
    (runLedgerCalls Env.initial calls).netRepairings =
      repairingsTotal (runLedgerCalls Env.initial calls) students := by
  apply runLedgerCalls_repairingsTotal students calls Env.initial hcalls
  · exact fun _ _ => rfl
  · intro s p
    exact le_refl 0
  · unfold repairingsTotal
    symm
    apply Finset.sum_eq_zero
    intro q _
    rfl

/-- Witness for the amended C14: three `Collaborate` calls on `A` and `B`. -/
theorem netRepairings_eq_repairingsTotal_witness :
    (runLedgerCalls Env.initial
        [.collaborate ⟨0, ⟨"A", "a"⟩⟩ ⟨1, ⟨"B", "b"⟩⟩,
          .collaborate ⟨0, ⟨"A", "a"⟩⟩ ⟨1, ⟨"B", "b"⟩⟩,
          .collaborate ⟨0, ⟨"A", "a"⟩⟩ ⟨1, ⟨"B", "b"⟩⟩]).netRepairings =
      repairingsTotal
        (runLedgerCalls Env.initial
          [.collaborate ⟨0, ⟨"A", "a"⟩⟩ ⟨1, ⟨"B", "b"⟩⟩,
            .collaborate ⟨0, ⟨"A", "a"⟩⟩ ⟨1, ⟨"B", "b"⟩⟩,
            .collaborate ⟨0, ⟨"A", "a"⟩⟩ ⟨1, ⟨"B", "b"⟩⟩]) {0, 1} :=
  netRepairings_eq_repairingsTotal {0, 1} _ (by unfold CallsOnDistinct; decide)

/-- The count of a student for itself after `Uncollaborate` on that student twice over. -/
theorem Uncollaborate_countAt_self (e : Env) (a b : Student) (hab : a.addr = b.addr) :
    (Uncollaborate e a b).countAt a.addr b.addr =
      if 2 < e.countAt a.addr b.addr then e.countAt a.addr b.addr - 2 else 0 := by
  unfold Uncollaborate
  simp only [count_eq_countAt, countAt_ite_netRepairings, countAt_ite_deleteCount,
    countAt_setCount, ← hab, and_self, if_true, and_true]
  split_ifs <;> omega

/-- C15 fails on the code.  The comment of `Uncollaborate` says that it removes all records of
collaboration between the students; the code takes one off each count.  After two `Collaborate`
calls on `A` and `B`, one `Uncollaborate` leaves the count at 1, so each of the two students has
still collaborated with the other. -/
theorem Uncollaborate_keeps_records :
    HasCollaboratedWith
        (runLedgerCalls Env.initial
          [.collaborate ⟨0, ⟨"A", "a"⟩⟩ ⟨1, ⟨"B", "b"⟩⟩,
            .collaborate ⟨0, ⟨"A", "a"⟩⟩ ⟨1, ⟨"B", "b"⟩⟩,
            .uncollaborate ⟨0, ⟨"A", "a"⟩⟩ ⟨1, ⟨"B", "b"⟩⟩])
        ⟨0, ⟨"A", "a"⟩⟩ ⟨1, ⟨"B", "b"⟩⟩ = true ∧
      HasCollaboratedWith
        (runLedgerCalls Env.initial
          [.collaborate ⟨0, ⟨"A", "a"⟩⟩ ⟨1, ⟨"B", "b"⟩⟩,
            .collaborate ⟨0, ⟨"A", "a"⟩⟩ ⟨1, ⟨"B", "b"⟩⟩,
            .uncollaborate ⟨0, ⟨"A", "a"⟩⟩ ⟨1, ⟨"B", "b"⟩⟩])
        ⟨1, ⟨"B", "b"⟩⟩ ⟨0, ⟨"A", "a"⟩⟩ = true := by
  decide

/-- What the code of `Uncollaborate` leaves of the records, for any students `a`, `b` and any
ledger state: if `a` and `b` are distinct, `a.HasCollaboratedWith b` holds afterwards exactly
when the count `a` stored for `b` was greater than 1, and likewise for `b`; if they are the
same student it holds exactly when the count was greater than 2. -/
theorem Uncollaborate_HasCollaboratedWith (e : Env) (a b : Student) :
    (a.addr ≠ b.addr →
        (HasCollaboratedWith (Uncollaborate e a b) a b = true ↔ 1 < e.count a b) ∧
          (HasCollaboratedWith (Uncollaborate e a b) b a = true ↔ 1 < e.count b a)) ∧
      (a.addr = b.addr →
        (HasCollaboratedWith (Uncollaborate e a b) a b = true ↔ 2 < e.count a b)) := by
  unfold HasCollaboratedWith
  simp only [decide_eq_true_eq, count_eq_countAt]
  refine ⟨fun hab => ?_, fun hab => ?_⟩
  · have hne : ¬ (b.addr = a.addr ∧ a.addr = b.addr) := fun h => hab h.2
    simp only [Uncollaborate_countAt e a b hab, and_self, if_true, hne, if_false]
    constructor <;> split_ifs <;> omega
  · rw [Uncollaborate_countAt_self e a b hab]
    split_ifs <;> omega

/-! ## Groups and the ledger -/

/-- C16 fails on the code: starting from empty ledgers and an empty group of desired size 2,
after `AddMember A`, `AddMember B` the count of the pair is 1; `RemoveMember B` then brings the
count to 0 although the group still contains both `A` and `B`. -/
theorem RemoveMember_breaks_ledger :
    let a : Student := ⟨0, ⟨"A", "a"⟩⟩
    let b : Student := ⟨1, ⟨"B", "b"⟩⟩
    let r1 := (NewGroup 2).AddMember Env.initial a
    let r2 := r1.2.AddMember r1.1 b
    let r3 := r2.2.RemoveMember r2.1 b
    r2.1.count a b = 1 ∧ r3.2.Contains a = true ∧ r3.2.Contains b = true ∧
      r3.2.members = [a, b] ∧ r3.1.count a b = 0 ∧ r3.1.count b a = 0 := by
  decide

theorem RemoveMember_DesiredSize (e : Env) (g : Group) (student : Student) :
    (g.RemoveMember e student).2.DesiredSize = g.DesiredSize := by
  unfold Group.RemoveMember
  split
  split <;> rfl

/-- The method `AddMember` has no capacity check: on a full group, whose member count 1 is at
most its `DesiredSize` 1, it yields a group of 2 members. -/
theorem AddMember_exceeds_DesiredSize :
    let a : Student := ⟨0, ⟨"A", "a"⟩⟩
    let b : Student := ⟨1, ⟨"B", "b"⟩⟩
    ((Group.mk [a] 1).members.length : Int) ≤ (Group.mk [a] 1).DesiredSize ∧
      ((Group.mk [a] 1).AddMember Env.initial b).2.members.length = 2 ∧
      ((Group.mk [a] 1).AddMember Env.initial b).2.DesiredSize = 1 := by
  decide

/-- What the member-changing methods do to the member count: `AddMember` keeps `DesiredSize`
and adds exactly one member, so it stays within `DesiredSize` on a group that is below it;
`RemoveMember` keeps `DesiredSize` and the member count. -/
theorem Group_member_count (e : Env) (g : Group) (student : Student) :
    (g.AddMember e student).2.DesiredSize = g.DesiredSize ∧
      (g.AddMember e student).2.members.length = g.members.length + 1 ∧
      ((g.members.length : Int) < g.DesiredSize →
        ((g.AddMember e student).2.members.length : Int) ≤
          (g.AddMember e student).2.DesiredSize) ∧
      ((g.members.length : Int) ≤ g.DesiredSize →
        ((g.RemoveMember e student).2.members.length : Int) ≤
          (g.RemoveMember e student).2.DesiredSize) := by
  refine ⟨rfl, ?_, fun h => ?_, fun h => ?_⟩
  · simp [Group.AddMember]
  · have : (g.AddMember e student).2.members.length = g.members.length + 1 := by
      simp [Group.AddMember]
    rw [this]
    show ((g.members.length + 1 : Nat) : Int) ≤ g.DesiredSize
    omega
  · rw [RemoveMember_members, RemoveMember_DesiredSize]
    exact h

set_option maxRecDepth 100000 in
/-- C17 fails on the code: a run of the fill loop leaves a group with more members than its
`DesiredSize`, the number of students the group should have once populated.  Roster `A`, `B`,
`C`, `D`, optimal size 4, projects `p` then `q`, package counters at 0, random choices 0, 1,
0, 0, ...  Project `p` is filled first.  Project `q` has one group of `DesiredSize` 4.  After
four calls of `addMemberToGroup` the group has 4 members and is still in the fill queue, in
which the third call, a reshuffle, had put it twice.  The fifth call dequeues it and calls
`AddMember` on it: applied to a group whose member count 4 is at most its `DesiredSize` 4,
`AddMember` yields a group of 5 members. -/
theorem groupStudentsForProject_overfills_group :
    (do
      let roster := newRoster [⟨"A", "a"⟩, ⟨"B", "b"⟩, ⟨"C", "c"⟩, ⟨"D", "d"⟩] 0
      let p ← NewProject 10 "p" roster 4 false
      let q ← NewProject 10 "q" roster 4 false
      let (_, e, _) ←
        groupStudentsForProject 10 (fun k => if k = 1 then 1 else 0) Env.initial p roster
      let st4 ← groupStudentsSteps 10 (fun k => if k = 1 then 1 else 0) roster 4
        { env := e, project := q,
          groupsToFill :=
            (List.range q.Groups.length).foldl GroupQueue.Enqueue GroupQueue.empty }
      let st5 ← groupStudentsSteps 10 (fun k => if k = 1 then 1 else 0) roster 5
        { env := e, project := q,
          groupsToFill :=
            (List.range q.Groups.length).foldl GroupQueue.Enqueue GroupQueue.empty }
      pure (q.Groups.length, (st4.project.getGroup 0).members.length,
        (st4.project.getGroup 0).DesiredSize, st4.groupsToFill.contents,
        (st5.project.getGroup 0).members.length, (st5.project.getGroup 0).DesiredSize)) =
      .ok (1, 4, 4, [0], 5, 4) := by
  decide

/-! ## The attempt loop of `Generate` and the reshuffle quota -/

/-- C18 fails on the code.  The loop over the projects of an attempt is run here from a state
one reshuffle short of the quota (`numReshuffles = 999`, `netRepairings = 1`,
`desiredRepairings = 0`, a ledger in which `A` has collaborated with `A` and with `B`), on two
projects `p` and `q` with one group of desired size 2 each.  `groupStudentsForProject` returns
the quota error for `p`, whose group is left with the single member `A`; the loop is not
abandoned: it goes on to `q`, which gets a member and returns the error as well.  It ends with
`netRepairings = 1 ≤ desiredRepairings = 2`, the test under which `Generate` returns the
grouping of this attempt. -/
theorem fillProjects_continues_after_quota_error :
    let a : Student := ⟨0, ⟨"A", "a"⟩⟩
    let b : Student := ⟨1, ⟨"B", "b"⟩⟩
    let e : Env :=
      { collaborators := fun s p =>
          if s = 0 ∧ p = 0 then some 2
          else if (s = 0 ∧ p = 1) ∨ (s = 1 ∧ p = 0) then some 1 else none,
        desiredRepairings := 0, netRepairings := 1, numReshuffles := 999, randCalls := 0 }
    let p : Project := { Groups := [NewGroup 2], Name := "p", UngroupedStudents := [a, b] }
    let q : Project := { Groups := [NewGroup 2], Name := "q", UngroupedStudents := [a, b] }
    (groupStudentsForProject 3 (fun _ => 0) e p [a, b]).map
        (fun r => (r.1, r.2.1.numReshuffles, r.2.2.Groups)) =
      .ok (true, 1000, [⟨[a], 2⟩]) ∧
    (fillProjects 3 (fun _ => 0) [a, b] [p, q] e).map
        (fun r => (r.1.map Project.ToAPIProjectGrouping, r.2.netRepairings,
          r.2.desiredRepairings, r.2.numReshuffles,
          decide (r.2.netRepairings ≤ r.2.desiredRepairings))) =
      .ok ([⟨"p", [⟨[⟨"A", "a"⟩]⟩]⟩, ⟨"q", [⟨[⟨"A", "a"⟩]⟩]⟩], 1, 2, 1001, true) := by
  decide

/-- C19 fails on the code.  The loop over the projects of an attempt is run here from a state
one reshuffle short of the quota with `desiredRepairings = 0` and `netRepairings = 3`, on two
projects.  Both return the quota error, so the loop alone raises `desiredRepairings` to 2, and
as `netRepairings = 3` is still above it the attempt fails and `Generate` adds one more. -/
theorem fillProjects_raises_desiredRepairings_per_error :
    let a : Student := ⟨0, ⟨"A", "a"⟩⟩
    let b : Student := ⟨1, ⟨"B", "b"⟩⟩
    let e : Env :=
      { collaborators := fun s p =>
          if s = 0 ∧ p = 0 then some 2
          else if (s = 0 ∧ p = 1) ∨ (s = 1 ∧ p = 0) then some 3 else none,
        desiredRepairings := 0, netRepairings := 3, numReshuffles := 999, randCalls := 0 }
    let p : Project := { Groups := [NewGroup 2], Name := "p", UngroupedStudents := [a, b] }
    let q : Project := { Groups := [NewGroup 2], Name := "q", UngroupedStudents := [a, b] }
    (fillProjects 3 (fun _ => 0) [a, b] [p, q] e).map
        (fun r => (r.2.desiredRepairings, r.2.netRepairings,
          decide (r.2.netRepairings ≤ r.2.desiredRepairings))) =
      .ok (2, 3, false) := by
  decide

/-- C20 fails on the code.  `addMemberToGroup` is run on a group `[A]` of desired size 2 with no
fresh student and no repairing budget left.  With `numReshuffles = 998` the reshuffle is carried
out and the count becomes 999; with `numReshuffles = 999` the count becomes 1000, which does not
exceed 1000, and yet the quota error is returned and the group is left as it was. -/
theorem addMemberToGroup_quota_error_at_1000 :
    let a : Student := ⟨0, ⟨"A", "a"⟩⟩
    let b : Student := ⟨1, ⟨"B", "b"⟩⟩
    let e : Env :=
      { collaborators := fun s p =>
          if s = 0 ∧ p = 0 then some 2
          else if (s = 0 ∧ p = 1) ∨ (s = 1 ∧ p = 0) then some 1 else none,
        desiredRepairings := 0, netRepairings := 1, numReshuffles := 999, randCalls := 0 }
    let p : Project := { Groups := [⟨[a], 2⟩], Name := "p", UngroupedStudents := [a, b] }
    let groupsToFill := GroupQueue.empty.Enqueue 0
    (addMemberToGroup 3 (fun _ => 0) [a, b]
        { env := e, project := p, groupsToFill := groupsToFill }).map
        (fun r => (r.1, r.2.env.numReshuffles, r.2.project.Groups)) =
      .ok (true, 1000, [⟨[a], 2⟩]) ∧
    (addMemberToGroup 3 (fun _ => 0) [a, b]
        { env := { e with numReshuffles := 998 }, project := p,
          groupsToFill := groupsToFill }).map
        (fun r => (r.1, r.2.env.numReshuffles, r.2.project.Groups)) =
      .ok (false, 999, [⟨[a, a], 2⟩]) := by
  decide

/-! ## What `Generate` and `GenerateWithPriors` return -/

theorem generateLoop_accepts (fuel : Nat) (rand : Nat → Nat) (g : classGrouping)
    (students : List api.Student) (groupingNames : List String) (attempts : Nat) :
    ∀ (e : Env) (grouping : api.ClassGrouping) (e' : Env),
      generateLoop fuel rand g students groupingNames attempts e = .ok (grouping, e') →
      e'.netRepairings ≤ e'.desiredRepairings := by
  induction attempts with
  | zero => intro e grouping e' h; simp [generateLoop] at h
  | succ attempts ih =>
    intro e grouping e' h
    rw [generateLoop] at h
    cases hp : newProjects fuel g (newRoster students 0) groupingNames with
    | error f => simp [hp, bind, Except.bind] at h
    | ok projects =>
      simp only [hp, bind, Except.bind] at h
      cases hf : fillProjects fuel rand (newRoster students 0) projects
          { e with collaborators := fun _ _ => none, netRepairings := 0, numReshuffles := 0 } with
      | error f => simp [hf] at h
      | ok r =>
        obtain ⟨projects', e1⟩ := r
        simp only [hf] at h
        by_cases hle : e1.netRepairings ≤ e1.desiredRepairings
        · simp only [hle, if_true, pure, Except.pure, Except.ok.injEq, Prod.mk.injEq] at h
          rw [← h.2]
          exact hle
        · simp only [hle, if_false] at h
          exact ih _ _ _ h

theorem generateWithPriorsLoop_accepts (fuel : Nat) (rand : Nat → Nat) (g : classGrouping)
    (students : List api.Student) (priorGroupings : List api.ProjectGrouping)
    (groupingNames : List String) (attempts : Nat) :
    ∀ (e : Env) (grouping : api.ClassGrouping) (e' : Env),
      generateWithPriorsLoop fuel rand g students priorGroupings groupingNames attempts e =
          .ok (grouping, e') →
      e'.netRepairings ≤ e'.desiredRepairings := by
  induction attempts with
  | zero => intro e grouping e' h; simp [generateWithPriorsLoop] at h
  | succ attempts ih =>
    intro e grouping e' h
    rw [generateWithPriorsLoop] at h
    cases hp : newProjects fuel g (newRoster students 0) groupingNames with
    | error f => simp [hp, bind, Except.bind] at h
    | ok projects =>
      simp only [hp, bind, Except.bind] at h
      generalize replayPriors _ priorGroupings _ = e0 at h
      cases hf : fillProjects fuel rand (newRoster students 0) projects
          { e0 with netRepairings := 0, numReshuffles := 0 } with
      | error f => simp [hf] at h
      | ok r =>
        obtain ⟨projects', e1⟩ := r
        simp only [hf] at h
        by_cases hle : e1.netRepairings ≤ e1.desiredRepairings
        · simp only [hle, if_true, pure, Except.pure, Except.ok.injEq, Prod.mk.injEq] at h
          rw [← h.2]
          exact hle
        · simp only [hle, if_false] at h
          exact ih _ _ _ h

/-- C21: whenever `Generate` or `GenerateWithPriors` returns a grouping, the `netRepairings`
counter of the accepted attempt is less than or equal to the value of `desiredRepairings` at
that moment. -/
theorem returned_within_desiredRepairings (g : classGrouping) (fuel : Nat) (rand : Nat → Nat)
    (e : Env) (students : List api.Student) (priorGroupings : List api.ProjectGrouping)
    (groupingNames : List String) (grouping : api.ClassGrouping) (e' : Env) :
    (g.Generate fuel rand e students groupingNames = .ok (grouping, e') →
        e'.netRepairings ≤ e'.desiredRepairings) ∧
      (g.GenerateWithPriors fuel rand e students priorGroupings groupingNames =
          .ok (grouping, e') →
        e'.netRepairings ≤ e'.desiredRepairings) :=
  ⟨generateLoop_accepts fuel rand g students groupingNames fuel e grouping e',
    generateWithPriorsLoop_accepts fuel rand g students priorGroupings groupingNames fuel e
      grouping e'⟩

/-- Witness for C21: `Generate` on two students, optimal size 1 and one project returns, and
the counters it returns with satisfy the bound. -/
theorem returned_within_desiredRepairings_witness :
    ∃ (grouping : api.ClassGrouping) (e' : Env),
      (NewClassGrouping 1 false).Generate 3 (fun _ => 0) Env.initial
          [⟨"A", "a"⟩, ⟨"B", "b"⟩] ["p"] = .ok (grouping, e') ∧
        e'.netRepairings ≤ e'.desiredRepairings := by
  cases h : (NewClassGrouping 1 false).Generate 3 (fun _ => 0) Env.initial
      [⟨"A", "a"⟩, ⟨"B", "b"⟩] ["p"] with
  | error f =>
    have hok : ((NewClassGrouping 1 false).Generate 3 (fun _ => 0) Env.initial
        [⟨"A", "a"⟩, ⟨"B", "b"⟩] ["p"]).isOk = true := by decide
    rw [h] at hok
    simp [Except.isOk, Except.toBool] at hok
  | ok r =>
    exact ⟨r.1, r.2, rfl,
      (returned_within_desiredRepairings (NewClassGrouping 1 false) 3 (fun _ => 0) Env.initial
        [⟨"A", "a"⟩, ⟨"B", "b"⟩] [] ["p"] r.1 r.2).1 h⟩

/-! ## The fill queue is a first-in first-out list -/

theorem QueueChain_head_le (nodes : List groupNode) (t : Nat) (l : List Nat) :
    ∀ (i : Nat), QueueChain nodes t (some i) l → i ≤ t ∧ t < nodes.length := by
  induction l with
  | nil => intro i h; exact absurd h (by simp [QueueChain])
  | cons v l ih =>
    intro i h
    cases l with
    | nil =>
      simp only [QueueChain, Option.some.injEq] at h
      obtain ⟨h1, h2⟩ := h
      have := (List.getElem?_eq_some_iff.1 h2).1
      omega
    | cons w l =>
      simp only [QueueChain, Option.some.injEq] at h
      obtain ⟨i', j, h1, h2, h3, h4⟩ := h
      have := ih j h4
      omega

/-- Linking a new node behind the node `t` extends the chain by the new value. -/
theorem QueueChain_enqueue (nodes : List groupNode) (t : Nat) (group : Nat) (node : groupNode)
    (hnode : nodes[t]? = some node) (l : List Nat) :
    ∀ (head : Option Nat), QueueChain nodes t head l →
      QueueChain
        ((nodes ++ [({ value := group, next := none } : groupNode)]).set t
          { node with next := some nodes.length })
        nodes.length head (l ++ [group]) := by
  have ht : t < nodes.length := (List.getElem?_eq_some_iff.1 hnode).1
  induction l with
  | nil => intro head h; exact absurd h (by simp [QueueChain])
  | cons v l ih =>
    intro head h
    cases l with
    | nil =>
      simp only [QueueChain] at h
      obtain ⟨h1, h2⟩ := h
      rw [hnode] at h2
      simp only [Option.some.injEq] at h2
      simp only [List.nil_append, List.cons_append, QueueChain]
      refine ⟨t, nodes.length, h1, ?_, ht, rfl, ?_⟩
      · rw [List.getElem?_set_self (by simp; omega), h2]
      · rw [List.getElem?_set_ne (by omega), List.getElem?_append_right (le_refl _)]
        simp
    | cons w l =>
      simp only [QueueChain] at h
      obtain ⟨i, j, h1, h2, h3, h4⟩ := h
      have hj := QueueChain_head_le nodes t (w :: l) j h4
      have hi : i < nodes.length := (List.getElem?_eq_some_iff.1 h2).1
      simp only [List.cons_append, QueueChain]
      refine ⟨i, j, h1, ?_, h3, ?_⟩
      · rw [List.getElem?_set_ne (by omega), List.getElem?_append_left hi]
        exact h2
      · exact ih (some j) h4

theorem QueueHolds_Enqueue (q : GroupQueue) (l : List Nat) (group : Nat) (h : QueueHolds q l) :
    QueueHolds (q.Enqueue group) (l ++ [group]) := by
  rcases h with ⟨hl, hhead, htail⟩ | ⟨t, htail, hchain⟩
  · subst hl
    right
    refine ⟨q.nodes.length, ?_, ?_⟩
    · unfold GroupQueue.Enqueue
      simp only [hhead, if_true]
    · unfold GroupQueue.Enqueue
      simp only [hhead, if_true, List.nil_append, QueueChain, true_and]
      cases ht : q.tail with
      | none =>
        simp only
        rw [List.getElem?_append_right (le_refl _)]
        simp
      | some t =>
        have hlt := htail t ht
        simp only
        rw [List.getElem?_append_left hlt]
        have hsome : q.nodes[t]? = some (q.nodes[t]) := List.getElem?_eq_getElem hlt
        rw [hsome]
        simp only
        rw [List.getElem?_set_ne (by omega), List.getElem?_append_right (le_refl _)]
        simp
  · right
    have hne : l ≠ [] := by
      intro hl
      subst hl
      exact absurd hchain (by simp [QueueChain])
    obtain ⟨i, hi⟩ : ∃ i, q.head = some i := by
      cases l with
      | nil => exact absurd rfl hne
      | cons v l =>
        cases l with
        | nil => exact ⟨t, hchain.1⟩
        | cons w l =>
          obtain ⟨i, j, h1, _⟩ := hchain
          exact ⟨i, h1⟩
    have hlt : t < q.nodes.length := by
      have := hchain
      rw [hi] at this
      exact (QueueChain_head_le q.nodes t l i this).2
    have hsome : q.nodes[t]? = some (q.nodes[t]) := List.getElem?_eq_getElem hlt
    refine ⟨q.nodes.length, ?_, ?_⟩
    · unfold GroupQueue.Enqueue
      simp only [hi]
      rfl
    · have key := QueueChain_enqueue q.nodes t group (q.nodes[t]) hsome l q.head hchain
      unfold GroupQueue.Enqueue
      rw [hi] at key
      simp only [htail, hi, List.getElem?_append_left hlt, hsome, reduceCtorEq, if_false]
      exact key

theorem QueueHolds_Dequeue_nil (q : GroupQueue) (h : QueueHolds q []) :
    q.Dequeue = (none, q) := by
  rcases h with ⟨_, hhead, _⟩ | ⟨t, _, hchain⟩
  · unfold GroupQueue.Dequeue
    rw [hhead]
  · exact absurd hchain (by simp [QueueChain])

theorem QueueHolds_Dequeue_cons (q : GroupQueue) (v : Nat) (l : List Nat)
    (h : QueueHolds q (v :: l)) :
    (q.Dequeue).1 = some v ∧ QueueHolds (q.Dequeue).2 l := by
  rcases h with ⟨hl, _, _⟩ | ⟨t, htail, hchain⟩
  · exact absurd hl (by simp)
  · cases l with
    | nil =>
      simp only [QueueChain] at hchain
      obtain ⟨h1, h2⟩ := hchain
      unfold GroupQueue.Dequeue
      simp only [h1, h2]
      refine ⟨trivial, Or.inl ⟨rfl, rfl, ?_⟩⟩
      intro t' ht'
      simp only at ht'
      rw [htail] at ht'
      simp only [Option.some.injEq] at ht'
      subst ht'
      exact (List.getElem?_eq_some_iff.1 h2).1
    | cons w l =>
      simp only [QueueChain] at hchain
      obtain ⟨i, j, h1, h2, h3, h4⟩ := hchain
      unfold GroupQueue.Dequeue
      simp only [h1, h2]
      exact ⟨trivial, Or.inr ⟨t, htail, h4⟩⟩

theorem QueueHolds_empty : QueueHolds GroupQueue.empty [] :=
  Or.inl ⟨rfl, rfl, fun t ht => absurd ht (by simp [GroupQueue.empty])⟩

theorem runQueueCalls_eq_runFifoCalls (calls : List QueueCall) :
    ∀ (q : GroupQueue) (l : List Nat), QueueHolds q l →
      (runQueueCalls calls q).1 = (runFifoCalls calls l).1 ∧
        QueueHolds (runQueueCalls calls q).2 (runFifoCalls calls l).2 := by
  induction calls with
  | nil => intro q l h; exact ⟨rfl, h⟩
  | cons call calls ih =>
    intro q l h
    cases call with
    | enqueue group =>
      simp only [runQueueCalls, runFifoCalls]
      exact ih _ _ (QueueHolds_Enqueue q l group h)
    | dequeue =>
      cases l with
      | nil =>
        have hd := QueueHolds_Dequeue_nil q h
        simp only [runQueueCalls, runFifoCalls, hd]
        have := ih q [] h
        exact ⟨by rw [this.1], this.2⟩
      | cons v l =>
        have hd := QueueHolds_Dequeue_cons q v l h
        simp only [runQueueCalls, runFifoCalls]
        have := ih _ _ hd.2
        exact ⟨by rw [hd.1, this.1], this.2⟩

theorem chaseNodes_of_QueueChain (nodes : List groupNode) (t : Nat) (l : List Nat) :
    ∀ (i fuel : Nat), QueueChain nodes t (some i) l → t < i + fuel →
      chaseNodes nodes fuel (some i) = l := by
  induction l with
  | nil => intro i fuel h; exact absurd h (by simp [QueueChain])
  | cons v l ih =>
    intro i fuel h hfuel
    cases l with
    | nil =>
      simp only [QueueChain, Option.some.injEq] at h
      obtain ⟨h1, h2⟩ := h
      subst h1
      obtain ⟨fuel, rfl⟩ : ∃ k, fuel = k + 1 := ⟨fuel - 1, by omega⟩
      simp only [chaseNodes, h2]
      cases fuel <;> rfl
    | cons w l =>
      simp only [QueueChain, Option.some.injEq] at h
      obtain ⟨i', j, h1, h2, h3, h4⟩ := h
      subst h1
      have hj := QueueChain_head_le nodes t (w :: l) j h4
      obtain ⟨fuel, rfl⟩ : ∃ k, fuel = k + 1 := ⟨fuel - 1, by omega⟩
      simp only [chaseNodes, h2]
      rw [ih j fuel h4 (by omega)]

theorem contents_of_QueueHolds (q : GroupQueue) (l : List Nat) (h : QueueHolds q l) :
    q.contents = l ∧ q.IsEmpty = l.isEmpty := by
  rcases h with ⟨hl, hhead, _⟩ | ⟨t, _, hchain⟩
  · subst hl
    unfold GroupQueue.contents GroupQueue.IsEmpty
    rw [hhead]
    refine ⟨?_, rfl⟩
    cases q.nodes.length <;> rfl
  · cases hh : q.head with
    | none =>
      rw [hh] at hchain
      cases l with
      | nil => exact absurd hchain (by simp [QueueChain])
      | cons v l =>
        cases l with
        | nil => exact absurd hchain.1 (by simp)
        | cons w l =>
          obtain ⟨i, j, h1, _⟩ := hchain
          exact absurd h1 (by simp)
    | some i =>
      rw [hh] at hchain
      have hle := QueueChain_head_le q.nodes t l i hchain
      unfold GroupQueue.contents GroupQueue.IsEmpty
      rw [hh]
      refine ⟨chaseNodes_of_QueueChain q.nodes t l i _ hchain (by omega), ?_⟩
      cases l with
      | nil => exact absurd hchain (by simp [QueueChain])
      | cons v l => rfl

/-- C22: `GroupQueue` refines a first-in first-out list.  Starting from the empty queue, any
finite sequence of `Enqueue` and `Dequeue` calls gives the same results as the same calls on a
list that appends at the back and takes from the front: every `Dequeue` returns the oldest
group not yet dequeued, a `Dequeue` on the empty queue returns `nil` and leaves the queue
empty, and afterwards the queue holds exactly the groups of the list, in the same order, and
is empty exactly when the list is (so a drained queue can be refilled). -/
theorem GroupQueue_refines_fifo (calls : List QueueCall) :
    (runQueueCalls calls GroupQueue.empty).1 = (runFifoCalls calls []).1 ∧
      (runQueueCalls calls GroupQueue.empty).2.contents = (runFifoCalls calls []).2 ∧
      (runQueueCalls calls GroupQueue.empty).2.IsEmpty = (runFifoCalls calls []).2.isEmpty :=
  ⟨(runQueueCalls_eq_runFifoCalls calls GroupQueue.empty [] QueueHolds_empty).1,
    contents_of_QueueHolds _ _
      (runQueueCalls_eq_runFifoCalls calls GroupQueue.empty [] QueueHolds_empty).2⟩

/-- C23: on a non-empty queue (`head` points to an allocated node) `Peek` returns the group
that the next `Dequeue` returns.  `Peek` only reads `q.head.value`: it assigns nothing, so the
queue it is called on, with its head, tail and contents, is the queue the `Dequeue` starts
from. -/
theorem Peek_eq_next_Dequeue (q : GroupQueue) (i : Nat) (hhead : q.head = some i)
    (hnode : i < q.nodes.length) :
    ∃ group, q.Peek = .ok group ∧ (q.Dequeue).1 = some group ∧
      (q.Dequeue).2.nodes = q.nodes ∧ (q.Dequeue).2.tail = q.tail := by
  have hsome : q.nodes[i]? = some (q.nodes[i]) := List.getElem?_eq_getElem hnode
  refine ⟨(q.nodes[i]).value, ?_, ?_, ?_, ?_⟩
  · unfold GroupQueue.Peek
    simp only [hhead, hsome]
  · unfold GroupQueue.Dequeue
    simp only [hhead, hsome]
  · unfold GroupQueue.Dequeue
    simp only [hhead, hsome]
  · unfold GroupQueue.Dequeue
    simp only [hhead, hsome]

/-- Witness for C23: the queue after `Enqueue 7` and `Enqueue 9`. -/
theorem Peek_eq_next_Dequeue_witness :
    ((GroupQueue.empty.Enqueue 7).Enqueue 9).head = some 0 ∧
      0 < ((GroupQueue.empty.Enqueue 7).Enqueue 9).nodes.length ∧
      ∃ group, ((GroupQueue.empty.Enqueue 7).Enqueue 9).Peek = .ok group ∧
        (((GroupQueue.empty.Enqueue 7).Enqueue 9).Dequeue).1 = some group ∧
        (((GroupQueue.empty.Enqueue 7).Enqueue 9).Dequeue).2.nodes =
          ((GroupQueue.empty.Enqueue 7).Enqueue 9).nodes ∧
        (((GroupQueue.empty.Enqueue 7).Enqueue 9).Dequeue).2.tail =
          ((GroupQueue.empty.Enqueue 7).Enqueue 9).tail :=
  ⟨by decide, by decide,
    Peek_eq_next_Dequeue ((GroupQueue.empty.Enqueue 7).Enqueue 9) 0 (by decide) (by decide)⟩

/-! ## The fill queue during `groupStudentsForProject` -/

set_option maxRecDepth 100000 in
/-- C24 fails in the code: four students, optimal size 4, projects `p` and `q`, random choices
`0, 1, 0, 0, ...`.  Project `p` is filled without a reshuffle.  In project `q` the third call
of `addMemberToGroup` is a reshuffle: `poachStudentIntoGroup` enqueues the group, which is not
full, and the deferred call of `addMemberToGroup` enqueues it again, so the queue holds the
only group of the project twice. -/
theorem groupStudentsForProject_enqueues_group_twice :
    (do
      let roster := newRoster [⟨"A", "a"⟩, ⟨"B", "b"⟩, ⟨"C", "c"⟩, ⟨"D", "d"⟩] 0
      let p ← NewProject 10 "p" roster 4 false
      let q ← NewProject 10 "q" roster 4 false
      let (_, e, _) ←
        groupStudentsForProject 10 (fun k => if k = 1 then 1 else 0) Env.initial p roster
      let st ← groupStudentsSteps 10 (fun k => if k = 1 then 1 else 0) roster 3
        { env := e, project := q,
          groupsToFill :=
            (List.range q.Groups.length).foldl GroupQueue.Enqueue GroupQueue.empty }
      pure (e.numReshuffles, st.groupsToFill.contents,
        st.groupsToFill.contents.count 0)) = .ok (0, [0, 0], 2) := by
  decide

/-! ## The loops of `AddMember` and `RemoveMember` over the members -/

theorem removeMemberLoop_fst (student : Student) (l : List Student) :
    ∀ (i : Nat) (e : Env) (removeIndex : Int),
      (removeMemberLoop student l i (e, removeIndex)).1 =
        l.foldl (fun e currentMember => Uncollaborate e currentMember student) e := by
  induction l with
  | nil => intro i e r; rfl
  | cons m l ih =>
    intro i e r
    simp only [removeMemberLoop, List.foldl_cons]
    exact ih _ _ _

theorem RemoveMember_fst (e : Env) (g : Group) (student : Student) :
    (g.RemoveMember e student).1 =
      g.members.foldl (fun e currentMember => Uncollaborate e currentMember student) e := by
  rw [← removeMemberLoop_fst student g.members 0 e (-1)]
  unfold Group.RemoveMember
  split
  rename_i e' removeIndex heq
  rw [heq]
  split <;> rfl

/-- The counts after the loop of `AddMember` over members at distinct addresses. -/
theorem foldl_Collaborate_countAt (s : Student) (ms : List Student) :
    ∀ (e : Env), (ms.map (fun m => m.addr)).Nodup → (∀ m ∈ ms, m.addr ≠ s.addr) →
      ∀ x y : Nat,
        (ms.foldl (fun e m => Collaborate e m s) e).countAt x y =
          if (x ∈ ms.map (fun m => m.addr) ∧ y = s.addr) ∨
              (x = s.addr ∧ y ∈ ms.map (fun m => m.addr)) then e.countAt x y + 1
          else e.countAt x y := by
  induction ms with
  | nil => intro e _ _ x y; simp
  | cons m ms ih =>
    intro e hnd hs x y
    have hm : m.addr ≠ s.addr := hs m (List.mem_cons_self m ms)
    have hnd' := List.nodup_cons.1 hnd
    have hmem : m.addr ∉ ms.map (fun m => m.addr) := hnd'.1
    have hs' : ∀ m' ∈ ms, m'.addr ≠ s.addr := fun m' h => hs m' (List.mem_cons_of_mem m h)
    have hsmem : s.addr ∉ ms.map (fun m => m.addr) := by
      intro h
      obtain ⟨m', hm', heq⟩ := List.mem_map.1 h
      exact hs' m' hm' heq
    rw [List.foldl_cons, ih (Collaborate e m s) hnd'.2 hs' x y, Collaborate_countAt e m s hm]
    simp only [List.map_cons, List.mem_cons]
    by_cases h1 : x = m.addr
    · subst h1
      by_cases h2 : y = s.addr
      · subst h2
        simp [hmem, hm]
      · have h3 : ¬ (m.addr = s.addr) := hm
        simp [h2, h3]
    · by_cases h2 : x = s.addr
      · subst h2
        by_cases h3 : y = m.addr
        · subst h3
          have h4 : ¬ (m.addr = s.addr) := hm
          simp [hmem, hsmem, h4, h1]
        · simp [h1, h3]
      · simp [h1, h2]

/-- The repairing counter after the loop of `AddMember` over members at distinct addresses. -/
theorem foldl_Collaborate_netRepairings (s : Student) (ms : List Student) :
    ∀ (e : Env), (ms.map (fun m => m.addr)).Nodup → (∀ m ∈ ms, m.addr ≠ s.addr) →
      (ms.foldl (fun e m => Collaborate e m s) e).netRepairings =
        e.netRepairings +
          ((ms.filter (fun m => decide (0 < e.countAt m.addr s.addr))).length : Int) := by
  induction ms with
  | nil => intro e _ _; simp
  | cons m ms ih =>
    intro e hnd hs
    have hm : m.addr ≠ s.addr := hs m (List.mem_cons_self m ms)
    have hnd' := List.nodup_cons.1 hnd
    have hs' : ∀ m' ∈ ms, m'.addr ≠ s.addr := fun m' h => hs m' (List.mem_cons_of_mem m h)
    have hfilter : ms.filter (fun m' => decide (0 < (Collaborate e m s).countAt m'.addr s.addr)) =
        ms.filter (fun m' => decide (0 < e.countAt m'.addr s.addr)) := by
      apply List.filter_congr
      intro m' hm'
      have hne : m'.addr ≠ m.addr := by
        intro h
        exact hnd'.1 (List.mem_map.2 ⟨m', hm', h⟩)
      rw [Collaborate_countAt_other e m s m'.addr s.addr (fun h => hne h.1)
        (fun h => hs' m' hm' h.1)]
    rw [List.foldl_cons, ih (Collaborate e m s) hnd'.2 hs', hfilter,
      Collaborate_netRepairings e m s hm]
    by_cases h : 0 < e.countAt m.addr s.addr
    · simp only [h, if_true, List.filter_cons, decide_True, List.length_cons]
      push_cast
      omega
    · simp only [h, if_false, List.filter_cons, decide_False, Bool.false_eq_true]

/-- The counts after the loop of `RemoveMember` over members at distinct addresses. -/
theorem foldl_Uncollaborate_countAt (s : Student) (ms : List Student) :
    ∀ (e : Env), (ms.map (fun m => m.addr)).Nodup → (∀ m ∈ ms, m.addr ≠ s.addr) →
      ∀ x y : Nat,
        (ms.foldl (fun e m => Uncollaborate e m s) e).countAt x y =
          if (x ∈ ms.map (fun m => m.addr) ∧ y = s.addr) ∨
              (x = s.addr ∧ y ∈ ms.map (fun m => m.addr)) then
            (if 1 < e.countAt x y then e.countAt x y - 1 else 0)
          else e.countAt x y := by
  induction ms with
  | nil => intro e _ _ x y; simp
  | cons m ms ih =>
    intro e hnd hs x y
    have hm : m.addr ≠ s.addr := hs m (List.mem_cons_self m ms)
    have hnd' := List.nodup_cons.1 hnd
    have hmem : m.addr ∉ ms.map (fun m => m.addr) := hnd'.1
    have hs' : ∀ m' ∈ ms, m'.addr ≠ s.addr := fun m' h => hs m' (List.mem_cons_of_mem m h)
    have hsmem : s.addr ∉ ms.map (fun m => m.addr) := by
      intro h
      obtain ⟨m', hm', heq⟩ := List.mem_map.1 h
      exact hs' m' hm' heq
    rw [List.foldl_cons, ih (Uncollaborate e m s) hnd'.2 hs' x y, Uncollaborate_countAt e m s hm]
    simp only [List.map_cons, List.mem_cons]
    by_cases h1 : x = m.addr
    · subst h1
      by_cases h2 : y = s.addr
      · subst h2
        simp [hmem, hm]
      · have h3 : ¬ (m.addr = s.addr) := hm
        simp [h2, h3]
    · by_cases h2 : x = s.addr
      · subst h2
        by_cases h3 : y = m.addr
        · subst h3
          have h4 : ¬ (m.addr = s.addr) := hm
          simp [hmem, hsmem, h4, h1]
        · simp [h1, h3]
      · simp [h1, h2]

/-- The repairing counter after the loop of `RemoveMember` over members at distinct
addresses. -/
theorem foldl_Uncollaborate_netRepairings (s : Student) (ms : List Student) :
    ∀ (e : Env), (ms.map (fun m => m.addr)).Nodup → (∀ m ∈ ms, m.addr ≠ s.addr) →
      (ms.foldl (fun e m => Uncollaborate e m s) e).netRepairings =
        e.netRepairings -
          ((ms.filter (fun m => decide (1 < e.countAt m.addr s.addr))).length : Int) := by
  induction ms with
  | nil => intro e _ _; simp
  | cons m ms ih =>
    intro e hnd hs
    have hm : m.addr ≠ s.addr := hs m (List.mem_cons_self m ms)
    have hnd' := List.nodup_cons.1 hnd
    have hs' : ∀ m' ∈ ms, m'.addr ≠ s.addr := fun m' h => hs m' (List.mem_cons_of_mem m h)
    have hfilter :
        ms.filter (fun m' => decide (1 < (Uncollaborate e m s).countAt m'.addr s.addr)) =
          ms.filter (fun m' => decide (1 < e.countAt m'.addr s.addr)) := by
      apply List.filter_congr
      intro m' hm'
      have hne : m'.addr ≠ m.addr := by
        intro h
        exact hnd'.1 (List.mem_map.2 ⟨m', hm', h⟩)
      rw [Uncollaborate_countAt_other e m s m'.addr s.addr (fun h => hne h.1)
        (fun h => hs' m' hm' h.1)]
    rw [List.foldl_cons, ih (Uncollaborate e m s) hnd'.2 hs', hfilter,
      Uncollaborate_netRepairings e m s hm]
    by_cases h : 1 < e.countAt m.addr s.addr
    · simp only [h, if_true, List.filter_cons, decide_True, List.length_cons]
      push_cast
      omega
    · simp only [h, if_false, List.filter_cons, decide_False, Bool.false_eq_true]

/-- The repairing counter after `Uncollaborate` of a student with itself. -/
theorem Uncollaborate_netRepairings_self (e : Env) (a : Student) :
    (Uncollaborate e a a).netRepairings =
      if 2 < e.countAt a.addr a.addr then e.netRepairings - 1 else e.netRepairings := by
  unfold Uncollaborate
  simp only [count_eq_countAt, countAt_ite_deleteCount, countAt_setCount, and_self, if_true,
    and_true]
  by_cases h : 2 < e.countAt a.addr a.addr
  · have h1 : ¬ (e.countAt a.addr a.addr - 1 < 1) := by omega
    have h2 : ¬ (e.countAt a.addr a.addr - 1 - 1 < 1) := by omega
    have h3 : 0 < e.countAt a.addr a.addr - 1 - 1 := by omega
    simp only [h, h1, h2, h3, if_true, if_false]
    rfl
  · simp only [h, if_false]
    split_ifs <;> first | rfl | omega

/-! ## Replaying the prior groupings -/

theorem newRoster_map (students : List api.Student) :
    ∀ i : Nat, (newRoster students i).map (fun s => s.toAPIStudent) = students := by
  induction students with
  | nil => intro i; rfl
  | cons student rest ih =>
    intro i
    simp only [newRoster, List.map_cons, ih (i + 1)]

theorem newRoster_addr_ge (students : List api.Student) :
    ∀ (i : Nat) (s : Student), s ∈ newRoster students i → i ≤ s.addr := by
  induction students with
  | nil => intro i s h; simp [newRoster] at h
  | cons student rest ih =>
    intro i s h
    simp only [newRoster, List.mem_cons] at h
    rcases h with h | h
    · rw [h]
    · have := ih (i + 1) s h
      omega

theorem newRoster_addr_nodup (students : List api.Student) :
    ∀ i : Nat, ((newRoster students i).map (fun s => s.addr)).Nodup := by
  induction students with
  | nil => intro i; simp [newRoster]
  | cons student rest ih =>
    intro i
    simp only [newRoster, List.map_cons, List.nodup_cons]
    refine ⟨?_, ih (i + 1)⟩
    intro h
    obtain ⟨s, hs, heq⟩ := List.mem_map.1 h
    have := newRoster_addr_ge rest (i + 1) s hs
    have heq' : s.addr = i := heq
    omega

theorem associativeRosterLoop_of_not_mem (roster : List Student) :
    ∀ (f : String → Option Student) (netID : String),
      netID ∉ roster.map (fun s => s.toAPIStudent.NetID) →
      associativeRosterLoop roster f netID = f netID := by
  induction roster with
  | nil => intro f netID _; rfl
  | cons x rest ih =>
    intro f netID h
    simp only [List.map_cons, List.mem_cons, not_or] at h
    rw [associativeRosterLoop, ih _ netID h.2]
    simp only [h.1, if_false]

theorem associativeRosterLoop_some (roster : List Student) :
    ∀ (f : String → Option Student) (netID : String) (s : Student),
      associativeRosterLoop roster f netID = some s →
      (s ∈ roster ∧ s.toAPIStudent.NetID = netID) ∨ f netID = some s := by
  induction roster with
  | nil => intro f netID s h; exact Or.inr h
  | cons x rest ih =>
    intro f netID s h
    rw [associativeRosterLoop] at h
    rcases ih _ netID s h with h1 | h1
    · exact Or.inl ⟨List.mem_cons_of_mem x h1.1, h1.2⟩
    · by_cases hx : netID = x.toAPIStudent.NetID
      · simp only [hx, if_true, Option.some.injEq] at h1
        subst h1
        exact Or.inl ⟨List.mem_cons_self _ _, hx.symm⟩
      · simp only [hx, if_false] at h1
        exact Or.inr h1

theorem associativeRosterLoop_mem (roster : List Student) :
    ∀ (f : String → Option Student) (s : Student),
      (roster.map (fun s => s.toAPIStudent.NetID)).Nodup → s ∈ roster →
      associativeRosterLoop roster f s.toAPIStudent.NetID = some s := by
  induction roster with
  | nil => intro f s _ h; simp at h
  | cons x rest ih =>
    intro f s hnd h
    simp only [List.map_cons, List.nodup_cons] at hnd
    rw [associativeRosterLoop]
    rcases List.mem_cons.1 h with h | h
    · subst h
      rw [associativeRosterLoop_of_not_mem rest _ _ hnd.1]
      simp
    · exact ih _ s hnd.2 h

theorem associativeRosterLoop_isSome (roster : List Student) (netID : String) :
    (associativeRosterLoop roster (fun _ => none) netID).isSome =
      decide (netID ∈ roster.map (fun s => s.toAPIStudent.NetID)) := by
  by_cases h : netID ∈ roster.map (fun s => s.toAPIStudent.NetID)
  · rw [decide_eq_true h]
    have key : ∀ (roster : List Student) (f : String → Option Student),
        netID ∈ roster.map (fun s => s.toAPIStudent.NetID) →
        (associativeRosterLoop roster f netID).isSome = true := by
      intro roster
      induction roster with
      | nil => intro f h; simp at h
      | cons x rest ih =>
        intro f h
        rw [associativeRosterLoop]
        by_cases hrest : netID ∈ rest.map (fun s => s.toAPIStudent.NetID)
        · exact ih _ hrest
        · rw [associativeRosterLoop_of_not_mem rest _ _ hrest]
          simp only [List.map_cons, List.mem_cons] at h
          rcases h with h | h
          · simp [h]
          · exact absurd h hrest
    exact key roster _ h
  · rw [decide_eq_false h, associativeRosterLoop_of_not_mem roster _ _ h]
    rfl

theorem replayPriorMembers_eq (associativeRoster : String → Option Student)
    (members : List api.Student) :
    ∀ (e : Env) (throwaway : Group),
      replayPriorMembers associativeRoster members (e, throwaway) =
        (members.filterMap (fun member => associativeRoster member.NetID)).foldl
          (fun st student => st.2.AddMember st.1 student) (e, throwaway) := by
  induction members with
  | nil => intro e throwaway; rfl
  | cons member rest ih =>
    intro e throwaway
    cases h : associativeRoster member.NetID with
    | none => simp only [replayPriorMembers, h, List.filterMap_cons, ih]
    | some student =>
      simp only [replayPriorMembers, h, List.filterMap_cons, List.foldl_cons]
      rw [← ih]

theorem replayPriorGroups_eq (associativeRoster : String → Option Student)
    (groups : List api.Group) :
    ∀ e : Env,
      replayPriorGroups associativeRoster groups e =
        groups.foldl
          (fun e group =>
            (replayPriorMembers associativeRoster group.Members
              (e, NewGroup (group.Members.length : Int))).1) e := by
  induction groups with
  | nil => intro e; rfl
  | cons group rest ih =>
    intro e
    simp only [replayPriorGroups, List.foldl_cons, ih]

theorem replayPriors_eq (associativeRoster : String → Option Student)
    (priorGroupings : List api.ProjectGrouping) :
    ∀ e : Env,
      replayPriors associativeRoster priorGroupings e =
        priorGroupings.foldl
          (fun e prior => replayPriorGroups associativeRoster prior.Groups e) e := by
  induction priorGroupings with
  | nil => intro e; rfl
  | cons prior rest ih =>
    intro e
    simp only [replayPriors, List.foldl_cons, ih]

/-- The bookkeeping of the pairs counted by `foldl_AddMember_countAt`: `a`, `c`, `p` say that
the first student is an old member, the new member, or added later, `b`, `d`, `q` the same for
the second student, and `n` that the two differ. -/
theorem pair_indicator (a b c d p q n : Prop) (v : Int)
    (ha : a → ¬ c) (hb : b → ¬ d) (hcd : c → d → ¬ n) (hxy : ¬ n → (c ↔ d))
    (i1 : Decidable ((a ∧ d) ∨ (c ∧ b)))
    (i2 : Decidable (((a ∨ c) ∨ p) ∧ ((b ∨ d) ∨ q) ∧ n ∧ ¬ ((a ∨ c) ∧ (b ∨ d))))
    (i3 : Decidable ((a ∨ c ∨ p) ∧ (b ∨ d ∨ q) ∧ n ∧ ¬ (a ∧ b))) :
    (@ite Int ((a ∧ d) ∨ (c ∧ b)) i1 (v + 1) v) +
        (@ite Int (((a ∨ c) ∨ p) ∧ ((b ∨ d) ∨ q) ∧ n ∧ ¬ ((a ∨ c) ∧ (b ∨ d))) i2 1 0) =
      v + @ite Int ((a ∨ c ∨ p) ∧ (b ∨ d ∨ q) ∧ n ∧ ¬ (a ∧ b)) i3 1 0 := by
  by_cases h1 : (a ∧ d) ∨ (c ∧ b)
  · have h2 : ¬ (((a ∨ c) ∨ p) ∧ ((b ∨ d) ∨ q) ∧ n ∧ ¬ ((a ∨ c) ∧ (b ∨ d))) :=
      fun H => H.2.2.2
        (h1.elim (fun h => ⟨Or.inl h.1, Or.inr h.2⟩) (fun h => ⟨Or.inr h.1, Or.inl h.2⟩))
    have h3 : (a ∨ c ∨ p) ∧ (b ∨ d ∨ q) ∧ n ∧ ¬ (a ∧ b) := by
      rcases h1 with ⟨h4, h5⟩ | ⟨h4, h5⟩
      · refine ⟨Or.inl h4, Or.inr (Or.inl h5), ?_, fun h => hb h.2 h5⟩
        by_contra hn
        exact ha h4 ((hxy hn).2 h5)
      · refine ⟨Or.inr (Or.inl h4), Or.inl h5, ?_, fun h => ha h.1 h4⟩
        by_contra hn
        exact hb h5 ((hxy hn).1 h4)
    rw [if_pos h1, if_neg h2, if_pos h3]
    omega
  · by_cases h2 : ((a ∨ c) ∨ p) ∧ ((b ∨ d) ∨ q) ∧ n ∧ ¬ ((a ∨ c) ∧ (b ∨ d))
    · have h3 : (a ∨ c ∨ p) ∧ (b ∨ d ∨ q) ∧ n ∧ ¬ (a ∧ b) :=
        ⟨or_assoc.1 h2.1, or_assoc.1 h2.2.1, h2.2.2.1,
          fun h => h2.2.2.2 ⟨Or.inl h.1, Or.inl h.2⟩⟩
      rw [if_neg h1, if_pos h2, if_pos h3]
    · have h3 : ¬ ((a ∨ c ∨ p) ∧ (b ∨ d ∨ q) ∧ n ∧ ¬ (a ∧ b)) := by
        rintro ⟨h4, h5, h6, h7⟩
        apply h2
        refine ⟨or_assoc.2 h4, or_assoc.2 h5, h6, ?_⟩
        rintro ⟨h8 | h8, h9 | h9⟩
        · exact h7 ⟨h8, h9⟩
        · exact h1 (Or.inl ⟨h8, h9⟩)
        · exact h1 (Or.inr ⟨h8, h9⟩)
        · exact hcd h8 h9 h6
      rw [if_neg h1, if_neg h2, if_neg h3]

/-- The counts after adding the students `added`, at distinct addresses, one after the other
to a group with the members `ms`: one more for every pair of distinct students of the group
that were not both members before. -/
theorem foldl_AddMember_countAt (added : List Student) :
    ∀ (ms : List Student) (d : Int) (e : Env),
      ((ms ++ added).map (fun m => m.addr)).Nodup →
      ∀ x y : Nat,
        ((added.foldl (fun st student => st.2.AddMember st.1 student)
            (e, ({ members := ms, DesiredSize := d } : Group))).1).countAt x y =
          e.countAt x y +
            if x ∈ (ms ++ added).map (fun m => m.addr) ∧
                y ∈ (ms ++ added).map (fun m => m.addr) ∧ x ≠ y ∧
                ¬ (x ∈ ms.map (fun m => m.addr) ∧ y ∈ ms.map (fun m => m.addr)) then 1
            else 0 := by
  induction added with
  | nil =>
    intro ms d e _ x y
    simp only [List.foldl_nil, List.append_nil]
    have : ¬ (x ∈ ms.map (fun m => m.addr) ∧ y ∈ ms.map (fun m => m.addr) ∧ x ≠ y ∧
        ¬ (x ∈ ms.map (fun m => m.addr) ∧ y ∈ ms.map (fun m => m.addr))) := by tauto
    rw [if_neg this, add_zero]
  | cons r added ih =>
    intro ms d e hnd x y
    have hnd2 : (((ms ++ [r]) ++ added).map (fun m => m.addr)).Nodup := by
      rw [List.append_assoc]
      exact hnd
    have hstep : ({ members := ms, DesiredSize := d } : Group).AddMember e r =
        (ms.foldl (fun e m => Collaborate e m r) e,
          ({ members := ms ++ [r], DesiredSize := d } : Group)) := rfl
    simp only [List.map_append, List.map_cons, List.nodup_append, List.nodup_cons,
      List.mem_map, List.disjoint_left, List.mem_cons] at hnd
    obtain ⟨hms, ⟨hr, hadded⟩, hdisj⟩ := hnd
    have hrms : ∀ m ∈ ms, m.addr ≠ r.addr := by
      intro m hm heq
      exact hdisj ⟨m, hm, rfl⟩ (Or.inl heq)
    have hms' : (ms.map (fun m => m.addr)).Nodup := by
      have := hnd2
      simp only [List.map_append, List.nodup_append] at this
      exact this.1.1
    rw [List.foldl_cons, hstep, ih (ms ++ [r]) d _ hnd2 x y,
      foldl_Collaborate_countAt r ms e hms' hrms x y]
    have ha : x ∈ ms.map (fun m => m.addr) → ¬ x = r.addr := by
      intro h heq
      obtain ⟨m, hm, hmx⟩ := List.mem_map.1 h
      exact hrms m hm (hmx.trans heq)
    have hb : y ∈ ms.map (fun m => m.addr) → ¬ y = r.addr := by
      intro h heq
      obtain ⟨m, hm, hmx⟩ := List.mem_map.1 h
      exact hrms m hm (hmx.trans heq)
    have hcd : x = r.addr → y = r.addr → x = y := fun h1 h2 => h1.trans h2.symm
    have hxy : x = y → (x = r.addr ↔ y = r.addr) := fun h => by rw [h]
    simp only [List.map_append, List.map_cons, List.map_nil, List.mem_append, List.mem_cons,
      List.mem_singleton, List.not_mem_nil, or_false]
    exact pair_indicator _ _ _ _ _ _ _ _ ha hb (fun h1 h2 h3 => h3 (hcd h1 h2))
      (fun h => hxy (not_not.1 h)) _ _ _

/-- Counts that only grow along a loop: the count of a pair has grown after the loop exactly
when it has grown in one of the iterations. -/
theorem foldl_countAt_lt {α : Type} (F : Env → α → Env) (Q : α → Nat → Nat → Prop)
    (l : List α) :
    (∀ a ∈ l, ∀ (e : Env) (x y : Nat),
        e.countAt x y ≤ (F e a).countAt x y ∧ (e.countAt x y < (F e a).countAt x y ↔ Q a x y)) →
      ∀ (e : Env) (x y : Nat),
        e.countAt x y ≤ (l.foldl F e).countAt x y ∧
          (e.countAt x y < (l.foldl F e).countAt x y ↔ ∃ a ∈ l, Q a x y) := by
  induction l with
  | nil =>
    intro _ e x y
    simp
  | cons a rest ih =>
    intro hF e x y
    have h1 := hF a (List.mem_cons_self a rest) e x y
    have h2 := ih (fun a' ha' => hF a' (List.mem_cons_of_mem a ha')) (F e a) x y
    rw [List.foldl_cons]
    refine ⟨le_trans h1.1 h2.1, ?_⟩
    constructor
    · intro hlt
      by_cases hq : e.countAt x y < (F e a).countAt x y
      · exact ⟨a, List.mem_cons_self a rest, h1.2.1 hq⟩
      · have h3 : (F e a).countAt x y < (rest.foldl F (F e a)).countAt x y := by omega
        obtain ⟨a', ha', hQ⟩ := h2.2.1 h3
        exact ⟨a', List.mem_cons_of_mem a ha', hQ⟩
    · rintro ⟨a', ha', hQ⟩
      rcases List.mem_cons.1 ha' with h | h
      · subst h
        have := h1.2.2 hQ
        omega
      · have := h2.2.2 ⟨a', h, hQ⟩
        omega

/-- The students a prior group brings into the throwaway group are at distinct addresses. -/
theorem replayed_addr_nodup (roster : List Student) (associativeRoster : String → Option Student)
    (hsome : ∀ netID s, associativeRoster netID = some s →
      s ∈ roster ∧ s.toAPIStudent.NetID = netID)
    (hinj : ∀ s ∈ roster, ∀ s' ∈ roster, s.addr = s'.addr → s = s')
    (members : List api.Student) (hnd : (members.map (fun m => m.NetID)).Nodup) :
    ((members.filterMap (fun m => associativeRoster m.NetID)).map (fun s => s.addr)).Nodup := by
  have h1 : members.filterMap (fun m => associativeRoster m.NetID) =
      (members.map (fun m => m.NetID)).filterMap associativeRoster := by
    rw [List.filterMap_map]
    rfl
  rw [h1]
  apply List.Nodup.map_on
  · intro s hs s' hs' heq
    obtain ⟨n, _, hn⟩ := List.mem_filterMap.1 hs
    obtain ⟨n', _, hn'⟩ := List.mem_filterMap.1 hs'
    exact hinj s (hsome n s hn).1 s' (hsome n' s' hn').1 heq
  · apply List.Nodup.filterMap _ hnd
    intro n n' s hn hn'
    rw [Option.mem_def] at hn hn'
    rw [← (hsome n s hn).2, ← (hsome n' s hn').2]

/-- A roster member is brought into the throwaway group exactly when the prior group lists
its NetID. -/
theorem replayed_addr_mem (roster : List Student) (associativeRoster : String → Option Student)
    (hsome : ∀ netID s, associativeRoster netID = some s →
      s ∈ roster ∧ s.toAPIStudent.NetID = netID)
    (hmem : ∀ s ∈ roster, associativeRoster s.toAPIStudent.NetID = some s)
    (hinj : ∀ s ∈ roster, ∀ s' ∈ roster, s.addr = s'.addr → s = s')
    (members : List api.Student) (a : Student) (ha : a ∈ roster) :
    a.addr ∈ (members.filterMap (fun m => associativeRoster m.NetID)).map (fun s => s.addr) ↔
      a.toAPIStudent.NetID ∈ members.map (fun m => m.NetID) := by
  constructor
  · intro h
    obtain ⟨s, hs, heq⟩ := List.mem_map.1 h
    obtain ⟨m, hm, hms⟩ := List.mem_filterMap.1 hs
    have h1 := hsome _ s hms
    have h2 : s = a := hinj s h1.1 a ha heq
    subst h2
    exact List.mem_map.2 ⟨m, hm, h1.2.symm⟩
  · intro h
    obtain ⟨m, hm, heq⟩ := List.mem_map.1 h
    refine List.mem_map.2 ⟨a, List.mem_filterMap.2 ⟨m, hm, ?_⟩, rfl⟩
    have heq' : m.NetID = a.toAPIStudent.NetID := heq
    rw [heq']
    exact hmem a ha

/-- The counts after one prior group has been replayed. -/
theorem replayPriorMembers_countAt (associativeRoster : String → Option Student)
    (members : List api.Student) (d : Int) (e : Env)
    (hnd : ((members.filterMap (fun m => associativeRoster m.NetID)).map
      (fun s => s.addr)).Nodup) (x y : Nat) :
    ((replayPriorMembers associativeRoster members (e, NewGroup d)).1).countAt x y =
      e.countAt x y +
        if x ∈ (members.filterMap (fun m => associativeRoster m.NetID)).map (fun s => s.addr) ∧
            y ∈ (members.filterMap (fun m => associativeRoster m.NetID)).map (fun s => s.addr) ∧
            x ≠ y then 1
        else 0 := by
  rw [replayPriorMembers_eq]
  have h := foldl_AddMember_countAt (members.filterMap (fun m => associativeRoster m.NetID))
    [] d e (by rw [List.nil_append]; exact hnd) x y
  rw [List.nil_append] at h
  have hg : NewGroup d = ({ members := [], DesiredSize := d } : Group) := rfl
  rw [hg, h]
  congr 1
  apply if_congr _ rfl rfl
  simp

/-- The package state after the priors have been replayed does not depend on the members a
prior group lists that are not on the roster. -/
theorem replayPriorMembers_filter (associativeRoster : String → Option Student)
    (keep : api.Student → Bool)
    (hkeep : ∀ m, keep m = (associativeRoster m.NetID).isSome)
    (members : List api.Student) :
    ∀ (e : Env) (ms : List Student) (d d' : Int),
      (replayPriorMembers associativeRoster members (e, { members := ms, DesiredSize := d })).1 =
        (replayPriorMembers associativeRoster (members.filter keep)
          (e, { members := ms, DesiredSize := d' })).1 := by
  induction members with
  | nil => intro e ms d d'; rfl
  | cons member rest ih =>
    intro e ms d d'
    cases h : associativeRoster member.NetID with
    | none =>
      have hk : keep member = false := by rw [hkeep, h]; rfl
      simp only [replayPriorMembers, h, List.filter_cons, hk, Bool.false_eq_true, if_false]
      exact ih e ms d d'
    | some student =>
      have hk : keep member = true := by rw [hkeep, h]; rfl
      simp only [replayPriorMembers, h, List.filter_cons, hk, if_true]
      exact ih _ _ d d'

theorem replayPriorGroups_filter (associativeRoster : String → Option Student)
    (keep : api.Student → Bool)
    (hkeep : ∀ m, keep m = (associativeRoster m.NetID).isSome) (groups : List api.Group) :
    ∀ e : Env,
      replayPriorGroups associativeRoster groups e =
        replayPriorGroups associativeRoster
          (groups.map (fun group => { Members := group.Members.filter keep })) e := by
  induction groups with
  | nil => intro e; rfl
  | cons group rest ih =>
    intro e
    simp only [List.map_cons, replayPriorGroups]
    have h := replayPriorMembers_filter associativeRoster keep hkeep group.Members e []
      (group.Members.length : Int) ((group.Members.filter keep).length : Int)
    have hg : ∀ d : Int, NewGroup d = ({ members := [], DesiredSize := d } : Group) :=
      fun _ => rfl
    rw [hg, hg, h]
    exact ih _

theorem replayPriors_filter (associativeRoster : String → Option Student)
    (keep : api.Student → Bool)
    (hkeep : ∀ m, keep m = (associativeRoster m.NetID).isSome)
    (priorGroupings : List api.ProjectGrouping) :
    ∀ e : Env,
      replayPriors associativeRoster priorGroupings e =
        replayPriors associativeRoster
          (priorGroupings.map (fun prior =>
            { prior with
              Groups := prior.Groups.map (fun group =>
                { Members := group.Members.filter keep }) })) e := by
  induction priorGroupings with
  | nil => intro e; rfl
  | cons prior rest ih =>
    intro e
    simp only [List.map_cons, replayPriors]
    rw [← replayPriorGroups_filter associativeRoster keep hkeep prior.Groups e]
    exact ih _

/-- C25: in `GenerateWithPriors`, for a roster with unique NetIDs and prior groups that list
each NetID at most once, after the priors have been replayed on the fresh students (and before
any project is filled) two distinct roster members `a` and `b` satisfy
`a.HasCollaboratedWith(b)` if and only if some prior group contains both their NetIDs; and the
package state after the replay is the one obtained from the priors without the members whose
NetID is not on the roster, so those members change no ledger. -/
theorem replayPriors_HasCollaboratedWith (students : List api.Student)
    (priorGroupings : List api.ProjectGrouping) (e : Env)
    (hroster : (students.map (fun s => s.NetID)).Nodup)
    (hpriors : ∀ prior ∈ priorGroupings, ∀ group ∈ prior.Groups,
      (group.Members.map (fun m => m.NetID)).Nodup) :
    (∀ a ∈ newRoster students 0, ∀ b ∈ newRoster students 0, a ≠ b →
        (HasCollaboratedWith
            (replayPriors (associativeRosterLoop (newRoster students 0) (fun _ => none))
              priorGroupings { e with collaborators := fun _ _ => none }) a b = true ↔
          ∃ prior ∈ priorGroupings, ∃ group ∈ prior.Groups,
            a.toAPIStudent.NetID ∈ group.Members.map (fun m => m.NetID) ∧
              b.toAPIStudent.NetID ∈ group.Members.map (fun m => m.NetID))) ∧
      replayPriors (associativeRosterLoop (newRoster students 0) (fun _ => none))
          priorGroupings { e with collaborators := fun _ _ => none } =
        replayPriors (associativeRosterLoop (newRoster students 0) (fun _ => none))
          (withoutAbsentMembers students priorGroupings)
          { e with collaborators := fun _ _ => none } := by
  have hids : (newRoster students 0).map (fun s => s.toAPIStudent.NetID) =
      students.map (fun s => s.NetID) := by
    have h := congrArg (List.map (fun s : api.Student => s.NetID)) (newRoster_map students 0)
    rw [List.map_map] at h
    exact h
  have hsome : ∀ netID s,
      associativeRosterLoop (newRoster students 0) (fun _ => none) netID = some s →
        s ∈ newRoster students 0 ∧ s.toAPIStudent.NetID = netID := by
    intro netID s h
    rcases associativeRosterLoop_some _ _ netID s h with h1 | h1
    · exact h1
    · exact absurd h1 (by simp)
  have hmem : ∀ s ∈ newRoster students 0,
      associativeRosterLoop (newRoster students 0) (fun _ => none) s.toAPIStudent.NetID =
        some s :=
    fun s hs => associativeRosterLoop_mem _ _ s (by rw [hids]; exact hroster) hs
  have hinj : ∀ s ∈ newRoster students 0, ∀ s' ∈ newRoster students 0,
      s.addr = s'.addr → s = s' :=
    fun s hs s' hs' h => List.inj_on_of_nodup_map (newRoster_addr_nodup students 0) hs hs' h
  refine ⟨?_, ?_⟩
  · intro a ha b hb hab
    generalize hassoc : associativeRosterLoop (newRoster students 0) (fun _ => none) = assoc
      at hsome hmem
    have hgroup : ∀ prior ∈ priorGroupings, ∀ group ∈ prior.Groups,
        ∀ (e : Env) (x y : Nat),
          e.countAt x y ≤
              ((replayPriorMembers assoc group.Members
                (e, NewGroup (group.Members.length : Int))).1).countAt x y ∧
            (e.countAt x y <
                ((replayPriorMembers assoc group.Members
                  (e, NewGroup (group.Members.length : Int))).1).countAt x y ↔
              x ∈ (group.Members.filterMap (fun m => assoc m.NetID)).map (fun s => s.addr) ∧
                y ∈ (group.Members.filterMap (fun m => assoc m.NetID)).map (fun s => s.addr) ∧
                x ≠ y) := by
      intro prior hprior group hgroup e x y
      rw [replayPriorMembers_countAt assoc group.Members _ e
        (replayed_addr_nodup (newRoster students 0) assoc hsome hinj group.Members
          (hpriors prior hprior group hgroup)) x y]
      split_ifs with h
      · exact ⟨by omega, fun _ => h, fun _ => by omega⟩
      · exact ⟨by omega, fun h' => absurd h' (by omega), fun h' => absurd h' h⟩
    have hprior : ∀ prior ∈ priorGroupings, ∀ (e : Env) (x y : Nat),
        e.countAt x y ≤ (replayPriorGroups assoc prior.Groups e).countAt x y ∧
          (e.countAt x y < (replayPriorGroups assoc prior.Groups e).countAt x y ↔
            ∃ group ∈ prior.Groups,
              x ∈ (group.Members.filterMap (fun m => assoc m.NetID)).map (fun s => s.addr) ∧
                y ∈ (group.Members.filterMap (fun m => assoc m.NetID)).map
                  (fun s => s.addr) ∧
                x ≠ y) := by
      intro prior hp e x y
      rw [replayPriorGroups_eq]
      exact foldl_countAt_lt _ _ prior.Groups (hgroup prior hp) e x y
    have hall := foldl_countAt_lt
      (fun e (prior : api.ProjectGrouping) => replayPriorGroups assoc prior.Groups e) _
      priorGroupings hprior { e with collaborators := fun _ _ => none } a.addr b.addr
    rw [← replayPriors_eq] at hall
    have haddr : a.addr ≠ b.addr := fun h => hab (hinj a ha b hb h)
    have hzero : ({ e with collaborators := fun _ _ => none } : Env).countAt a.addr b.addr = 0 :=
      rfl
    rw [hzero] at hall
    unfold HasCollaboratedWith
    rw [decide_eq_true_iff, count_eq_countAt, gt_iff_lt, hall.2]
    constructor
    · rintro ⟨prior, hp, group, hg, hx, hy, _⟩
      exact ⟨prior, hp, group, hg,
        (replayed_addr_mem _ assoc hsome hmem hinj group.Members a ha).1 hx,
        (replayed_addr_mem _ assoc hsome hmem hinj group.Members b hb).1 hy⟩
    · rintro ⟨prior, hp, group, hg, hx, hy⟩
      exact ⟨prior, hp, group, hg,
        (replayed_addr_mem _ assoc hsome hmem hinj group.Members a ha).2 hx,
        (replayed_addr_mem _ assoc hsome hmem hinj group.Members b hb).2 hy, haddr⟩
  · unfold withoutAbsentMembers
    apply replayPriors_filter
    intro m
    rw [associativeRosterLoop_isSome, hids]

/-- Witness for C25: the roster `A`, `B`, `C` and one prior project with the groups `[A, B]`
and `[C, Z]`, where `Z` is not on the roster: `A` has collaborated with `B`, and `C` with
nobody. -/
theorem replayPriors_HasCollaboratedWith_witness :
    HasCollaboratedWith
        (replayPriors
          (associativeRosterLoop (newRoster [⟨"A", "a"⟩, ⟨"B", "b"⟩, ⟨"C", "c"⟩] 0)
            (fun _ => none))
          [{ Name := "old", Groups := [{ Members := [⟨"A", "a"⟩, ⟨"B", "b"⟩] },
              { Members := [⟨"C", "c"⟩, ⟨"Z", "z"⟩] }] }]
          { Env.initial with collaborators := fun _ _ => none })
        ⟨0, ⟨"A", "a"⟩⟩ ⟨1, ⟨"B", "b"⟩⟩ = true ∧
      ∃ prior ∈ [({ Name := "old", Groups := [{ Members := [⟨"A", "a"⟩, ⟨"B", "b"⟩] },
          { Members := [⟨"C", "c"⟩, ⟨"Z", "z"⟩] }] } : api.ProjectGrouping)],
        ∃ group ∈ prior.Groups,
          "a" ∈ group.Members.map (fun m => m.NetID) ∧
            "b" ∈ group.Members.map (fun m => m.NetID) := by
  have h := (replayPriors_HasCollaboratedWith [⟨"A", "a"⟩, ⟨"B", "b"⟩, ⟨"C", "c"⟩]
    [{ Name := "old", Groups := [{ Members := [⟨"A", "a"⟩, ⟨"B", "b"⟩] },
        { Members := [⟨"C", "c"⟩, ⟨"Z", "z"⟩] }] }]
    Env.initial (by decide) (by decide)).1 ⟨0, ⟨"A", "a"⟩⟩ (by decide) ⟨1, ⟨"B", "b"⟩⟩
    (by decide) (by decide)
  have hhas : HasCollaboratedWith
      (replayPriors
        (associativeRosterLoop (newRoster [⟨"A", "a"⟩, ⟨"B", "b"⟩, ⟨"C", "c"⟩] 0)
          (fun _ => none))
        [{ Name := "old", Groups := [{ Members := [⟨"A", "a"⟩, ⟨"B", "b"⟩] },
            { Members := [⟨"C", "c"⟩, ⟨"Z", "z"⟩] }] }]
        { Env.initial with collaborators := fun _ _ => none })
      ⟨0, ⟨"A", "a"⟩⟩ ⟨1, ⟨"B", "b"⟩⟩ = true := by decide
  exact ⟨hhas, h.1 hhas⟩

/-! ## Malformed configurations -/

set_option maxRecDepth 100000 in
/-- C26 fails as stated: nothing checks the configuration.  With the optimal group size `-2`,
five students and one project, `Generate` builds the project with one group of size 1, fills it
and returns that grouping. -/
theorem Generate_returns_for_negative_size :
    ((NewClassGrouping (-2) false).Generate 20 (fun _ => 0) Env.initial
        [⟨"A", "a"⟩, ⟨"B", "b"⟩, ⟨"C", "c"⟩, ⟨"D", "d"⟩, ⟨"E", "e"⟩] ["p"]).map Prod.fst =
      .ok { Projects := [{ Name := "p", Groups := [{ Members := [⟨"A", "a"⟩] }] }] } := by
  decide

theorem groupStudentsForProject_empty_roster (fuel : Nat) (rand : Nat → Nat) (e : Env)
    (name : String) (hfuel : 1 ≤ fuel) (hnet : e.numReshuffles = 0) :
    groupStudentsForProject fuel rand e
        { Groups := [NewGroup 0], Name := name, UngroupedStudents := [] } [] =
      .error .panic := by
  obtain ⟨fuel, rfl⟩ : ∃ k, fuel = k + 1 := ⟨fuel - 1, by omega⟩
  unfold groupStudentsForProject
  have hr : List.range [NewGroup 0].length = [0] := rfl
  simp only [hr, List.foldl_cons, List.foldl_nil]
  rw [groupStudentsLoop]
  have hq : (GroupQueue.empty.Enqueue 0).IsEmpty = false := by decide
  have hd : (GroupQueue.empty.Enqueue 0).Dequeue =
      (some 0, { nodes := [{ value := 0, next := none }], head := none, tail := some 0 }) := by
    decide
  simp only [hq, Bool.false_eq_true, if_false, addMemberToGroup, hd]
  have hbody : ∀ q : GroupQueue,
      addMemberBody (fuel + 1) rand [] 0
        { env := e, project := { Groups := [NewGroup 0], Name := name, UngroupedStudents := [] },
          groupsToFill := q } = .error .panic := by
    intro q
    unfold addMemberBody
    simp only [potentialStudentsOf, List.filter_nil, List.length_nil, ne_eq, not_true_eq_false,
      if_false]
    by_cases h1 : e.netRepairings < e.desiredRepairings
    · simp only [h1, if_true, Intn, bind, Except.bind]
    · have h2 : ¬ (e.numReshuffles + 1 ≥ maxReshuffles) := by
        rw [hnet]
        decide
      simp only [h1, if_false, h2, evictLoop, gt_iff_lt, lt_self_iff_false,
        Project.getGroup, List.getD_cons_zero, NewGroup, List.length_nil, Intn, if_true, bind,
        Except.bind]
  rw [hbody]
  rfl

/-- C26, amended: `Generate` performs no check of its configuration and starts the first
attempt at once.  For at least one project name, an optimal group size of zero makes
`NewProject` panic (integer division by zero), and an empty roster with a positive optimal
group size makes the first call of `addMemberToGroup` panic (`rand.Intn(0)`): in both cases no
grouping is returned. -/
theorem Generate_malformed_configuration (g : classGrouping) (fuel : Nat) (rand : Nat → Nat)
    (e : Env) (students : List api.Student) (name : String) (names : List String)
    (hfuel : 1 ≤ fuel)
    (hmalformed : (students = [] ∧ 1 ≤ g.optimalGroupSize) ∨ g.optimalGroupSize = 0) :
    g.Generate fuel rand e students (name :: names) = .error .panic := by
  obtain ⟨fuel', hf⟩ : ∃ k, fuel = k + 1 := ⟨fuel - 1, by omega⟩
  unfold classGrouping.Generate
  rw [hf, generateLoop, ← hf]
  rcases hmalformed with ⟨hs, hS⟩ | hS
  · subst hs
    have hsizes : ∀ p, determineGroupSizes fuel 0 g.optimalGroupSize p = .ok [0] := by
      intro p
      unfold determineGroupSizes
      rw [if_pos (by omega)]
    have hproj : ∀ n, NewProject fuel n [] g.optimalGroupSize
        g.preferSmallerGroups =
          .ok { Groups := [NewGroup 0], Name := n, UngroupedStudents := [] } := by
      intro n
      unfold NewProject
      simp only [List.length_nil, Nat.cast_zero, hsizes, bind, Except.bind, pure,
        Except.pure, List.map_cons, List.map_nil]
    have hprojs : ∀ ns : List String, newProjects fuel g [] ns =
        .ok (ns.map (fun n => { Groups := [NewGroup 0], Name := n, UngroupedStudents := [] })) := by
      intro ns
      induction ns with
      | nil => rfl
      | cons n ns ih =>
        simp only [newProjects, hproj, ih, bind, Except.bind, pure, Except.pure, List.map_cons]
    simp only [newRoster, hprojs, bind, Except.bind, List.map_cons, fillProjects]
    rw [groupStudentsForProject_empty_roster fuel rand _ name hfuel rfl]
  · have hsizes : ∀ p, determineGroupSizes fuel ((newRoster students 0).length : Int)
        g.optimalGroupSize p = .error .panic := by
      intro p
      unfold determineGroupSizes
      rw [hS, if_neg (by omega), if_pos rfl]
    simp only [newProjects, NewProject, hsizes, bind, Except.bind]

/-- Witness for C26: the empty roster with optimal size 3 and one project. -/
theorem Generate_malformed_configuration_witness :
    (NewClassGrouping 3 false).Generate 5 (fun _ => 0) Env.initial [] ["p"] = .error .panic :=
  Generate_malformed_configuration (NewClassGrouping 3 false) 5 (fun _ => 0) Env.initial []
    "p" [] (by decide) (Or.inl ⟨rfl, by decide⟩)

/-! ## `parseStudent` -/

theorem stringsSplit_length (sep : Char) (l : List Char) :
    (parser.stringsSplit sep l).length = l.count sep + 1 := by
  induction l with
  | nil => rfl
  | cons c cs ih =>
    by_cases h : c = sep
    · subst h
      simp only [parser.stringsSplit, if_true, List.length_cons, ih, List.count_cons_self]
    · have hne : (c == sep) = false := by simpa using h
      simp only [parser.stringsSplit, h, if_false, List.count_cons, hne, Bool.false_eq_true]
      cases hs : parser.stringsSplit sep cs with
      | nil =>
        rw [hs] at ih
        simp at ih
      | cons piece pieces =>
        rw [hs] at ih
        simp only [List.length_cons] at ih ⊢
        omega

theorem stringsSplit_of_not_mem (sep : Char) (l : List Char) (h : sep ∉ l) :
    parser.stringsSplit sep l = [l] := by
  induction l with
  | nil => rfl
  | cons c cs ih =>
    have hc : ¬ c = sep := fun hc => h (by rw [hc]; exact List.mem_cons_self _ _)
    have hcs : sep ∉ cs := fun hcs => h (List.mem_cons_of_mem _ hcs)
    simp only [parser.stringsSplit, hc, if_false, ih hcs]

theorem stringsSplit_append_cons (sep : Char) (before after : List Char) (h : sep ∉ before) :
    parser.stringsSplit sep (before ++ sep :: after) =
      before :: parser.stringsSplit sep after := by
  induction before with
  | nil => simp only [List.nil_append, parser.stringsSplit, if_true]
  | cons c cs ih =>
    have hc : ¬ c = sep := fun hc => h (by rw [hc]; exact List.mem_cons_self _ _)
    have hcs : sep ∉ cs := fun hcs => h (List.mem_cons_of_mem _ hcs)
    have ih' := ih hcs
    rw [List.cons_append, parser.stringsSplit, if_neg hc, ih']

theorem dropWhile_eq_replicate_append (c : Char) (s : List Char) :
    ∃ n, s = List.replicate n c ++ s.dropWhile (fun x => x == c) ∧
      (s.dropWhile (fun x => x == c)).head? ≠ some c := by
  induction s with
  | nil => exact ⟨0, rfl, by simp⟩
  | cons a s ih =>
    by_cases h : a = c
    · subst h
      obtain ⟨n, h1, h2⟩ := ih
      refine ⟨n + 1, ?_, ?_⟩
      · simp only [List.dropWhile_cons, beq_self_eq_true, if_true, List.replicate_succ,
          List.cons_append]
        exact congrArg (List.cons a) h1
      · simpa only [List.dropWhile_cons, beq_self_eq_true, if_true] using h2
    · have hne : (a == c) = false := by simpa using h
      refine ⟨0, ?_, ?_⟩
      · simp only [List.dropWhile_cons, hne, Bool.false_eq_true, if_false, List.replicate_zero,
          List.nil_append]
      · simp only [List.dropWhile_cons, hne, Bool.false_eq_true, if_false, List.head?_cons,
          ne_eq, Option.some.injEq]
        exact h

/-- What `strings.Trim` returns: the text between the leading and the trailing occurrences of
the character. -/
theorem stringsTrim_spec (c : Char) (s : List Char) :
    ∃ l r, s = List.replicate l c ++ parser.stringsTrim c s ++ List.replicate r c ∧
      (parser.stringsTrim c s).head? ≠ some c ∧ (parser.stringsTrim c s).getLast? ≠ some c := by
  obtain ⟨l, h1, h2⟩ := dropWhile_eq_replicate_append c s
  obtain ⟨r, h3, h4⟩ :=
    dropWhile_eq_replicate_append c (s.dropWhile (fun x => x == c)).reverse
  have h5 : s.dropWhile (fun x => x == c) = parser.stringsTrim c s ++ List.replicate r c := by
    have := congrArg List.reverse h3
    rw [List.reverse_reverse, List.reverse_append, List.reverse_replicate] at this
    exact this
  refine ⟨l, r, ?_, ?_, ?_⟩
  · rw [List.append_assoc, ← h5]
    exact h1
  · rw [h5] at h2
    cases ht : parser.stringsTrim c s with
    | nil => simp
    | cons a t =>
      rw [ht] at h2
      simpa using h2
  · unfold parser.stringsTrim
    rw [List.getLast?_reverse]
    exact h4

/-- C27: `parseStudent` succeeds exactly when the record has two fields and the second field
contains exactly one comma.  On success (the second field is `before`, a comma, `after`, with
no other comma) `NetID` is the first field and `FullName` is `after` without its leading and
trailing spaces, then one space, then `before`.  In every other case the error comes with the
zero `Student`. -/
theorem parseStudent_spec (record : List String) :
    ((parser.parseStudent record).2 = none ↔
        ∃ netID name, record = [netID, name] ∧ name.toList.count ',' = 1) ∧
      (∀ (netID : String) (before after : List Char),
        record = [netID, String.mk (before ++ ',' :: after)] → ',' ∉ before → ',' ∉ after →
        ∃ (l r : Nat) (trimmed : List Char),
          after = List.replicate l ' ' ++ trimmed ++ List.replicate r ' ' ∧
            trimmed.head? ≠ some ' ' ∧ trimmed.getLast? ≠ some ' ' ∧
            parser.parseStudent record =
              ({ FullName := String.mk (trimmed ++ ' ' :: before), NetID := netID }, none)) ∧
      ((parser.parseStudent record).2 ≠ none →
        (parser.parseStudent record).1 = { FullName := "", NetID := "" }) := by
  refine ⟨?_, ?_, ?_⟩
  · constructor
    · intro h
      unfold parser.parseStudent at h
      by_cases hlen : record.length ≠ 2
      · rw [if_pos hlen] at h
        exact absurd h (by simp)
      · rw [if_neg hlen] at h
        simp only at h
        by_cases hnames :
            (parser.stringsSplit ',' (record.getD 1 "").toList).length ≠ 2
        · rw [if_pos hnames] at h
          exact absurd h (by simp)
        · rw [stringsSplit_length] at hnames
          match record, hlen with
          | [netID, name], _ =>
            refine ⟨netID, name, rfl, ?_⟩
            simp only [List.getD_cons_succ, List.getD_cons_zero] at hnames
            omega
          | [], hlen => exact absurd (by simp) hlen
          | [_], hlen => exact absurd (by simp) hlen
          | _ :: _ :: _ :: _, hlen => exact absurd (by simp) hlen
    · rintro ⟨netID, name, rfl, hcount⟩
      unfold parser.parseStudent
      have hlen : ¬ ([netID, name].length ≠ 2) := by simp
      rw [if_neg hlen]
      have hnames : ¬ ((parser.stringsSplit ',' ([netID, name].getD 1 "").toList).length ≠ 2) := by
        rw [stringsSplit_length]
        simp only [List.getD_cons_succ, List.getD_cons_zero, hcount]
        simp
      simp only [if_neg hnames]
  · intro netID before after hrec hbefore hafter
    obtain ⟨l, r, h1, h2, h3⟩ := stringsTrim_spec ' ' after
    refine ⟨l, r, parser.stringsTrim ' ' after, h1, h2, h3, ?_⟩
    subst hrec
    have hsplit : parser.stringsSplit ','
        (([netID, String.mk (before ++ ',' :: after)].getD 1 "").toList) = [before, after] := by
      show parser.stringsSplit ',' (before ++ ',' :: after) = [before, after]
      rw [stringsSplit_append_cons ',' before after hbefore,
        stringsSplit_of_not_mem ',' after hafter]
    unfold parser.parseStudent
    have hlen : ¬ ([netID, String.mk (before ++ ',' :: after)].length ≠ 2) := by simp
    rw [if_neg hlen]
    simp only [hsplit]
    simp
  · intro h
    unfold parser.parseStudent at h ⊢
    by_cases hlen : record.length ≠ 2
    · rw [if_pos hlen]
    · rw [if_neg hlen] at h ⊢
      simp only at h ⊢
      by_cases hnames : (parser.stringsSplit ',' (record.getD 1 "").toList).length ≠ 2
      · rw [if_pos hnames]
      · rw [if_neg hnames] at h
        exact absurd rfl h

/-- Witness for C27: the record of the test `TestParseStudent`, whose name is
`LastName, FirstName`. -/
theorem parseStudent_spec_witness :
    parser.parseStudent ["abc123@duke.edu", "LastName, FirstName"] =
        ({ FullName := "FirstName LastName", NetID := "abc123@duke.edu" }, none) ∧
      ∃ (l r : Nat) (trimmed : List Char),
        " FirstName".toList = List.replicate l ' ' ++ trimmed ++ List.replicate r ' ' ∧
          trimmed.head? ≠ some ' ' ∧ trimmed.getLast? ≠ some ' ' ∧
          parser.parseStudent ["abc123@duke.edu", "LastName, FirstName"] =
            ({ FullName := String.mk (trimmed ++ ' ' :: "LastName".toList),
               NetID := "abc123@duke.edu" }, none) :=
  ⟨by decide,
    (parseStudent_spec ["abc123@duke.edu", "LastName, FirstName"]).2.1 "abc123@duke.edu"
      "LastName".toList " FirstName".toList (by decide) (by decide) (by decide)⟩

/-! ## First occurrences: `indiciesOfExtremes` and `indiciesOfTwoSmallest` -/

theorem exists_first_min (l : List Int) (hne : l ≠ []) :
    ∃ pre x post, l = pre ++ x :: post ∧ (∀ y ∈ pre, x < y) ∧ ∀ y ∈ post, x ≤ y := by
  induction l with
  | nil => exact absurd rfl hne
  | cons a l ih =>
    by_cases hl : l = []
    · subst hl
      exact ⟨[], a, [], rfl, by simp, by simp⟩
    · obtain ⟨pre, x, post, hdec, hpre, hpost⟩ := ih hl
      by_cases hax : a ≤ x
      · refine ⟨[], a, l, rfl, by simp, ?_⟩
        intro y hy
        rw [hdec] at hy
        rcases List.mem_append.1 hy with hy | hy
        · exact le_of_lt (lt_of_le_of_lt hax (hpre y hy))
        · rcases List.mem_cons.1 hy with hy | hy
          · rw [hy]; exact hax
          · exact le_trans hax (hpost y hy)
      · refine ⟨a :: pre, x, post, by rw [hdec]; rfl, ?_, hpost⟩
        intro y hy
        rcases List.mem_cons.1 hy with hy | hy
        · rw [hy]; omega
        · exact hpre y hy

theorem exists_first_max (l : List Int) (hne : l ≠ []) :
    ∃ pre x post, l = pre ++ x :: post ∧ (∀ y ∈ pre, y < x) ∧ ∀ y ∈ post, y ≤ x := by
  induction l with
  | nil => exact absurd rfl hne
  | cons a l ih =>
    by_cases hl : l = []
    · subst hl
      exact ⟨[], a, [], rfl, by simp, by simp⟩
    · obtain ⟨pre, x, post, hdec, hpre, hpost⟩ := ih hl
      by_cases hax : x ≤ a
      · refine ⟨[], a, l, rfl, by simp, ?_⟩
        intro y hy
        rw [hdec] at hy
        rcases List.mem_append.1 hy with hy | hy
        · exact le_of_lt (lt_of_lt_of_le (hpre y hy) hax)
        · rcases List.mem_cons.1 hy with hy | hy
          · rw [hy]; exact hax
          · exact le_trans (hpost y hy) hax
      · refine ⟨a :: pre, x, post, by rw [hdec]; rfl, ?_, hpost⟩
        intro y hy
        rcases List.mem_cons.1 hy with hy | hy
        · rw [hy]; omega
        · exact hpre y hy

theorem getD_mem_of_lt (l : List Int) (k : Nat) (hk : k < l.length) : l.getD k 0 ∈ l := by
  rw [List.getD_eq_getElem l 0 hk]
  exact List.getElem_mem hk

theorem getD_append_of_lt (pre post : List Int) (k : Nat) (hk : k < pre.length) :
    (pre ++ post).getD k 0 = pre.getD k 0 := by
  rw [List.getD_eq_getElem _ 0 (by rw [List.length_append]; omega),
    List.getD_eq_getElem _ 0 hk, List.getElem_append_left hk]

theorem isFirstIndexOfMin_append_cons (pre post : List Int) (x : Int)
    (hpre : ∀ y ∈ pre, x < y) (hpost : ∀ y ∈ post, x ≤ y) :
    IsFirstIndexOfMin (pre ++ x :: post) pre.length := by
  refine ⟨by simp, ?_, ?_⟩
  · intro k hk
    rw [getD_append_cons]
    have hmem := getD_mem_of_lt _ k hk
    rcases List.mem_append.1 hmem with h | h
    · exact le_of_lt (hpre _ h)
    · rcases List.mem_cons.1 h with h | h
      · rw [h]
      · exact hpost _ h
  · intro k hk
    rw [getD_append_cons, getD_append_of_lt pre _ k hk]
    exact hpre _ (getD_mem_of_lt pre k hk)

theorem isFirstIndexOfMax_append_cons (pre post : List Int) (x : Int)
    (hpre : ∀ y ∈ pre, y < x) (hpost : ∀ y ∈ post, y ≤ x) :
    IsFirstIndexOfMax (pre ++ x :: post) pre.length := by
  refine ⟨by simp, ?_, ?_⟩
  · intro k hk
    rw [getD_append_cons]
    have hmem := getD_mem_of_lt _ k hk
    rcases List.mem_append.1 hmem with h | h
    · exact le_of_lt (hpre _ h)
    · rcases List.mem_cons.1 h with h | h
      · rw [h]
      · exact hpost _ h
  · intro k hk
    rw [getD_append_cons, getD_append_of_lt pre _ k hk]
    exact hpre _ (getD_mem_of_lt pre k hk)

/-- The smallest index of `indiciesOfExtremes` on a list of 64-bit integers split at the first
occurrence of its minimum. -/
theorem indiciesOfExtremes_fst_of_range (pre post : List Int) (x : Int)
    (hpre : ∀ y ∈ pre, x < y) (hpost : ∀ y ∈ post, x ≤ y)
    (hrange : ∀ y ∈ pre ++ x :: post, y ≤ maxInt64) :
    (indiciesOfExtremes (pre ++ x :: post)).1 = pre.length := by
  rcases lt_or_eq_of_le (hrange x (by simp)) with hx | hx
  · exact indiciesOfExtremes_fst pre post x hpre hpost hx
  · have hnil : pre = [] := by
      cases pre with
      | nil => rfl
      | cons a pre =>
        have h1 := hpre a (List.mem_cons_self a pre)
        have h2 := hrange a (by simp)
        omega
    subst hnil
    unfold indiciesOfExtremes
    have h := extremesLoop_smallest_of_le (x :: post) 0
      { smallestIndex := 0, largestIndex := 0, smallestNumber := maxInt64,
        largestNumber := minInt64 }
      (by
        intro y hy
        rcases List.mem_cons.1 hy with hy | hy
        · rw [hy, hx]
        · rw [← hx]; exact hpost y hy)
    exact h.1

/-- The largest index of `indiciesOfExtremes` on a list of 64-bit integers split at the first
occurrence of its maximum. -/
theorem indiciesOfExtremes_snd_of_range (pre post : List Int) (x : Int)
    (hpre : ∀ y ∈ pre, y < x) (hpost : ∀ y ∈ post, y ≤ x)
    (hrange : ∀ y ∈ pre ++ x :: post, minInt64 ≤ y) :
    (indiciesOfExtremes (pre ++ x :: post)).2 = pre.length := by
  rcases lt_or_eq_of_le (hrange x (by simp)) with hx | hx
  · exact indiciesOfExtremes_snd pre post x hpre hpost hx
  · have hnil : pre = [] := by
      cases pre with
      | nil => rfl
      | cons a pre =>
        have h1 := hpre a (List.mem_cons_self a pre)
        have h2 := hrange a (by simp)
        omega
    subst hnil
    unfold indiciesOfExtremes
    have h := extremesLoop_largest_of_le (x :: post) 0
      { smallestIndex := 0, largestIndex := 0, smallestNumber := maxInt64,
        largestNumber := minInt64 }
      (by
        intro y hy
        rcases List.mem_cons.1 hy with hy | hy
        · rw [hy, ← hx]
        · rw [hx]; exact hpost y hy)
    exact h.1

theorem indiciesOfExtremes_fst_isFirst (numbers : List Int) (hne : numbers ≠ [])
    (hrange : ∀ x ∈ numbers, x ≤ maxInt64) :
    IsFirstIndexOfMin numbers (indiciesOfExtremes numbers).1 := by
  obtain ⟨pre, x, post, hdec, hpre, hpost⟩ := exists_first_min numbers hne
  subst hdec
  rw [indiciesOfExtremes_fst_of_range pre post x hpre hpost hrange]
  exact isFirstIndexOfMin_append_cons pre post x hpre hpost

/-- C28: for every non-empty list of 64-bit integers, `indiciesOfExtremes` returns `(i, j)`
where `i` is the first index holding the minimum value and `j` is the first index holding the
maximum value. -/
theorem indiciesOfExtremes_first_occurrences (numbers : List Int) (hne : numbers ≠ [])
    (hrange : ∀ x ∈ numbers, minInt64 ≤ x ∧ x ≤ maxInt64) :
    IsFirstIndexOfMin numbers (indiciesOfExtremes numbers).1 ∧
      IsFirstIndexOfMax numbers (indiciesOfExtremes numbers).2 := by
  refine ⟨indiciesOfExtremes_fst_isFirst numbers hne (fun x hx => (hrange x hx).2), ?_⟩
  obtain ⟨pre, x, post, hdec, hpre, hpost⟩ := exists_first_max numbers hne
  subst hdec
  rw [indiciesOfExtremes_snd_of_range pre post x hpre hpost (fun y hy => (hrange y hy).1)]
  exact isFirstIndexOfMax_append_cons pre post x hpre hpost

/-- Witness for C28: the list `[3, 1, 4, 1, 4]`, with the minimum first at index 1 and the
maximum first at index 2. -/
theorem indiciesOfExtremes_first_occurrences_witness :
    indiciesOfExtremes [3, 1, 4, 1, 4] = (1, 2) ∧
      IsFirstIndexOfMin [3, 1, 4, 1, 4] (indiciesOfExtremes [3, 1, 4, 1, 4]).1 ∧
      IsFirstIndexOfMax [3, 1, 4, 1, 4] (indiciesOfExtremes [3, 1, 4, 1, 4]).2 :=
  ⟨by decide,
    indiciesOfExtremes_first_occurrences [3, 1, 4, 1, 4] (by decide) (by decide)⟩

theorem replaceSmallest_eq_set (l : List Int) (i k : Nat) :
    replaceSmallest (k + i) l k = l.set i maxInt64 := by
  induction l generalizing i k with
  | nil => rfl
  | cons a l ih =>
    cases i with
    | zero =>
      simp only [Nat.add_zero, replaceSmallest, if_true, List.set_cons_zero]
      rw [replaceSmallest_of_lt k l (k + 1) (by omega)]
    | succ i =>
      have hne : ¬ k = k + (i + 1) := by omega
      simp only [replaceSmallest, hne, if_false, List.set_cons_succ]
      rw [show k + (i + 1) = (k + 1) + i by omega, ih i (k + 1)]

theorem getD_set_maxInt64 (l : List Int) (i k : Nat) (hk : k < l.length) :
    (l.set i maxInt64).getD k 0 = if k = i then maxInt64 else l.getD k 0 := by
  rw [List.getD_eq_getElem _ 0 (by rw [List.length_set]; exact hk), List.getD_eq_getElem _ 0 hk,
    List.getElem_set]
  by_cases h : i = k
  · subst h
    simp
  · have h2 : ¬ k = i := fun h3 => h h3.symm
    simp [h, h2]

/-- C29: for every list of at least two 64-bit integers, each smaller than the largest 64-bit
integer, `indiciesOfTwoSmallest` returns `(i, j)` where `i` is the first index of the minimum,
`j` differs from `i`, and `j` is the first index of the minimum of the list with position `i`
excluded. -/
theorem indiciesOfTwoSmallest_first_occurrences (numbers : List Int)
    (hlen : 2 ≤ numbers.length) (hrange : ∀ x ∈ numbers, x < maxInt64) :
    IsFirstIndexOfMin numbers (indiciesOfTwoSmallest numbers).1 ∧
      (indiciesOfTwoSmallest numbers).2 ≠ (indiciesOfTwoSmallest numbers).1 ∧
      IsFirstIndexOfMinExcluding numbers (indiciesOfTwoSmallest numbers).1
        (indiciesOfTwoSmallest numbers).2 := by
  have hne : numbers ≠ [] := by
    intro h
    rw [h] at hlen
    simp at hlen
  have h1 := indiciesOfExtremes_fst_isFirst numbers hne (fun x hx => le_of_lt (hrange x hx))
  unfold indiciesOfTwoSmallest
  simp only
  generalize hi : (indiciesOfExtremes numbers).1 = i at h1
  have hset : replaceSmallest i numbers 0 = numbers.set i maxInt64 := by
    have := replaceSmallest_eq_set numbers i 0
    rwa [Nat.zero_add] at this
  rw [hset]
  have hne2 : numbers.set i maxInt64 ≠ [] := by
    intro h
    have := congrArg List.length h
    rw [List.length_set] at this
    rw [this] at hlen
    simp at hlen
  have hrange2 : ∀ x ∈ numbers.set i maxInt64, x ≤ maxInt64 := by
    intro x hx
    rcases List.mem_or_eq_of_mem_set hx with h | h
    · exact le_of_lt (hrange x h)
    · rw [h]
  have h2 := indiciesOfExtremes_fst_isFirst (numbers.set i maxInt64) hne2 hrange2
  generalize (indiciesOfExtremes (numbers.set i maxInt64)).1 = j at h2
  obtain ⟨hj, hmin, hfirst⟩ := h2
  rw [List.length_set] at hj hmin
  have hval : ∀ k, k < numbers.length →
      (numbers.set i maxInt64).getD k 0 = if k = i then maxInt64 else numbers.getD k 0 :=
    fun k hk => getD_set_maxInt64 numbers i k hk
  have hji : j ≠ i := by
    intro hji
    obtain ⟨k, hk, hki⟩ : ∃ k, k < numbers.length ∧ k ≠ i := by
      by_cases h0 : i = 0
      · exact ⟨1, by omega, by omega⟩
      · exact ⟨0, by omega, fun h => h0 h.symm⟩
    have h3 := hmin k hk
    rw [hval j hj, hval k hk, if_pos hji, if_neg hki] at h3
    have h4 := hrange _ (getD_mem_of_lt numbers k hk)
    omega
  refine ⟨h1, hji, hj, hji, ?_, ?_⟩
  · intro k hk hki
    have h3 := hmin k hk
    rwa [hval j hj, hval k hk, if_neg hji, if_neg hki] at h3
  · intro k hk hki
    have h3 := hfirst k hk
    rwa [hval j hj, hval k (by omega), if_neg hji, if_neg hki] at h3

/-- Witness for C29: the list `[3, 1, 4, 1, 5]`, with the minimum first at index 1 and, with
that position excluded, the minimum first at index 3. -/
theorem indiciesOfTwoSmallest_first_occurrences_witness :
    indiciesOfTwoSmallest [3, 1, 4, 1, 5] = (1, 3) ∧
      IsFirstIndexOfMin [3, 1, 4, 1, 5] (indiciesOfTwoSmallest [3, 1, 4, 1, 5]).1 ∧
      (indiciesOfTwoSmallest [3, 1, 4, 1, 5]).2 ≠ (indiciesOfTwoSmallest [3, 1, 4, 1, 5]).1 ∧
      IsFirstIndexOfMinExcluding [3, 1, 4, 1, 5] (indiciesOfTwoSmallest [3, 1, 4, 1, 5]).1
        (indiciesOfTwoSmallest [3, 1, 4, 1, 5]).2 :=
  ⟨by decide,
    indiciesOfTwoSmallest_first_occurrences [3, 1, 4, 1, 5] (by decide) (by decide)⟩

/-! ## `AddMember` followed by `RemoveMember` -/

/-- C30: for a group of distinct students and a student `s` that is not in the group and has
no ledger count for itself (the counts of `s` with the members being co-occurrence counts, so
non-negative), `g.AddMember(s)` followed by `g.RemoveMember(s)` leaves every ledger count of
every student and `netRepairings` exactly as they were before the two calls. -/
theorem AddMember_then_RemoveMember (e : Env) (g : Group) (s : Student)
    (hdistinct : (g.members.map (fun m => m.addr)).Nodup)
    (hs : ∀ m ∈ g.members, m.addr ≠ s.addr)
    (hself : e.count s s = 0)
    (hnonneg : ∀ m ∈ g.members, 0 ≤ e.count m s ∧ 0 ≤ e.count s m) :
    (∀ a b : Student,
        ((g.AddMember e s).2.RemoveMember (g.AddMember e s).1 s).1.count a b = e.count a b) ∧
      ((g.AddMember e s).2.RemoveMember (g.AddMember e s).1 s).1.netRepairings =
        e.netRepairings := by
  have hadd : g.AddMember e s =
      (g.members.foldl (fun e m => Collaborate e m s) e,
        { g with members := g.members ++ [s] }) := rfl
  rw [RemoveMember_fst, hadd]
  simp only [List.foldl_append, List.foldl_cons, List.foldl_nil]
  generalize he1 : g.members.foldl (fun e m => Collaborate e m s) e = e1
  generalize he2 : g.members.foldl (fun e m => Uncollaborate e m s) e1 = e2
  have hc1 := foldl_Collaborate_countAt s g.members e hdistinct hs
  have hn1 := foldl_Collaborate_netRepairings s g.members e hdistinct hs
  have hc2 := foldl_Uncollaborate_countAt s g.members e1 hdistinct hs
  have hn2 := foldl_Uncollaborate_netRepairings s g.members e1 hdistinct hs
  rw [he1] at hc1 hn1
  rw [he2] at hc2 hn2
  have hsmem : s.addr ∉ g.members.map (fun m => m.addr) := by
    intro h
    obtain ⟨m, hm, heq⟩ := List.mem_map.1 h
    exact hs m hm heq
  have hcount : ∀ x y : Nat, e2.countAt x y = e.countAt x y := by
    intro x y
    rw [hc2, hc1]
    by_cases hP : (x ∈ g.members.map (fun m => m.addr) ∧ y = s.addr) ∨
        (x = s.addr ∧ y ∈ g.members.map (fun m => m.addr))
    · simp only [hP, if_true]
      have h0 : 0 ≤ e.countAt x y := by
        rcases hP with ⟨hx, hy⟩ | ⟨hx, hy⟩
        · obtain ⟨m, hm, heq⟩ := List.mem_map.1 hx
          rw [hy, ← heq]
          exact (hnonneg m hm).1
        · obtain ⟨m, hm, heq⟩ := List.mem_map.1 hy
          rw [hx, ← heq]
          exact (hnonneg m hm).2
      split_ifs <;> omega
    · simp only [hP, if_false]
  have hself2 : e2.countAt s.addr s.addr = 0 := by
    rw [hcount]
    exact hself
  refine ⟨fun a b => ?_, ?_⟩
  · rw [count_eq_countAt, count_eq_countAt]
    by_cases hab : a.addr = s.addr ∧ b.addr = s.addr
    · rw [hab.1, hab.2, Uncollaborate_countAt_self e2 s s rfl, hself2]
      rw [count_eq_countAt] at hself
      rw [hself]
      rfl
    · rw [Uncollaborate_countAt_other e2 s s a.addr b.addr hab hab]
      exact hcount _ _
  · rw [Uncollaborate_netRepairings_self, hself2, if_neg (by decide), hn2, hn1]
    have hfilter : g.members.filter (fun m => decide (1 < e1.countAt m.addr s.addr)) =
        g.members.filter (fun m => decide (0 < e.countAt m.addr s.addr)) := by
      apply List.filter_congr
      intro m hm
      have hP : (m.addr ∈ g.members.map (fun m => m.addr) ∧ s.addr = s.addr) ∨
          (m.addr = s.addr ∧ s.addr ∈ g.members.map (fun m => m.addr)) :=
        Or.inl ⟨List.mem_map.2 ⟨m, hm, rfl⟩, rfl⟩
      have hval : e1.countAt m.addr s.addr = e.countAt m.addr s.addr + 1 := by
        rw [hc1, if_pos hP]
      rw [hval]
      by_cases h : 0 < e.countAt m.addr s.addr
      · have h' : 1 < e.countAt m.addr s.addr + 1 := by omega
        simp only [h, h', decide_True]
      · have h' : ¬ 1 < e.countAt m.addr s.addr + 1 := by omega
        simp only [h, h', decide_False]
    rw [hfilter]
    omega

/-- Witness for C30: the group `[A, B]`, where `A` and `B` have worked together once and `A`
has worked with `C` once before, and the student `C`. -/
theorem AddMember_then_RemoveMember_witness :
    (∀ a b : Student,
        (((Group.mk [⟨0, ⟨"A", "a"⟩⟩, ⟨1, ⟨"B", "b"⟩⟩] 3).AddMember
              (Collaborate (Collaborate Env.initial ⟨0, ⟨"A", "a"⟩⟩ ⟨1, ⟨"B", "b"⟩⟩)
                ⟨0, ⟨"A", "a"⟩⟩ ⟨2, ⟨"C", "c"⟩⟩) ⟨2, ⟨"C", "c"⟩⟩).2.RemoveMember
            ((Group.mk [⟨0, ⟨"A", "a"⟩⟩, ⟨1, ⟨"B", "b"⟩⟩] 3).AddMember
              (Collaborate (Collaborate Env.initial ⟨0, ⟨"A", "a"⟩⟩ ⟨1, ⟨"B", "b"⟩⟩)
                ⟨0, ⟨"A", "a"⟩⟩ ⟨2, ⟨"C", "c"⟩⟩) ⟨2, ⟨"C", "c"⟩⟩).1
            ⟨2, ⟨"C", "c"⟩⟩).1.count a b =
          (Collaborate (Collaborate Env.initial ⟨0, ⟨"A", "a"⟩⟩ ⟨1, ⟨"B", "b"⟩⟩)
            ⟨0, ⟨"A", "a"⟩⟩ ⟨2, ⟨"C", "c"⟩⟩).count a b) ∧
      (((Group.mk [⟨0, ⟨"A", "a"⟩⟩, ⟨1, ⟨"B", "b"⟩⟩] 3).AddMember
            (Collaborate (Collaborate Env.initial ⟨0, ⟨"A", "a"⟩⟩ ⟨1, ⟨"B", "b"⟩⟩)
              ⟨0, ⟨"A", "a"⟩⟩ ⟨2, ⟨"C", "c"⟩⟩) ⟨2, ⟨"C", "c"⟩⟩).2.RemoveMember
          ((Group.mk [⟨0, ⟨"A", "a"⟩⟩, ⟨1, ⟨"B", "b"⟩⟩] 3).AddMember
            (Collaborate (Collaborate Env.initial ⟨0, ⟨"A", "a"⟩⟩ ⟨1, ⟨"B", "b"⟩⟩)
              ⟨0, ⟨"A", "a"⟩⟩ ⟨2, ⟨"C", "c"⟩⟩) ⟨2, ⟨"C", "c"⟩⟩).1
          ⟨2, ⟨"C", "c"⟩⟩).1.netRepairings =
        (Collaborate (Collaborate Env.initial ⟨0, ⟨"A", "a"⟩⟩ ⟨1, ⟨"B", "b"⟩⟩)
          ⟨0, ⟨"A", "a"⟩⟩ ⟨2, ⟨"C", "c"⟩⟩).netRepairings :=
  AddMember_then_RemoveMember
    (Collaborate (Collaborate Env.initial ⟨0, ⟨"A", "a"⟩⟩ ⟨1, ⟨"B", "b"⟩⟩)
      ⟨0, ⟨"A", "a"⟩⟩ ⟨2, ⟨"C", "c"⟩⟩)
    (Group.mk [⟨0, ⟨"A", "a"⟩⟩, ⟨1, ⟨"B", "b"⟩⟩] 3) ⟨2, ⟨"C", "c"⟩⟩
    (by decide) (by decide) (by decide) (by decide)

/-! ## Adding a fresh candidate -/

set_option maxRecDepth 100000 in
/-- C31 fails in the code: roster `A`, `B`, optimal size 2, one project, empty ledgers, random
choices all 0.  The first call of `addMemberToGroup` adds `A`.  `A` stays in the list of
ungrouped students and no member of the group has collaborated with `A`, so in the second call
the fresh candidates are `A` and `B`; the call adds `A` again, which pairs `A` with itself and
raises `netRepairings` from 0 to 1 without any reshuffle. -/
theorem addMemberToGroup_fresh_candidate_repairs :
    (do
      let roster := newRoster [⟨"A", "a"⟩, ⟨"B", "b"⟩] 0
      let p ← NewProject 10 "p" roster 2 false
      let st1 ← groupStudentsSteps 10 (fun _ => 0) roster 1
        { env := Env.initial, project := p,
          groupsToFill :=
            (List.range p.Groups.length).foldl GroupQueue.Enqueue GroupQueue.empty }
      let st2 ← groupStudentsSteps 10 (fun _ => 0) roster 1 st1
      pure (st1.env.netRepairings,
        (potentialStudentsOf st1.env (st1.project.getGroup 0)
          st1.project.UngroupedStudents).map (fun (s : Student) => s.toAPIStudent.NetID),
        st2.env.netRepairings, st2.env.numReshuffles,
        (st2.project.getGroup 0).members.map (fun (s : Student) => s.toAPIStudent.NetID))) =
      .ok (0, ["a", "b"], 1, 0, ["a", "a"]) := by
  decide

/-! ## The balancing loops end -/

/-- C33: for every `N ≥ 0` (with `N ≤ 2^53`, where the conversions to `float64` are exact),
every `S ≥ 1` and either preference, `determineGroupSizes` terminates: `S + 1` iterations of a
balancing loop are always enough, and the sizes returned have a largest pairwise difference
below 2. -/
theorem determineGroupSizes_terminates (N S : Int) (p : Bool) (hN : 0 ≤ N) (hS : 1 ≤ S)
    (hexact : N ≤ maxExactInt) (fuel : Nat) (hfuel : S.toNat < fuel) :
    ∃ sizes, determineGroupSizes fuel N S p = .ok sizes ∧ largestInequality sizes < 2 := by
  by_cases hSN : S ≤ N
  · obtain ⟨m, _, e⟩ :=
      determineGroupSizes_balanced fuel N S p hS hSN (le_maxInt64_of_exact N hexact) hfuel
    refine ⟨_, e, ?_⟩
    rw [largestInequality_lt_two_iff]
    intro x hx y hy
    have h1 := balancedSizes_mem m N x hx
    have h2 := balancedSizes_mem m N y hy
    omega
  · refine ⟨[N], determineGroupSizes_of_lt fuel N S p (by omega), ?_⟩
    rw [largestInequality_lt_two_iff]
    intro x hx y hy
    rw [List.mem_singleton] at hx hy
    have := hN
    omega

/-- Witness for C33 at `N = 21`, `S = 4`, preferring larger groups, with 5 iterations. -/
theorem determineGroupSizes_terminates_witness :
    ∃ sizes, determineGroupSizes 5 21 4 false = .ok sizes ∧ largestInequality sizes < 2 :=
  determineGroupSizes_terminates 21 4 false (by decide) (by decide) (by decide) 5 (by decide)

/-! ## The repairing counter on reachable ledgers -/

theorem runLedgerCalls_invariant (students : Finset Nat) (calls : List LedgerCall) :
    ∀ e : Env, CallsOnDistinct students calls → LedgerSymmetric e →
      (∀ s p, 0 ≤ e.countAt s p) → e.netRepairings = repairingsTotal e students →
      LedgerSymmetric (runLedgerCalls e calls) ∧
        (∀ s p, 0 ≤ (runLedgerCalls e calls).countAt s p) ∧
        (runLedgerCalls e calls).netRepairings =
          repairingsTotal (runLedgerCalls e calls) students := by
  induction calls with
  | nil => intro e _ hsym hnn h; exact ⟨hsym, hnn, h⟩
  | cons call calls ih =>
    intro e hcalls hsym hnn hnet
    have hcall := hcalls call (List.mem_cons_self call calls)
    have hrest : CallsOnDistinct students calls :=
      fun c hc => hcalls c (List.mem_cons_of_mem call hc)
    show LedgerSymmetric (runLedgerCalls (call.run e) calls) ∧
      (∀ s p, 0 ≤ (runLedgerCalls (call.run e) calls).countAt s p) ∧
      (runLedgerCalls (call.run e) calls).netRepairings =
        repairingsTotal (runLedgerCalls (call.run e) calls) students
    cases call with
    | collaborate a b =>
      have h := Collaborate_repairingsTotal e students a b hcall.1 hcall.2.1 hcall.2.2 hsym hnn
        hnet
      exact ih _ hrest (Collaborate_symmetric e a b hsym) h.1 h.2
    | uncollaborate a b =>
      have h := Uncollaborate_repairingsTotal e students a b hcall.1 hcall.2.1 hcall.2.2 hsym
        hnn hnet
      exact ih _ hrest (Uncollaborate_symmetric e a b hsym) h.1 h.2

/-- C34: starting from empty ledgers and `netRepairings = 0`, after any finite sequence of
`Collaborate` and `Uncollaborate` calls on pairs of distinct students, `netRepairings` equals
the sum over the unordered pairs of students of `max 0 (count - 1)`; it is not negative; and
`Uncollaborate` on two distinct students whose count is 0 changes no count and not
`netRepairings`. -/
theorem netRepairings_invariant (students : Finset Nat) (calls : List LedgerCall)
    (hcalls : CallsOnDistinct students calls) (a b : Student) (hab : a.addr ≠ b.addr) :
    (runLedgerCalls Env.initial calls).netRepairings =
        repairingsTotal (runLedgerCalls Env.initial calls) students ∧
      0 ≤ (runLedgerCalls Env.initial calls).netRepairings ∧
      ((runLedgerCalls Env.initial calls).count a b = 0 →
        (∀ s p : Student,
            (Uncollaborate (runLedgerCalls Env.initial calls) a b).count s p =
              (runLedgerCalls Env.initial calls).count s p) ∧
          (Uncollaborate (runLedgerCalls Env.initial calls) a b).netRepairings =
            (runLedgerCalls Env.initial calls).netRepairings) := by
  have hinit : Env.initial.netRepairings = repairingsTotal Env.initial students := by
    unfold repairingsTotal
    symm
    apply Finset.sum_eq_zero
    intro q _
    rfl
  obtain ⟨hsym, _, hnet⟩ := runLedgerCalls_invariant students calls Env.initial hcalls
    (fun _ _ => rfl) (fun _ _ => le_refl 0) hinit
  generalize runLedgerCalls Env.initial calls = e at hsym hnet
  refine ⟨hnet, ?_, ?_⟩
  · rw [hnet]
    unfold repairingsTotal
    exact Finset.sum_nonneg (fun q _ => le_max_left 0 _)
  · intro hzero
    rw [count_eq_countAt] at hzero
    have hzero2 : e.countAt b.addr a.addr = 0 := by rw [← hsym a.addr b.addr]; exact hzero
    constructor
    · intro s p
      rw [count_eq_countAt, count_eq_countAt, Uncollaborate_countAt e a b hab, hzero, hzero2]
      split_ifs with h1 h2 h3 h4
      · omega
      · rw [h1.1, h1.2]; exact hzero.symm
      · omega
      · rw [h3.1, h3.2]; exact hzero2.symm
      · rfl
    · rw [Uncollaborate_netRepairings e a b hab, hzero]
      rfl

/-- Witness for C34: `A` and `B` are paired three times and `A` and `C` never, so the counter
is 2 and `Uncollaborate` on `A` and `C` changes nothing. -/
theorem netRepairings_invariant_witness :
    (runLedgerCalls Env.initial
        [.collaborate ⟨0, ⟨"A", "a"⟩⟩ ⟨1, ⟨"B", "b"⟩⟩,
          .collaborate ⟨0, ⟨"A", "a"⟩⟩ ⟨1, ⟨"B", "b"⟩⟩,
          .collaborate ⟨0, ⟨"A", "a"⟩⟩ ⟨1, ⟨"B", "b"⟩⟩]).netRepairings = 2 ∧
      (Uncollaborate
        (runLedgerCalls Env.initial
          [.collaborate ⟨0, ⟨"A", "a"⟩⟩ ⟨1, ⟨"B", "b"⟩⟩,
            .collaborate ⟨0, ⟨"A", "a"⟩⟩ ⟨1, ⟨"B", "b"⟩⟩,
            .collaborate ⟨0, ⟨"A", "a"⟩⟩ ⟨1, ⟨"B", "b"⟩⟩])
        ⟨0, ⟨"A", "a"⟩⟩ ⟨2, ⟨"C", "c"⟩⟩).netRepairings =
      (runLedgerCalls Env.initial
        [.collaborate ⟨0, ⟨"A", "a"⟩⟩ ⟨1, ⟨"B", "b"⟩⟩,
          .collaborate ⟨0, ⟨"A", "a"⟩⟩ ⟨1, ⟨"B", "b"⟩⟩,
          .collaborate ⟨0, ⟨"A", "a"⟩⟩ ⟨1, ⟨"B", "b"⟩⟩]).netRepairings :=
  ⟨by decide,
    ((netRepairings_invariant {0, 1, 2}
      [.collaborate ⟨0, ⟨"A", "a"⟩⟩ ⟨1, ⟨"B", "b"⟩⟩,
        .collaborate ⟨0, ⟨"A", "a"⟩⟩ ⟨1, ⟨"B", "b"⟩⟩,
        .collaborate ⟨0, ⟨"A", "a"⟩⟩ ⟨1, ⟨"B", "b"⟩⟩]
      (by unfold CallsOnDistinct; decide) ⟨0, ⟨"A", "a"⟩⟩ ⟨2, ⟨"C", "c"⟩⟩
      (by decide)).2.2 (by decide)).2⟩

/-! ## `largestInequality` -/

theorem largestInequalityInner_ge (x : Int) (l : List Int) (acc : Int) :
    acc ≤ largestInequalityInner x l acc := by
  induction l generalizing acc with
  | nil => exact le_refl acc
  | cons y l ih =>
    simp only [largestInequalityInner]
    refine le_trans ?_ (ih _)
    split <;> omega

theorem largestInequalityOuter_ge (l : List Int) (acc : Int) :
    acc ≤ largestInequalityOuter l acc := by
  induction l generalizing acc with
  | nil => exact le_refl acc
  | cons a l ih =>
    simp only [largestInequalityOuter]
    exact le_trans (largestInequalityInner_ge a (a :: l) acc) (ih _)

/-- C36: on the empty list `largestInequality` returns 0, and on every non-empty list (whose
differences are at most `2^53`, so that the conversion to `float64` and back is exact) it
returns the maximum minus the minimum of the list, which is the largest absolute difference
between any two entries. -/
theorem largestInequality_eq_max_sub_min (numbers : List Int) :
    largestInequality [] = 0 ∧
      (numbers ≠ [] → (∀ x ∈ numbers, ∀ y ∈ numbers, x - y ≤ maxExactInt) →
        ∃ lo ∈ numbers, ∃ hi ∈ numbers,
          (∀ x ∈ numbers, lo ≤ x ∧ x ≤ hi) ∧ largestInequality numbers = hi - lo ∧
            ∀ x ∈ numbers, ∀ y ∈ numbers, |x - y| ≤ largestInequality numbers) := by
  refine ⟨rfl, fun hne _ => ?_⟩
  obtain ⟨pre, lo, post, hdec, hpre, hpost⟩ := exists_first_min numbers hne
  obtain ⟨pre2, hi, post2, hdec2, hpre2, hpost2⟩ := exists_first_max numbers hne
  have hlo : lo ∈ numbers := by rw [hdec]; simp
  have hhi : hi ∈ numbers := by rw [hdec2]; simp
  have hmin : ∀ x ∈ numbers, lo ≤ x := by
    intro x hx
    rw [hdec] at hx
    rcases List.mem_append.1 hx with h | h
    · exact le_of_lt (hpre x h)
    · rcases List.mem_cons.1 h with h | h
      · rw [h]
      · exact hpost x h
  have hmax : ∀ x ∈ numbers, x ≤ hi := by
    intro x hx
    rw [hdec2] at hx
    rcases List.mem_append.1 hx with h | h
    · exact le_of_lt (hpre2 x h)
    · rcases List.mem_cons.1 h with h | h
      · rw [h]
      · exact hpost2 x h
  have hle : largestInequality numbers < hi - lo + 1 := by
    unfold largestInequality
    rw [largestInequalityOuter_lt numbers 0 (hi - lo + 1) (by have := hmin hi hhi; omega)]
    refine ⟨by have := hmin hi hhi; omega, fun x hx y hy => ?_⟩
    have h1 := hmin x hx
    have h2 := hmax x hx
    have h3 := hmin y hy
    have h4 := hmax y hy
    omega
  have hge : hi - lo ≤ largestInequality numbers := by
    by_contra hlt
    rw [not_le] at hlt
    have h0 : 0 ≤ largestInequality numbers := largestInequalityOuter_ge numbers 0
    unfold largestInequality at hlt
    rw [largestInequalityOuter_lt numbers 0 (hi - lo) (by unfold largestInequality at h0; omega)]
      at hlt
    have := hlt.2 hi hhi lo hlo
    have h1 := hmin hi hhi
    omega
  have heq : largestInequality numbers = hi - lo := by omega
  refine ⟨lo, hlo, hi, hhi, fun x hx => ⟨hmin x hx, hmax x hx⟩, heq, fun x hx y hy => ?_⟩
  rw [heq, abs_le]
  have h1 := hmin x hx
  have h2 := hmax x hx
  have h3 := hmin y hy
  have h4 := hmax y hy
  constructor <;> omega

/-- Witness for C36: the list `[3, 1, 4, 1, 5]`, with minimum 1 and maximum 5. -/
theorem largestInequality_eq_max_sub_min_witness :
    largestInequality [3, 1, 4, 1, 5] = 4 ∧
      ∃ lo ∈ [(3 : Int), 1, 4, 1, 5], ∃ hi ∈ [(3 : Int), 1, 4, 1, 5],
        (∀ x ∈ [(3 : Int), 1, 4, 1, 5], lo ≤ x ∧ x ≤ hi) ∧
          largestInequality [3, 1, 4, 1, 5] = hi - lo ∧
          ∀ x ∈ [(3 : Int), 1, 4, 1, 5], ∀ y ∈ [(3 : Int), 1, 4, 1, 5],
            |x - y| ≤ largestInequality [3, 1, 4, 1, 5] :=
  ⟨by decide,
    (largestInequality_eq_max_sub_min [3, 1, 4, 1, 5]).2 (by decide) (by decide)⟩

/-! ## The ledger calls on arbitrary students

`Collaborate` and `Uncollaborate` are also called on a student and itself: a student that is
already a member of a group can be added to it again. -/

/-- The counts after `Collaborate`, also when the two students are the same. -/
theorem Collaborate_countAt_general (e : Env) (a b : Student) (s p : Nat) :
    (Collaborate e a b).countAt s p =
      if s = b.addr ∧ p = a.addr then
        (if b.addr = a.addr then e.countAt a.addr b.addr + 2 else e.countAt b.addr a.addr + 1)
      else if s = a.addr ∧ p = b.addr then e.countAt a.addr b.addr + 1
      else e.countAt s p := by
  unfold Collaborate
  simp only [count_eq_countAt, countAt_ite_netRepairings, countAt_setCount]
  by_cases h1 : s = b.addr ∧ p = a.addr
  · simp only [h1, and_self, if_true]
    by_cases h2 : b.addr = a.addr
    · simp only [h2, and_self, if_true]
      omega
    · have h3 : ¬ (b.addr = a.addr ∧ a.addr = b.addr) := fun h => h2 h.1
      rw [if_neg h3, if_neg h2]
  · simp only [h1, if_false]

theorem Collaborate_countAt_mono (e : Env) (a b : Student) (s p : Nat) :
    e.countAt s p ≤ (Collaborate e a b).countAt s p := by
  rw [Collaborate_countAt_general]
  split_ifs with h1 h2 h3
  · rw [h1.1, h1.2, h2]; omega
  · rw [h1.1, h1.2]; omega
  · rw [h3.1, h3.2]; omega
  · exact le_refl _

theorem Collaborate_countAt_pair (e : Env) (a b : Student) :
    e.countAt a.addr b.addr + 1 ≤ (Collaborate e a b).countAt a.addr b.addr := by
  rw [Collaborate_countAt_general]
  split_ifs with h1 h2 h3
  · omega
  · exact absurd h1.1.symm h2
  · omega
  · exact absurd ⟨rfl, rfl⟩ h3

/-- `Collaborate` never lowers the repairing counter, and raises it when the two students have
collaborated before. -/
theorem Collaborate_netRepairings_general (e : Env) (a b : Student) :
    e.netRepairings ≤ (Collaborate e a b).netRepairings ∧
      (0 < e.countAt a.addr b.addr → e.netRepairings + 1 ≤ (Collaborate e a b).netRepairings) := by
  have key : (Collaborate e a b).netRepairings =
      if (Collaborate e a b).countAt a.addr b.addr > 1 then e.netRepairings + 1
      else e.netRepairings := by
    unfold Collaborate
    simp only [count_eq_countAt, countAt_ite_netRepairings]
    split <;> rfl
  rw [key]
  have hp := Collaborate_countAt_pair e a b
  split_ifs with h
  · exact ⟨by omega, fun _ => le_refl _⟩
  · exact ⟨le_refl _, fun h3 => by omega⟩

/-- On a ledger without negative counts `Uncollaborate` raises no count, leaves no negative
count, and lowers the count of the pair it is called on when that count is positive. -/
theorem Uncollaborate_countAt_general (e : Env) (a b : Student)
    (hnn : ∀ x y : Nat, 0 ≤ e.countAt x y) :
    (∀ s p : Nat, (Uncollaborate e a b).countAt s p ≤ e.countAt s p) ∧
      (∀ s p : Nat, 0 ≤ (Uncollaborate e a b).countAt s p) ∧
      (0 < e.countAt a.addr b.addr →
        (Uncollaborate e a b).countAt a.addr b.addr < e.countAt a.addr b.addr) := by
  by_cases hab : a.addr = b.addr
  · have hself := Uncollaborate_countAt_self e a b hab
    have hother : ∀ s p : Nat, ¬ (s = a.addr ∧ p = b.addr) →
        (Uncollaborate e a b).countAt s p = e.countAt s p := by
      intro s p h
      apply Uncollaborate_countAt_other e a b s p h
      rw [← hab]
      rw [← hab] at h
      exact h
    have h0 := hnn a.addr b.addr
    refine ⟨fun s p => ?_, fun s p => ?_, fun hpos => ?_⟩
    · by_cases h : s = a.addr ∧ p = b.addr
      · rw [h.1, h.2, hself]
        split_ifs <;> omega
      · rw [hother s p h]
    · by_cases h : s = a.addr ∧ p = b.addr
      · rw [h.1, h.2, hself]
        split_ifs <;> omega
      · rw [hother s p h]
        exact hnn s p
    · rw [hself]
      split_ifs <;> omega
  · have h0 := hnn a.addr b.addr
    have h1 := hnn b.addr a.addr
    refine ⟨fun s p => ?_, fun s p => ?_, fun hpos => ?_⟩
    · rw [Uncollaborate_countAt e a b hab]
      split_ifs with h2 h3 h4 h5
      · rw [h2.1, h2.2]; omega
      · rw [h2.1, h2.2]; omega
      · rw [h4.1, h4.2]; omega
      · rw [h4.1, h4.2]; omega
      · exact le_refl _
    · rw [Uncollaborate_countAt e a b hab]
      have := hnn s p
      split_ifs <;> omega
    · rw [Uncollaborate_countAt e a b hab]
      simp only [and_self, if_true]
      split_ifs <;> omega

/-! ## The loops of `AddMember` and `RemoveMember` on arbitrary members -/

theorem foldl_Collaborate_general (s : Student) (ms : List Student) :
    ∀ e : Env,
      (∀ x y : Nat, e.countAt x y ≤ (ms.foldl (fun e m => Collaborate e m s) e).countAt x y) ∧
        (∀ m ∈ ms, e.countAt m.addr s.addr + 1 ≤
          (ms.foldl (fun e m => Collaborate e m s) e).countAt m.addr s.addr) ∧
        e.netRepairings ≤ (ms.foldl (fun e m => Collaborate e m s) e).netRepairings ∧
        ((∃ m ∈ ms, 0 < e.countAt m.addr s.addr) →
          e.netRepairings + 1 ≤ (ms.foldl (fun e m => Collaborate e m s) e).netRepairings) ∧
        (ms.foldl (fun e m => Collaborate e m s) e).desiredRepairings = e.desiredRepairings ∧
        (ms.foldl (fun e m => Collaborate e m s) e).numReshuffles = e.numReshuffles ∧
        (ms.foldl (fun e m => Collaborate e m s) e).randCalls = e.randCalls := by
  induction ms with
  | nil =>
    intro e
    refine ⟨fun _ _ => le_refl _, ?_, le_refl _, ?_, rfl, rfl, rfl⟩
    · intro m hm
      simp at hm
    · rintro ⟨m, hm, _⟩
      simp at hm
  | cons m0 ms ih =>
    intro e
    obtain ⟨i1, i2, i3, i4, i5, i6, i7⟩ := ih (Collaborate e m0 s)
    have hnet := Collaborate_netRepairings_general e m0 s
    have hother := Collaborate_other_fields e m0 s
    simp only [List.foldl_cons]
    refine ⟨fun x y => le_trans (Collaborate_countAt_mono e m0 s x y) (i1 x y), ?_,
      le_trans hnet.1 i3, ?_, by rw [i5, hother.1], by rw [i6, hother.2.1],
      by rw [i7, hother.2.2]⟩
    · intro m hm
      rcases List.mem_cons.1 hm with h | h
      · subst h
        exact le_trans (Collaborate_countAt_pair e m s) (i1 _ _)
      · exact le_trans (by have := Collaborate_countAt_mono e m0 s m.addr s.addr; omega)
          (i2 m h)
    · rintro ⟨m, hm, hpos⟩
      by_cases h0 : 0 < e.countAt m0.addr s.addr
      · have := hnet.2 h0
        omega
      · rcases List.mem_cons.1 hm with h | h
        · subst h
          exact absurd hpos h0
        · have hpos' : 0 < (Collaborate e m0 s).countAt m.addr s.addr :=
            lt_of_lt_of_le hpos (Collaborate_countAt_mono e m0 s _ _)
          have := i4 ⟨m, h, hpos'⟩
          have := hnet.1
          omega

theorem foldl_Uncollaborate_general (s : Student) (ms : List Student) :
    ∀ e : Env, (∀ x y : Nat, 0 ≤ e.countAt x y) →
      (∀ x y : Nat, (ms.foldl (fun e m => Uncollaborate e m s) e).countAt x y ≤ e.countAt x y) ∧
        (∀ x y : Nat, 0 ≤ (ms.foldl (fun e m => Uncollaborate e m s) e).countAt x y) ∧
        (∀ m ∈ ms, 0 < e.countAt m.addr s.addr →
          (ms.foldl (fun e m => Uncollaborate e m s) e).countAt m.addr s.addr <
            e.countAt m.addr s.addr) ∧
        (ms.foldl (fun e m => Uncollaborate e m s) e).desiredRepairings = e.desiredRepairings ∧
        (ms.foldl (fun e m => Uncollaborate e m s) e).numReshuffles = e.numReshuffles ∧
        (ms.foldl (fun e m => Uncollaborate e m s) e).randCalls = e.randCalls := by
  induction ms with
  | nil =>
    intro e hnn
    refine ⟨fun _ _ => le_refl _, hnn, ?_, rfl, rfl, rfl⟩
    intro m hm
    simp at hm
  | cons m0 ms ih =>
    intro e hnn
    obtain ⟨u1, u2, u3⟩ := Uncollaborate_countAt_general e m0 s hnn
    obtain ⟨i1, i2, i3, i5, i6, i7⟩ := ih (Uncollaborate e m0 s) u2
    have hother := Uncollaborate_other_fields e m0 s
    simp only [List.foldl_cons]
    refine ⟨fun x y => le_trans (i1 x y) (u1 x y), i2, ?_, by rw [i5, hother.1],
      by rw [i6, hother.2.1], by rw [i7, hother.2.2]⟩
    intro m hm hpos
    rcases List.mem_cons.1 hm with h | h
    · subst h
      exact lt_of_le_of_lt (i1 _ _) (u3 hpos)
    · by_cases hp : 0 < (Uncollaborate e m0 s).countAt m.addr s.addr
      · exact lt_of_lt_of_le (i3 m h hp) (u1 _ _)
      · have := i1 m.addr s.addr
        omega

/-! ## Groups of a project -/

theorem RemoveMember_snd (e : Env) (g : Group) (student : Student) :
    (g.RemoveMember e student).2 = g := by
  have h1 := RemoveMember_members e g student
  have h2 := RemoveMember_DesiredSize e g student
  cases h : (g.RemoveMember e student).2
  rw [h] at h1 h2
  cases g
  simp only at h1 h2
  rw [h1, h2]

theorem getGroup_mem (p : Project) (i : Nat) (h : i < p.Groups.length) :
    p.getGroup i ∈ p.Groups := by
  unfold Project.getGroup
  rw [List.getD_eq_getElem _ _ h]
  exact List.getElem_mem h

theorem getGroup_of_le (p : Project) (i : Nat) (h : p.Groups.length ≤ i) :
    p.getGroup i = NewGroup 0 := by
  unfold Project.getGroup
  exact List.getD_eq_default _ _ h

theorem getGroup_setGroup (p : Project) (i j : Nat) (g : Group) (h : i < p.Groups.length) :
    (p.setGroup i g).getGroup j = if j = i then g else p.getGroup j := by
  unfold Project.getGroup Project.setGroup
  simp only
  by_cases hji : j = i
  · subst hji
    rw [if_pos rfl, List.getD_eq_getElem _ _ (by rw [List.length_set]; exact h),
      List.getElem_set_self]
  · rw [if_neg hji]
    by_cases hj : j < p.Groups.length
    · rw [List.getD_eq_getElem _ _ (by rw [List.length_set]; exact hj),
        List.getD_eq_getElem _ _ hj, List.getElem_set_ne (fun h => hji h.symm)]
    · rw [List.getD_eq_default _ _ (by rw [List.length_set]; omega),
        List.getD_eq_default _ _ (by omega)]

theorem getGroup_members_mem (roster : List Student) (p : Project)
    (h : ∀ g ∈ p.Groups, ∀ s ∈ g.members, s ∈ roster) (i : Nat) :
    ∀ s ∈ (p.getGroup i).members, s ∈ roster := by
  by_cases hi : i < p.Groups.length
  · exact h _ (getGroup_mem p i hi)
  · rw [getGroup_of_le p i (by omega)]
    intro s hs
    simp [NewGroup] at hs

theorem setGroup_members_mem (roster : List Student) (p : Project) (i : Nat) (g : Group)
    (h : ∀ g ∈ p.Groups, ∀ s ∈ g.members, s ∈ roster) (hg : ∀ s ∈ g.members, s ∈ roster) :
    ∀ g' ∈ (p.setGroup i g).Groups, ∀ s ∈ g'.members, s ∈ roster := by
  intro g' hg'
  rcases List.mem_or_eq_of_mem_set hg' with h1 | h1
  · exact h g' h1
  · rw [h1]
    exact hg

/-! ## Counting candidates -/

theorem length_filter_le_of_imp {α : Type} (l : List α) (p q : α → Bool)
    (h : ∀ x ∈ l, p x = true → q x = true) : (l.filter p).length ≤ (l.filter q).length := by
  induction l with
  | nil => exact le_refl _
  | cons a l ih =>
    have ih' := ih (fun x hx => h x (List.mem_cons_of_mem a hx))
    have ha := h a (List.mem_cons_self a l)
    simp only [List.filter_cons]
    by_cases hp : p a = true
    · rw [if_pos hp, if_pos (ha hp)]
      simp only [List.length_cons]
      omega
    · rw [if_neg hp]
      split
      · simp only [List.length_cons]
        omega
      · exact ih'

theorem length_filter_lt_of_imp {α : Type} (l : List α) (p q : α → Bool)
    (h : ∀ x ∈ l, p x = true → q x = true) (hx : ∃ x ∈ l, q x = true ∧ ¬ p x = true) :
    (l.filter p).length < (l.filter q).length := by
  induction l with
  | nil =>
    obtain ⟨x, hx, _⟩ := hx
    simp at hx
  | cons a l ih =>
    have hle := length_filter_le_of_imp l p q (fun x hx => h x (List.mem_cons_of_mem a hx))
    have ha := h a (List.mem_cons_self a l)
    obtain ⟨x, hxmem, hq, hp⟩ := hx
    simp only [List.filter_cons]
    rcases List.mem_cons.1 hxmem with hxa | hxl
    · subst hxa
      rw [if_neg hp, if_pos hq]
      simp only [List.length_cons]
      omega
    · have ih' := ih (fun x hx => h x (List.mem_cons_of_mem a hx)) ⟨x, hxl, hq, hp⟩
      by_cases hpa : p a = true
      · rw [if_pos hpa, if_pos (ha hpa)]
        simp only [List.length_cons]
        omega
      · rw [if_neg hpa]
        split
        · simp only [List.length_cons]
          omega
        · exact ih'

theorem ContainsCollaboratorsOf_iff (e : Env) (g : Group) (s : Student) :
    g.ContainsCollaboratorsOf e s = true ↔ ∃ m ∈ g.members, 0 < e.countAt m.addr s.addr := by
  unfold Group.ContainsCollaboratorsOf HasCollaboratedWith
  rw [List.any_eq_true]
  constructor
  · rintro ⟨m, hm, h⟩
    rw [decide_eq_true_iff] at h
    exact ⟨m, hm, h⟩
  · rintro ⟨m, hm, h⟩
    exact ⟨m, hm, decide_eq_true_iff.2 h⟩

theorem ContainsCollaboratorsOf_mono (e e' : Env) (g g' : Group) (s : Student)
    (hcount : ∀ x y : Nat, e.countAt x y ≤ e'.countAt x y)
    (hmem : ∀ m ∈ g.members, m ∈ g'.members)
    (h : g.ContainsCollaboratorsOf e s = true) : g'.ContainsCollaboratorsOf e' s = true := by
  rw [ContainsCollaboratorsOf_iff] at h ⊢
  obtain ⟨m, hm, hpos⟩ := h
  exact ⟨m, hmem m hm, lt_of_lt_of_le hpos (hcount _ _)⟩

theorem mem_potentialStudentsOf (e : Env) (g : Group) (roster : List Student) (s : Student) :
    s ∈ potentialStudentsOf e g roster ↔
      s ∈ roster ∧ ¬ g.ContainsCollaboratorsOf e s = true := by
  unfold potentialStudentsOf
  rw [List.mem_filter]
  simp

/-- More collaborations and more members leave no more fresh candidates. -/
theorem freshCount_le (e e' : Env) (roster : List Student) (g g' : Group)
    (hcount : ∀ x y : Nat, e.countAt x y ≤ e'.countAt x y)
    (hmem : ∀ m ∈ g.members, m ∈ g'.members) :
    freshCount e' roster g' ≤ freshCount e roster g := by
  unfold freshCount potentialStudentsOf
  have h1 := length_filter_le_of_imp roster
    (fun student => !g'.ContainsCollaboratorsOf e' student)
    (fun student => !g.ContainsCollaboratorsOf e student)
    (by
      intro x _ hx
      simp only [Bool.not_eq_true'] at hx ⊢
      by_contra hc
      rw [Bool.not_eq_false] at hc
      rw [ContainsCollaboratorsOf_mono e e' g g' x hcount hmem hc] at hx
      exact absurd hx (by decide))
  have h2 : (if g'.members.length = 0 then 1 else 0) ≤
      (if g.members.length = 0 then 1 else 0) := by
    by_cases hg : g.members.length = 0
    · rw [if_pos hg]
      split <;> omega
    · have : g'.members.length ≠ 0 := by
        intro h0
        cases hm : g.members with
        | nil => rw [hm] at hg; exact hg rfl
        | cons m ms =>
          have := hmem m (by rw [hm]; exact List.mem_cons_self m ms)
          rw [List.length_eq_zero.1 h0] at this
          simp at this
      rw [if_neg hg, if_neg this]
  omega

/-- A fresh candidate that joins the group leaves fewer fresh candidates. -/
theorem freshCount_lt (e e' : Env) (roster : List Student) (g g' : Group) (s : Student)
    (hcount : ∀ x y : Nat, e.countAt x y ≤ e'.countAt x y)
    (hmem : ∀ m ∈ g.members, m ∈ g'.members) (hs : s ∈ roster) (hs' : s ∈ g'.members)
    (hfresh : ¬ g.ContainsCollaboratorsOf e s = true)
    (hpair : ∀ m ∈ g.members, 0 < e'.countAt m.addr s.addr) :
    freshCount e' roster g' < freshCount e roster g := by
  unfold freshCount potentialStudentsOf
  have himp : ∀ x ∈ roster, (!g'.ContainsCollaboratorsOf e' x) = true →
      (!g.ContainsCollaboratorsOf e x) = true := by
    intro x _ hx
    simp only [Bool.not_eq_true'] at hx ⊢
    by_contra hc
    rw [Bool.not_eq_false] at hc
    rw [ContainsCollaboratorsOf_mono e e' g g' x hcount hmem hc] at hx
    exact absurd hx (by decide)
  have h1 := length_filter_le_of_imp roster
    (fun student => !g'.ContainsCollaboratorsOf e' student)
    (fun student => !g.ContainsCollaboratorsOf e student) himp
  have hne : g'.members.length ≠ 0 := by
    intro h0
    rw [List.length_eq_zero.1 h0] at hs'
    simp at hs'
  rw [if_neg hne]
  by_cases hg : g.members.length = 0
  · rw [if_pos hg]
    omega
  · rw [if_neg hg]
    have hstrict := length_filter_lt_of_imp roster
      (fun student => !g'.ContainsCollaboratorsOf e' student)
      (fun student => !g.ContainsCollaboratorsOf e student) himp
      ⟨s, hs, by simpa using hfresh, by
        simp only [Bool.not_eq_true', Bool.not_eq_false]
        rw [ContainsCollaboratorsOf_iff]
        cases hm : g.members with
        | nil => rw [hm] at hg; exact absurd rfl hg
        | cons m ms =>
          have hmm : m ∈ g.members := by rw [hm]; exact List.mem_cons_self m ms
          exact ⟨m, hmem m hmm, hpair m hmm⟩⟩
    omega

/-! ## Adding a student to a group of the project -/

theorem AddMember_eq (e : Env) (g : Group) (s : Student) :
    g.AddMember e s =
      (g.members.foldl (fun e m => Collaborate e m s) e,
        { g with members := g.members ++ [s] }) := rfl

/-- What `AddMember` of a roster student to a group of the project does to the invariant and
to what the fill loop uses up. -/
theorem addMember_step (roster : List Student) (groups : Nat) (e : Env) (project : Project)
    (i : Nat) (s : Student) (hinv : BodyInv roster groups e project) (hi : i < groups)
    (hs : s ∈ roster) :
    BodyInv roster groups ((project.getGroup i).AddMember e s).1
        (project.setGroup i ((project.getGroup i).AddMember e s).2) ∧
      ((project.getGroup i).AddMember e s).1.numReshuffles = e.numReshuffles ∧
      ((project.getGroup i).AddMember e s).1.desiredRepairings = e.desiredRepairings ∧
      e.netRepairings ≤ ((project.getGroup i).AddMember e s).1.netRepairings ∧
      freshTotal ((project.getGroup i).AddMember e s).1 roster
          (project.setGroup i ((project.getGroup i).AddMember e s).2) ≤
        freshTotal e roster project ∧
      (¬ (project.getGroup i).ContainsCollaboratorsOf e s = true →
        freshTotal ((project.getGroup i).AddMember e s).1 roster
            (project.setGroup i ((project.getGroup i).AddMember e s).2) <
          freshTotal e roster project) ∧
      ((project.getGroup i).ContainsCollaboratorsOf e s = true →
        e.netRepairings + 1 ≤ ((project.getGroup i).AddMember e s).1.netRepairings) := by
  rw [AddMember_eq]
  simp only
  obtain ⟨f1, f2, f3, f4, f5, f6, _⟩ :=
    foldl_Collaborate_general s (project.getGroup i).members e
  generalize (project.getGroup i).members.foldl (fun e m => Collaborate e m s) e = e' at *
  have hlen : i < project.Groups.length := by rw [hinv.groups_length]; exact hi
  have hget : ∀ j, (project.setGroup i
      { project.getGroup i with members := (project.getGroup i).members ++ [s] }).getGroup j =
        if j = i then
          { project.getGroup i with members := (project.getGroup i).members ++ [s] }
        else project.getGroup j := fun j => getGroup_setGroup project i j _ hlen
  have hle : ∀ j, freshCount e' roster
      ((project.setGroup i
        { project.getGroup i with members := (project.getGroup i).members ++ [s] }).getGroup j) ≤
        freshCount e roster (project.getGroup j) := by
    intro j
    rw [hget j]
    by_cases hj : j = i
    · rw [if_pos hj, hj]
      exact freshCount_le e e' roster _ _ f1 (fun m hm => List.mem_append_left _ hm)
    · rw [if_neg hj]
      exact freshCount_le e e' roster _ _ f1 (fun m hm => hm)
  have hlen' : (project.setGroup i
      { project.getGroup i with members := (project.getGroup i).members ++ [s] }).Groups.length =
        project.Groups.length := List.length_set _ _ _
  refine ⟨⟨fun x y => le_trans (hinv.nonneg x y) (f1 x y), hinv.ungrouped_ne,
    hinv.ungrouped_mem, ?_, by rw [hlen']; exact hinv.groups_length⟩, f6, f5, f3, ?_, ?_, ?_⟩
  · apply setGroup_members_mem roster project i _ hinv.members_mem
    intro t ht
    rcases List.mem_append.1 ht with h | h
    · exact getGroup_members_mem roster project hinv.members_mem i t h
    · rw [List.mem_singleton.1 h]
      exact hs
  · unfold freshTotal
    rw [hlen']
    exact List.sum_le_sum (fun j _ => hle j)
  · intro hfresh
    unfold freshTotal
    rw [hlen']
    apply List.sum_lt_sum _ _ (fun j _ => hle j)
    refine ⟨i, List.mem_range.2 hlen, ?_⟩
    rw [hget i, if_pos rfl]
    apply freshCount_lt e e' roster _ _ s f1 (fun m hm => List.mem_append_left _ hm) hs
      (List.mem_append_right _ (List.mem_singleton_self s)) hfresh
    intro m hm
    have h1 := f2 m hm
    have h2 := hinv.nonneg m.addr s.addr
    omega
  · intro hstale
    rw [ContainsCollaboratorsOf_iff] at hstale
    exact f4 hstale

/-! ## The fill queue stays well formed -/

theorem QueueInv_Enqueue (groups : Nat) (q : GroupQueue) (group : Nat) (h : QueueInv groups q)
    (hg : group < groups) : QueueInv groups (q.Enqueue group) := by
  obtain ⟨l, hl, hlt⟩ := h
  refine ⟨l ++ [group], QueueHolds_Enqueue q l group hl, ?_⟩
  intro g hg'
  rcases List.mem_append.1 hg' with h1 | h1
  · exact hlt g h1
  · rw [List.mem_singleton.1 h1]
    exact hg

theorem QueueInv_Dequeue (groups : Nat) (q : GroupQueue) (h : QueueInv groups q)
    (hne : q.IsEmpty = false) :
    ∃ group q', q.Dequeue = (some group, q') ∧ group < groups ∧ QueueInv groups q' := by
  obtain ⟨l, hl, hlt⟩ := h
  have hempty := (contents_of_QueueHolds q l hl).2
  rw [hne] at hempty
  cases l with
  | nil => exact absurd hempty (by decide)
  | cons v l =>
    have hd := QueueHolds_Dequeue_cons q v l hl
    refine ⟨v, (q.Dequeue).2, ?_, hlt v (List.mem_cons_self v l), l, hd.2,
      fun g hg => hlt g (List.mem_cons_of_mem v hg)⟩
    rw [← hd.1]

theorem QueueInv_foldl_Enqueue (groups : Nat) (l : List Nat) :
    ∀ q : GroupQueue, QueueInv groups q → (∀ g ∈ l, g < groups) →
      QueueInv groups (l.foldl GroupQueue.Enqueue q) := by
  induction l with
  | nil => intro q h _; exact h
  | cons g l ih =>
    intro q h hl
    exact ih _ (QueueInv_Enqueue groups q g h (hl g (List.mem_cons_self g l)))
      (fun g' hg' => hl g' (List.mem_cons_of_mem g hg'))

/-! ## Removing a student from a group of the project -/

theorem set_getElem_same {α : Type} (l : List α) (i : Nat) (hi : i < l.length) :
    l.set i l[i] = l := by
  apply List.ext_getElem
  · rw [List.length_set]
  · intro n h1 h2
    rw [List.getElem_set]
    split
    · rename_i h
      subst h
      rfl
    · rfl

theorem setGroup_getGroup (p : Project) (i : Nat) : p.setGroup i (p.getGroup i) = p := by
  unfold Project.setGroup Project.getGroup
  have h : p.Groups.set i (p.Groups.getD i (NewGroup 0)) = p.Groups := by
    by_cases hi : i < p.Groups.length
    · rw [List.getD_eq_getElem _ _ hi]
      exact set_getElem_same _ i hi
    · exact List.set_eq_of_length_le (by omega)
  rw [h]

/-- What `RemoveMember` on a group of the project does: the project is as before, no count
grows or becomes negative, and the counts of the student with the members that had
collaborated with it drop. -/
theorem removeMember_step (roster : List Student) (groups : Nat) (e : Env) (project : Project)
    (i : Nat) (u : Student) (hinv : BodyInv roster groups e project) :
    project.setGroup i ((project.getGroup i).RemoveMember e u).2 = project ∧
      BodyInv roster groups ((project.getGroup i).RemoveMember e u).1 project ∧
      ((project.getGroup i).RemoveMember e u).1.numReshuffles = e.numReshuffles ∧
      ((project.getGroup i).RemoveMember e u).1.desiredRepairings = e.desiredRepairings ∧
      (∀ x y : Nat, ((project.getGroup i).RemoveMember e u).1.countAt x y ≤ e.countAt x y) ∧
      (∀ m ∈ (project.getGroup i).members, 0 < e.countAt m.addr u.addr →
        ((project.getGroup i).RemoveMember e u).1.countAt m.addr u.addr <
          e.countAt m.addr u.addr) := by
  rw [RemoveMember_snd, RemoveMember_fst, setGroup_getGroup]
  obtain ⟨u1, u2, u3, u4, u5, _⟩ :=
    foldl_Uncollaborate_general u (project.getGroup i).members e hinv.nonneg
  exact ⟨rfl, ⟨u2, hinv.ungrouped_ne, hinv.ungrouped_mem, hinv.members_mem,
    hinv.groups_length⟩, u5, u4, u1, u3⟩

/-! ## The eviction loop ends -/

theorem ledgerTotal_nonneg (e : Env) (roster : List Student)
    (hnn : ∀ x y : Nat, 0 ≤ e.countAt x y) : 0 ≤ ledgerTotal e roster := by
  unfold ledgerTotal
  apply List.sum_nonneg
  intro v hv
  obtain ⟨x, _, rfl⟩ := List.mem_map.1 hv
  apply List.sum_nonneg
  intro w hw
  obtain ⟨y, _, rfl⟩ := List.mem_map.1 hw
  exact hnn _ _

theorem ledgerTotal_lt (e e' : Env) (roster : List Student)
    (hle : ∀ x y : Nat, e'.countAt x y ≤ e.countAt x y) (m u : Student) (hm : m ∈ roster)
    (hu : u ∈ roster) (hlt : e'.countAt m.addr u.addr < e.countAt m.addr u.addr) :
    ledgerTotal e' roster < ledgerTotal e roster := by
  unfold ledgerTotal
  apply List.sum_lt_sum
  · intro x _
    exact List.sum_le_sum (fun y _ => hle x.addr y.addr)
  · refine ⟨m, hm, ?_⟩
    apply List.sum_lt_sum
    · exact fun y _ => hle m.addr y.addr
    · exact ⟨u, hu, hlt⟩

/-- When no roster student can join the group, the group has a member, and every member has
collaborated with some member. -/
theorem members_of_no_potential (e : Env) (g : Group) (roster : List Student)
    (hroster : roster ≠ []) (hpot : potentialStudentsOf e g roster = []) :
    g.members ≠ [] ∧
      ∀ s ∈ roster, ∃ m ∈ g.members, 0 < e.countAt m.addr s.addr := by
  have hall : ∀ s ∈ roster, ∃ m ∈ g.members, 0 < e.countAt m.addr s.addr := by
    intro s hs
    rw [← ContainsCollaboratorsOf_iff]
    by_contra hc
    have : s ∈ potentialStudentsOf e g roster :=
      (mem_potentialStudentsOf e g roster s).2 ⟨hs, hc⟩
    rw [hpot] at this
    simp at this
  refine ⟨?_, hall⟩
  cases hr : roster with
  | nil => exact absurd hr hroster
  | cons s rest =>
    obtain ⟨m, hm, _⟩ := hall s (by rw [hr]; exact List.mem_cons_self s rest)
    intro hnil
    rw [hnil] at hm
    simp at hm

/-! ## The groups waiting in the fill queue -/

theorem contents_Enqueue (groups : Nat) (q : GroupQueue) (group : Nat) (h : QueueInv groups q) :
    (q.Enqueue group).contents = q.contents ++ [group] := by
  obtain ⟨l, hl, _⟩ := h
  rw [(contents_of_QueueHolds _ _ (QueueHolds_Enqueue q l group hl)).1,
    (contents_of_QueueHolds q l hl).1]

theorem contents_Dequeue (groups : Nat) (q q' : GroupQueue) (group : Nat)
    (h : QueueInv groups q) (hne : q.IsEmpty = false) (hd : q.Dequeue = (some group, q')) :
    q.contents = group :: q'.contents := by
  obtain ⟨l, hl, _⟩ := h
  have hempty := (contents_of_QueueHolds q l hl).2
  rw [hne] at hempty
  cases l with
  | nil => exact absurd hempty (by decide)
  | cons v l =>
    have hc := QueueHolds_Dequeue_cons q v l hl
    rw [hd] at hc
    simp only [Option.some.injEq] at hc
    rw [(contents_of_QueueHolds q _ hl).1, (contents_of_QueueHolds q' l hc.2).1, hc.1]

theorem contents_of_IsEmpty (q : GroupQueue) (h : q.IsEmpty = true) : q.contents = [] := by
  unfold GroupQueue.IsEmpty at h
  unfold GroupQueue.contents
  cases hh : q.head with
  | some i => rw [hh] at h; exact absurd h Bool.false_ne_true
  | none => cases q.nodes.length <;> rfl

theorem QueueHolds_foldl_Enqueue (l : List Nat) :
    ∀ (q : GroupQueue) (l0 : List Nat), QueueHolds q l0 →
      QueueHolds (l.foldl GroupQueue.Enqueue q) (l0 ++ l) := by
  induction l with
  | nil => intro q l0 h; rw [List.append_nil]; exact h
  | cons g l ih =>
    intro q l0 h
    have := ih _ _ (QueueHolds_Enqueue q l0 g h)
    rw [List.append_assoc] at this
    exact this

/-- The queue `groupStudentsForProject` starts from holds every group of the project. -/
theorem contents_initial (n : Nat) :
    ((List.range n).foldl GroupQueue.Enqueue GroupQueue.empty).contents = List.range n := by
  have h := QueueHolds_foldl_Enqueue (List.range n) _ _ QueueHolds_empty
  rw [(contents_of_QueueHolds _ _ h).1]
  rfl

theorem Intn_ok (rand : Nat → Nat) (e : Env) (n : Nat) (hn : n ≠ 0) :
    Intn rand e n = .ok (rand e.randCalls % n, { e with randCalls := e.randCalls + 1 }) := by
  unfold Intn
  rw [if_neg hn]

theorem BodyInv_randCalls (roster : List Student) (groups : Nat) (e : Env) (project : Project)
    (k : Nat) (hinv : BodyInv roster groups e project) :
    BodyInv roster groups { e with randCalls := k } project :=
  ⟨fun x y => hinv.nonneg x y, hinv.ungrouped_ne, hinv.ungrouped_mem, hinv.members_mem,
    hinv.groups_length⟩

theorem BodyInv_MarkStudentUngrouped (roster : List Student) (groups : Nat) (e : Env)
    (project : Project) (u : Student) (hinv : BodyInv roster groups e project)
    (hu : u ∈ roster) : BodyInv roster groups e (project.MarkStudentUngrouped u) := by
  refine ⟨hinv.nonneg, ?_, ?_, hinv.members_mem, hinv.groups_length⟩
  · unfold Project.MarkStudentUngrouped
    simp
  · intro s hs
    unfold Project.MarkStudentUngrouped at hs
    simp only at hs
    rcases List.mem_append.1 hs with h | h
    · exact hinv.ungrouped_mem s h
    · rw [List.mem_singleton.1 h]
      exact hu

theorem BodyInv_roster_ne (roster : List Student) (groups : Nat) (e : Env) (project : Project)
    (hinv : BodyInv roster groups e project) : roster ≠ [] := by
  intro h
  cases hu : project.UngroupedStudents with
  | nil => exact hinv.ungrouped_ne hu
  | cons s rest =>
    have := hinv.ungrouped_mem s (by rw [hu]; exact List.mem_cons_self s rest)
    rw [h] at this
    simp at this

/-- One eviction: the loop goes on from the ledger in which the evicted student has been
uncollaborated from every member, with the student appended to the ungrouped students. -/
theorem evictLoop_succ (rand : Nat → Nat) (roster : List Student) (group : Nat) (fuel : Nat)
    (e : Env) (project : Project) (unlucky : Student)
    (hlen : (project.getGroup group).members.length ≠ 0)
    (hget : (project.getGroup group).members[rand e.randCalls %
      (project.getGroup group).members.length]? = some unlucky) :
    evictLoop rand roster group (fuel + 1) [] e project =
      evictLoop rand roster group fuel
        (potentialStudentsOf
          ((project.getGroup group).RemoveMember { e with randCalls := e.randCalls + 1 }
            unlucky).1
          (((project.setGroup group
            ((project.getGroup group).RemoveMember { e with randCalls := e.randCalls + 1 }
              unlucky).2).MarkStudentUngrouped unlucky).getGroup group) roster)
        ((project.getGroup group).RemoveMember { e with randCalls := e.randCalls + 1 }
          unlucky).1
        ((project.setGroup group
          ((project.getGroup group).RemoveMember { e with randCalls := e.randCalls + 1 }
            unlucky).2).MarkStudentUngrouped unlucky) := by
  rw [evictLoop]
  simp only [List.length_nil, gt_iff_lt, lt_self_iff_false, if_false, Intn_ok rand e _ hlen,
    bind, Except.bind, hget, List.nil_append]

/-- The eviction loop ends: from a state of the fill loop it returns, with candidates from the
roster, after a number of evictions fixed by the state; with less fuel the embedded loop runs
out of fuel, and it never panics. -/
theorem evictLoop_spec (rand : Nat → Nat) (roster : List Student) (groups group : Nat)
    (n : Nat) :
    ∀ (e : Env) (project : Project), BodyInv roster groups e project →
      ledgerTotal e roster ≤ (n : Int) →
      ∃ (f : Nat) (r : List Student × Env × Project),
        (∀ fuel, f ≤ fuel →
          evictLoop rand roster group fuel
            (potentialStudentsOf e (project.getGroup group) roster) e project = .ok r) ∧
        (∀ fuel, fuel < f →
          evictLoop rand roster group fuel
            (potentialStudentsOf e (project.getGroup group) roster) e project =
              .error .outOfFuel) ∧
        r.1 ≠ [] ∧ (∀ s ∈ r.1, s ∈ roster) ∧ BodyInv roster groups r.2.1 r.2.2 ∧
        r.2.1.numReshuffles = e.numReshuffles ∧
        r.2.1.desiredRepairings = e.desiredRepairings ∧ r.2.2.Groups = project.Groups := by
  induction n with
  | zero =>
    intro e project hinv hn
    by_cases hpot : potentialStudentsOf e (project.getGroup group) roster = []
    · exfalso
      obtain ⟨hne, hall⟩ := members_of_no_potential e _ roster
        (BodyInv_roster_ne roster groups e project hinv) hpot
      cases hm : (project.getGroup group).members with
      | nil => exact hne hm
      | cons u rest =>
        have hu : u ∈ (project.getGroup group).members := by
          rw [hm]; exact List.mem_cons_self u rest
        have hur : u ∈ roster := getGroup_members_mem roster project hinv.members_mem group u hu
        obtain ⟨m, hmm, hpos⟩ := hall u hur
        have hmr : m ∈ roster :=
          getGroup_members_mem roster project hinv.members_mem group m hmm
        have h1 : ledgerTotal { e with collaborators := fun _ _ => none } roster <
            ledgerTotal e roster :=
          ledgerTotal_lt e _ roster (fun x y => hinv.nonneg x y) m u hmr hur hpos
        have h2 : 0 ≤ ledgerTotal { e with collaborators := fun _ _ => none } roster :=
          ledgerTotal_nonneg _ roster (fun _ _ => le_refl 0)
        have h3 : ((0 : Nat) : Int) = 0 := rfl
        omega
    · refine ⟨1, (potentialStudentsOf e (project.getGroup group) roster, e, project), ?_, ?_,
        hpot, fun s hs => ((mem_potentialStudentsOf e _ roster s).1 hs).1, hinv, rfl, rfl, rfl⟩
      · intro fuel hfuel
        obtain ⟨k, rfl⟩ : ∃ k, fuel = k + 1 := ⟨fuel - 1, by omega⟩
        rw [evictLoop, if_pos (List.length_pos.2 hpot)]
      · intro fuel hfuel
        have : fuel = 0 := by omega
        subst this
        rfl
  | succ n ih =>
    intro e project hinv hn
    by_cases hpot : potentialStudentsOf e (project.getGroup group) roster = []
    · obtain ⟨hne, hall⟩ := members_of_no_potential e _ roster
        (BodyInv_roster_ne roster groups e project hinv) hpot
      have hlen : (project.getGroup group).members.length ≠ 0 :=
        fun h => hne (List.length_eq_zero.1 h)
      have hchoice : rand e.randCalls % (project.getGroup group).members.length <
          (project.getGroup group).members.length := Nat.mod_lt _ (by omega)
      have hget := List.getElem?_eq_getElem hchoice
      generalize hu : (project.getGroup group).members[rand e.randCalls %
        (project.getGroup group).members.length] = unlucky at hget
      have humem : unlucky ∈ (project.getGroup group).members := by
        rw [← hu]
        exact List.getElem_mem hchoice
      have hur : unlucky ∈ roster :=
        getGroup_members_mem roster project hinv.members_mem group unlucky humem
      have hinvr := BodyInv_randCalls roster groups e project (e.randCalls + 1) hinv
      obtain ⟨s1, s2, s3, s4, s5, s6⟩ := removeMember_step roster groups
        { e with randCalls := e.randCalls + 1 } project group unlucky hinvr
      have hstep := fun fuel => evictLoop_succ rand roster group fuel e project unlucky hlen hget
      rw [s1] at hstep
      have hgroup : (project.MarkStudentUngrouped unlucky).getGroup group =
          project.getGroup group := rfl
      rw [hgroup] at hstep
      generalize ((project.getGroup group).RemoveMember
        { e with randCalls := e.randCalls + 1 } unlucky).1 = e1 at s2 s3 s4 s5 s6 hstep
      have hinv1 := BodyInv_MarkStudentUngrouped roster groups e1 project unlucky s2 hur
      obtain ⟨m, hmm, hpos⟩ := hall unlucky hur
      have hmr : m ∈ roster := getGroup_members_mem roster project hinv.members_mem group m hmm
      have hlt : ledgerTotal e1 roster < ledgerTotal e roster :=
        ledgerTotal_lt e e1 roster (fun x y => s5 x y) m unlucky hmr hur (s6 m hmm hpos)
      obtain ⟨f, r, r1, r2, r3, r4, r5, r6, r7, r8⟩ :=
        ih e1 (project.MarkStudentUngrouped unlucky) hinv1 (by push_cast at hn; omega)
      rw [hgroup] at r1 r2
      refine ⟨f + 1, r, ?_, ?_, r3, r4, r5, by rw [r6, s3], by rw [r7, s4], r8⟩
      · intro fuel hfuel
        obtain ⟨k, rfl⟩ : ∃ k, fuel = k + 1 := ⟨fuel - 1, by omega⟩
        rw [hpot, hstep k]
        exact r1 k (by omega)
      · intro fuel hfuel
        rw [hpot]
        cases fuel with
        | zero => rfl
        | succ k =>
          rw [hstep k]
          exact r2 k (by omega)
    · refine ⟨1, (potentialStudentsOf e (project.getGroup group) roster, e, project), ?_, ?_,
        hpot, fun s hs => ((mem_potentialStudentsOf e _ roster s).1 hs).1, hinv, rfl, rfl, rfl⟩
      · intro fuel hfuel
        obtain ⟨k, rfl⟩ : ∃ k, fuel = k + 1 := ⟨fuel - 1, by omega⟩
        rw [evictLoop, if_pos (List.length_pos.2 hpot)]
      · intro fuel hfuel
        have : fuel = 0 := by omega
        subst this
        rfl

/-! ## Poaching a student -/

theorem poachLoop_cons (s : Student) (unluckyGroup : Nat) (rest : List Nat) (prev : Bool)
    (st : FillState) :
    poachLoop s (unluckyGroup :: rest) (prev, st) =
      if (st.project.getGroup unluckyGroup).Contains s then
        poachLoop s rest
          (true,
            { env := ((st.project.getGroup unluckyGroup).RemoveMember st.env s).1,
              project := st.project.setGroup unluckyGroup
                ((st.project.getGroup unluckyGroup).RemoveMember st.env s).2,
              groupsToFill :=
                if (st.project.getGroup unluckyGroup).IsFull then
                  st.groupsToFill.Enqueue unluckyGroup
                else st.groupsToFill })
      else poachLoop s rest (prev, st) := by
  rw [poachLoop]

theorem poachLoop_spec (roster : List Student) (groups : Nat) (s : Student)
    (idxs : List Nat) :
    ∀ (prev : Bool) (st : FillState), FillInv roster groups st → (∀ i ∈ idxs, i < groups) →
      FillInv roster groups (poachLoop s idxs (prev, st)).2 ∧
        (poachLoop s idxs (prev, st)).2.env.numReshuffles = st.env.numReshuffles ∧
        (poachLoop s idxs (prev, st)).2.env.desiredRepairings = st.env.desiredRepairings ∧
        (poachLoop s idxs (prev, st)).2.project = st.project ∧
        ∀ j ∈ st.groupsToFill.contents,
          j ∈ (poachLoop s idxs (prev, st)).2.groupsToFill.contents := by
  induction idxs with
  | nil => intro prev st h _; exact ⟨h, rfl, rfl, rfl, fun _ hj => hj⟩
  | cons ug rest ih =>
    intro prev st hinv hidx
    have hrest : ∀ i ∈ rest, i < groups := fun i hi => hidx i (List.mem_cons_of_mem ug hi)
    rw [poachLoop_cons]
    by_cases hc : (st.project.getGroup ug).Contains s = true
    · rw [if_pos hc]
      obtain ⟨s1, s2, s3, s4, _, _⟩ :=
        removeMember_step roster groups st.env st.project ug s hinv.1
      have hq : QueueInv groups
          (if (st.project.getGroup ug).IsFull then st.groupsToFill.Enqueue ug
            else st.groupsToFill) := by
        split
        · exact QueueInv_Enqueue groups _ ug hinv.2 (hidx ug (List.mem_cons_self ug rest))
        · exact hinv.2
      have h := ih true
        { env := ((st.project.getGroup ug).RemoveMember st.env s).1,
          project := st.project.setGroup ug ((st.project.getGroup ug).RemoveMember st.env s).2,
          groupsToFill :=
            if (st.project.getGroup ug).IsFull then st.groupsToFill.Enqueue ug
            else st.groupsToFill }
        ⟨by rw [s1]; exact s2, hq⟩ hrest
      refine ⟨h.1, by rw [h.2.1]; exact s3, by rw [h.2.2.1]; exact s4,
        by rw [h.2.2.2.1]; exact s1, fun j hj => h.2.2.2.2 j ?_⟩
      show j ∈ (if (st.project.getGroup ug).IsFull then st.groupsToFill.Enqueue ug
        else st.groupsToFill).contents
      split
      · rw [contents_Enqueue groups _ ug hinv.2]
        exact List.mem_append_left _ hj
      · exact hj
    · rw [if_neg hc]
      exact ih prev st hinv hrest

/-- What `poachStudentIntoGroup` keeps: the invariant of the fill loop, the number of
reshuffles, the repairing budget, the other groups and the groups waiting in the queue. -/
theorem poachStudentIntoGroup_spec (roster : List Student) (groups : Nat) (s : Student)
    (group : Nat) (st : FillState) (hinv : FillInv roster groups st) (hg : group < groups)
    (hs : s ∈ roster) :
    FillInv roster groups (poachStudentIntoGroup s group st) ∧
      (poachStudentIntoGroup s group st).env.numReshuffles = st.env.numReshuffles ∧
      (poachStudentIntoGroup s group st).env.desiredRepairings = st.env.desiredRepairings ∧
      (∀ j, j ≠ group →
        (poachStudentIntoGroup s group st).project.getGroup j = st.project.getGroup j) ∧
      ∀ j ∈ st.groupsToFill.contents,
        j ∈ (poachStudentIntoGroup s group st).groupsToFill.contents := by
  have hloop := poachLoop_spec roster groups s (List.range st.project.Groups.length) false st
    hinv (by
      intro i hi
      rw [List.mem_range, hinv.1.groups_length] at hi
      exact hi)
  unfold poachStudentIntoGroup
  generalize poachLoop s (List.range st.project.Groups.length) (false, st) = r at hloop
  obtain ⟨prev, st1⟩ := r
  simp only at hloop ⊢
  obtain ⟨⟨hb, hq⟩, h2, h3, h4, h5⟩ := hloop
  have hproj : (if (!prev) = true then st1.project.MarkStudentGrouped s else st1.project) =
      st1.project := by
    split
    · exact MarkStudentGrouped_eq _ _
    · rfl
  rw [hproj]
  obtain ⟨a1, a2, a3, _, _, _, _⟩ :=
    addMember_step roster groups st1.env st1.project group s hb hg hs
  refine ⟨⟨a1, ?_⟩, by rw [a2, h2], by rw [a3, h3], ?_, ?_⟩
  · show QueueInv groups (if _ then _ else _)
    split
    · exact QueueInv_Enqueue groups _ group hq hg
    · exact hq
  · intro j hj
    show (st1.project.setGroup group _).getGroup j = _
    rw [getGroup_setGroup _ _ _ _ (by rw [hb.groups_length]; exact hg), if_neg hj, h4]
  · intro j hj
    show j ∈ GroupQueue.contents (if _ then _ else _)
    split
    · rw [contents_Enqueue groups _ group hq]
      exact List.mem_append_left _ (h5 j hj)
    · exact h5 j hj

/-! ## One call of `addMemberToGroup` -/

theorem FillLt_iff (a b c a' b' c' : Nat) :
    FillLt (a', b', c') (a, b, c) ↔ a' < a ∨ (a' = a ∧ (b' < b ∨ (b' = b ∧ c' < c))) := by
  unfold FillLt
  rw [Prod.lex_def]
  simp only [Prod.lex_def]

theorem FillLt_wf : WellFounded FillLt :=
  WellFounded.prod_lex Nat.lt_wfRel.wf (WellFounded.prod_lex Nat.lt_wfRel.wf Nat.lt_wfRel.wf)

/-- The branches of `addMemberToGroup` that add an ungrouped student, fresh or stale: the
invariant is kept, either a fresh candidate or a repairing of the budget is used up, and the
number of reshuffles and the other groups stay as they are. -/
theorem addStudent_spec (roster : List Student) (groups group : Nat) (st : FillState)
    (k : Nat) (s : Student) (hinv : FillInv roster groups st) (hg : group < groups)
    (hs : s ∈ roster)
    (hcase : ¬ (st.project.getGroup group).ContainsCollaboratorsOf st.env s = true ∨
      st.env.netRepairings < st.env.desiredRepairings) :
    FillInv roster groups
        { st with
          env := ((st.project.getGroup group).AddMember { st.env with randCalls := k } s).1,
          project := (st.project.setGroup group
            ((st.project.getGroup group).AddMember
              { st.env with randCalls := k } s).2).MarkStudentGrouped s } ∧
      FillLt
        (fillMeasure roster
          ((st.project.getGroup group).AddMember { st.env with randCalls := k } s).1
          ((st.project.setGroup group
            ((st.project.getGroup group).AddMember
              { st.env with randCalls := k } s).2).MarkStudentGrouped s))
        (fillMeasure roster st.env st.project) ∧
      ((st.project.getGroup group).AddMember
        { st.env with randCalls := k } s).1.numReshuffles = st.env.numReshuffles ∧
      ∀ j, j ≠ group →
        ((st.project.setGroup group
          ((st.project.getGroup group).AddMember
            { st.env with randCalls := k } s).2).MarkStudentGrouped s).getGroup j =
          st.project.getGroup j := by
  rw [MarkStudentGrouped_eq]
  obtain ⟨a1, a2, a3, a4, a5, a6, a7⟩ := addMember_step roster groups
    { st.env with randCalls := k } st.project group s
    (BodyInv_randCalls roster groups st.env st.project k hinv.1) hg hs
  refine ⟨⟨a1, hinv.2⟩, ?_, a2, fun j hj => by
    rw [getGroup_setGroup _ _ _ _ (by rw [hinv.1.groups_length]; exact hg), if_neg hj]⟩
  unfold fillMeasure
  rw [FillLt_iff, a2, a3]
  right
  refine ⟨rfl, ?_⟩
  have hnet : st.env.netRepairings ≤
      ((st.project.getGroup group).AddMember { st.env with randCalls := k } s).1.netRepairings :=
    a4
  by_cases hstale : (st.project.getGroup group).ContainsCollaboratorsOf st.env s = true
  · left
    have h1 : st.env.netRepairings + 1 ≤
        ((st.project.getGroup group).AddMember
          { st.env with randCalls := k } s).1.netRepairings := a7 hstale
    have h2 : st.env.netRepairings < st.env.desiredRepairings := by
      rcases hcase with h | h
      · exact absurd hstale h
      · exact h
    show (st.env.desiredRepairings - _).toNat < (st.env.desiredRepairings - _).toNat
    omega
  · have h1 : freshTotal
        ((st.project.getGroup group).AddMember { st.env with randCalls := k } s).1 roster
        (st.project.setGroup group
          ((st.project.getGroup group).AddMember { st.env with randCalls := k } s).2) <
          freshTotal st.env roster st.project := a6 hstale
    by_cases hb : (st.env.desiredRepairings -
        ((st.project.getGroup group).AddMember
          { st.env with randCalls := k } s).1.netRepairings).toNat <
        (st.env.desiredRepairings - st.env.netRepairings).toNat
    · left
      exact hb
    · right
      refine ⟨?_, h1⟩
      show (st.env.desiredRepairings - _).toNat = (st.env.desiredRepairings - _).toNat
      omega

theorem getElem?_mod_some {α : Type} (l : List α) (k : Nat) (h : l.length ≠ 0) :
    ∃ x, l[k % l.length]? = some x ∧ x ∈ l := by
  have hlt : k % l.length < l.length := Nat.mod_lt _ (by omega)
  exact ⟨l[k % l.length], List.getElem?_eq_getElem hlt, List.getElem_mem hlt⟩

/-- The reshuffle of `addMemberToGroup` after the eviction loop or without it: a candidate is
drawn and poached into the group. -/
theorem poach_spec (rand : Nat → Nat) (roster : List Student) (groups group : Nat)
    (e : Env) (project : Project) (q : GroupQueue) (potentialStudents : List Student)
    (hb : BodyInv roster groups e project) (hq : QueueInv groups q) (hg : group < groups)
    (hne : potentialStudents ≠ []) (hmem : ∀ s ∈ potentialStudents, s ∈ roster) :
    ∃ st1 : FillState,
      (do
        let (choice, e) ← Intn rand e potentialStudents.length
        match potentialStudents[choice]? with
        | none => .error .panic
        | some studentToPoach =>
          pure (false,
            poachStudentIntoGroup studentToPoach group
              { env := e, project := project, groupsToFill := q })) =
        (.ok (false, st1) : Run (Bool × FillState)) ∧
      FillInv roster groups st1 ∧ st1.env.numReshuffles = e.numReshuffles ∧
      st1.env.desiredRepairings = e.desiredRepairings ∧
      (∀ j, j ≠ group → st1.project.getGroup j = project.getGroup j) ∧
      ∀ j ∈ q.contents, j ∈ st1.groupsToFill.contents := by
  have hlen : potentialStudents.length ≠ 0 := fun h => hne (List.length_eq_zero.1 h)
  obtain ⟨s, hget, hs⟩ := getElem?_mod_some potentialStudents (rand e.randCalls) hlen
  have hspec := poachStudentIntoGroup_spec roster groups s group
    { env := { e with randCalls := e.randCalls + 1 }, project := project, groupsToFill := q }
    ⟨BodyInv_randCalls roster groups e project _ hb, hq⟩ hg (hmem s hs)
  refine ⟨_, ?_, hspec.1, hspec.2.1, hspec.2.2.1, hspec.2.2.2.1, hspec.2.2.2.2⟩
  simp only [Intn_ok rand e _ hlen, bind, Except.bind, hget, pure, Except.pure]

/-- The body of `addMemberToGroup`: with enough fuel for the eviction loop it returns, keeps
the invariant of the fill loop, and returns the reshuffle-quota error or uses up part of the
measure; with less fuel the embedded eviction loop runs out of fuel.  It never panics.  The
number of reshuffles stays as it is or grows by one, and then the quota error is returned or
the number is below the quota; the other groups stay as they are and no group leaves the
queue. -/
theorem addMemberBody_spec (rand : Nat → Nat) (roster : List Student) (groups group : Nat)
    (st : FillState) (hinv : FillInv roster groups st) (hg : group < groups) :
    ∃ (f1 : Nat) (err : Bool) (st1 : FillState),
      (∀ fuel, f1 ≤ fuel → addMemberBody fuel rand roster group st = .ok (err, st1)) ∧
      (∀ fuel, fuel < f1 → addMemberBody fuel rand roster group st = .error .outOfFuel) ∧
      FillInv roster groups st1 ∧
      (err = true ∨
        FillLt (fillMeasure roster st1.env st1.project)
          (fillMeasure roster st.env st.project)) ∧
      (err = true → maxReshuffles ≤ st1.env.numReshuffles) ∧
      (st1.env.numReshuffles = st.env.numReshuffles ∨
        (st1.env.numReshuffles = st.env.numReshuffles + 1 ∧
          (err = true ∨ st1.env.numReshuffles < maxReshuffles))) ∧
      (∀ j, j ≠ group → st1.project.getGroup j = st.project.getGroup j) ∧
      ∀ j ∈ st.groupsToFill.contents, j ∈ st1.groupsToFill.contents := by
  by_cases hfresh : (potentialStudentsOf st.env (st.project.getGroup group)
      st.project.UngroupedStudents).length ≠ 0
  · obtain ⟨s, hget, hs⟩ := getElem?_mod_some _ (rand st.env.randCalls) hfresh
    have hs2 := (mem_potentialStudentsOf _ _ _ s).1 hs
    have hspec := addStudent_spec roster groups group st (st.env.randCalls + 1) s hinv hg
      (hinv.1.ungrouped_mem s hs2.1) (Or.inl hs2.2)
    refine ⟨0, false, _, ?_, fun fuel h => absurd h (by omega), hspec.1, Or.inr hspec.2.1,
      fun h => absurd h (by decide), Or.inl hspec.2.2.1, hspec.2.2.2, fun _ hj => hj⟩
    intro fuel _
    unfold addMemberBody
    simp only [hfresh, if_true, Intn_ok rand st.env _ hfresh, bind, Except.bind, hget, pure,
      Except.pure, ne_eq, not_false_eq_true]
  · by_cases hbudget : st.env.netRepairings < st.env.desiredRepairings
    · have hlen : st.project.UngroupedStudents.length ≠ 0 :=
        fun h => hinv.1.ungrouped_ne (List.length_eq_zero.1 h)
      obtain ⟨s, hget, hs⟩ := getElem?_mod_some _ (rand st.env.randCalls) hlen
      have hspec := addStudent_spec roster groups group st (st.env.randCalls + 1) s hinv hg
        (hinv.1.ungrouped_mem s hs) (Or.inr hbudget)
      refine ⟨0, false, _, ?_, fun fuel h => absurd h (by omega), hspec.1, Or.inr hspec.2.1,
        fun h => absurd h (by decide), Or.inl hspec.2.2.1, hspec.2.2.2, fun _ hj => hj⟩
      intro fuel _
      unfold addMemberBody
      simp only [hfresh, if_false, hbudget, if_true, Intn_ok rand st.env _ hlen, bind,
        Except.bind, hget, pure, Except.pure]
    · by_cases hquota : st.env.numReshuffles + 1 ≥ maxReshuffles
      · refine ⟨0, true,
          { st with env := { st.env with numReshuffles := st.env.numReshuffles + 1 } }, ?_,
          fun fuel h => absurd h (by omega),
          ⟨⟨fun x y => hinv.1.nonneg x y, hinv.1.ungrouped_ne, hinv.1.ungrouped_mem,
            hinv.1.members_mem, hinv.1.groups_length⟩, hinv.2⟩, Or.inl rfl, fun _ => hquota,
          Or.inr ⟨rfl, Or.inl rfl⟩, fun _ _ => rfl, fun _ hj => hj⟩
        intro fuel _
        unfold addMemberBody
        simp only [hfresh, if_false, hbudget, hquota, if_true, pure, Except.pure]
      · have hb' : BodyInv roster groups
            { st.env with numReshuffles := st.env.numReshuffles + 1 } st.project :=
          ⟨fun x y => hinv.1.nonneg x y, hinv.1.ungrouped_ne, hinv.1.ungrouped_mem,
            hinv.1.members_mem, hinv.1.groups_length⟩
        have hlt : ∀ st1 : FillState,
            st1.env.numReshuffles = st.env.numReshuffles + 1 →
            FillLt (fillMeasure roster st1.env st1.project)
              (fillMeasure roster st.env st.project) := by
          intro st1 h1
          unfold fillMeasure
          rw [FillLt_iff, h1]
          left
          unfold maxReshuffles at hquota ⊢
          omega
        have hbelow : ∀ st1 : FillState,
            st1.env.numReshuffles = st.env.numReshuffles + 1 →
            st1.env.numReshuffles < maxReshuffles := by
          intro st1 h1
          rw [h1]
          omega
        by_cases hpot : (potentialStudentsOf
            { st.env with numReshuffles := st.env.numReshuffles + 1 }
            (st.project.getGroup group) roster).length ≠ 0
        · obtain ⟨st1, h1, h2, h3, _, h5, h6⟩ := poach_spec rand roster groups group
            { st.env with numReshuffles := st.env.numReshuffles + 1 } st.project
            st.groupsToFill _ hb' hinv.2 hg (fun h => hpot (by rw [h]; rfl))
            (fun s hs => ((mem_potentialStudentsOf _ _ _ s).1 hs).1)
          refine ⟨0, false, st1, ?_, fun fuel h => absurd h (by omega), h2,
            Or.inr (hlt st1 h3), fun h => absurd h (by decide),
            Or.inr ⟨h3, Or.inr (hbelow st1 h3)⟩, h5, h6⟩
          intro fuel _
          unfold addMemberBody
          simp only [hfresh, if_false, hbudget, hquota, hpot, if_true, ne_eq,
            not_false_eq_true]
          exact h1
        · obtain ⟨n, hn⟩ : ∃ n : Nat, ledgerTotal
              { st.env with numReshuffles := st.env.numReshuffles + 1 } roster ≤ (n : Int) :=
            ⟨(ledgerTotal { st.env with numReshuffles := st.env.numReshuffles + 1 }
              roster).toNat, Int.self_le_toNat _⟩
          obtain ⟨f, r, r1, r2, r3, r4, r5, r6, _, r8⟩ :=
            evictLoop_spec rand roster groups group n
              { st.env with numReshuffles := st.env.numReshuffles + 1 } st.project hb' hn
          obtain ⟨pot', e', project'⟩ := r
          simp only at r3 r4 r5 r6 r8
          obtain ⟨st1, h1, h2, h3, _, h5, h6⟩ := poach_spec rand roster groups group e'
            project' st.groupsToFill pot' r5 hinv.2 hg r3 r4
          have hnum : st1.env.numReshuffles = st.env.numReshuffles + 1 := by rw [h3, r6]
          refine ⟨f, false, st1, ?_, ?_, h2, Or.inr (hlt st1 hnum),
            fun h => absurd h (by decide), Or.inr ⟨hnum, Or.inr (hbelow st1 hnum)⟩,
            fun j hj => by rw [h5 j hj]; unfold Project.getGroup; rw [r8], h6⟩
          · intro fuel hfuel
            unfold addMemberBody
            simp only [hfresh, if_false, hbudget, hquota, hpot, ne_eq, not_false_eq_true]
            rw [r1 fuel hfuel]
            exact h1
          · intro fuel hfuel
            unfold addMemberBody
            simp only [hfresh, if_false, hbudget, hquota, hpot, ne_eq, not_false_eq_true]
            rw [r2 fuel hfuel]
            rfl

/-- One call of `addMemberToGroup` from a state of the fill loop whose queue is not empty:
with enough fuel for the eviction loop it returns, keeps the invariant, and returns the
reshuffle-quota error or uses up part of the measure; with less fuel the embedded eviction
loop runs out of fuel.  It never panics.  The number of reshuffles stays as it is or grows by
one, and then the quota error is returned or the number is below the quota; and if every
group was in the queue or full before the call, so it is after the call. -/
theorem addMemberToGroup_spec (rand : Nat → Nat) (roster : List Student) (groups : Nat)
    (st : FillState) (hinv : FillInv roster groups st)
    (hne : st.groupsToFill.IsEmpty = false) :
    ∃ (f1 : Nat) (err : Bool) (st1 : FillState),
      (∀ fuel, f1 ≤ fuel → addMemberToGroup fuel rand roster st = .ok (err, st1)) ∧
      (∀ fuel, fuel < f1 → addMemberToGroup fuel rand roster st = .error .outOfFuel) ∧
      FillInv roster groups st1 ∧
      (err = true ∨
        FillLt (fillMeasure roster st1.env st1.project)
          (fillMeasure roster st.env st.project)) ∧
      (err = true → maxReshuffles ≤ st1.env.numReshuffles) ∧
      (st1.env.numReshuffles = st.env.numReshuffles ∨
        (st1.env.numReshuffles = st.env.numReshuffles + 1 ∧
          (err = true ∨ st1.env.numReshuffles < maxReshuffles))) ∧
      (QueuedOrFull groups st → QueuedOrFull groups st1) := by
  obtain ⟨group, q', hd, hg, hq'⟩ := QueueInv_Dequeue groups st.groupsToFill hinv.2 hne
  have hcont := contents_Dequeue groups st.groupsToFill q' group hinv.2 hne hd
  obtain ⟨f1, err, st1, b1, b2, b3, b4, b5, b6, b7, b8⟩ :=
    addMemberBody_spec rand roster groups group { st with groupsToFill := q' }
      ⟨hinv.1, hq'⟩ hg
  have hother : ∀ j, j ≠ group →
      j ∈ st.groupsToFill.contents ∨ (st.project.getGroup j).IsFull = true →
      j ∈ st1.groupsToFill.contents ∨ (st1.project.getGroup j).IsFull = true := by
    intro j hj h
    rcases h with h | h
    · rw [hcont] at h
      rcases List.mem_cons.1 h with h | h
      · exact absurd h hj
      · exact Or.inl (b8 j h)
    · right
      rw [b7 j hj]
      exact h
  by_cases hfull : (!(st1.project.getGroup group).IsFull) = true
  · refine ⟨f1, err, { st1 with groupsToFill := st1.groupsToFill.Enqueue group }, ?_, ?_,
      ⟨b3.1, QueueInv_Enqueue groups _ group b3.2 hg⟩, b4, b5, b6, ?_⟩
    · intro fuel hfuel
      unfold addMemberToGroup
      simp only [hd, b1 fuel hfuel, bind, Except.bind, hfull, if_true, pure, Except.pure]
    · intro fuel hfuel
      unfold addMemberToGroup
      simp only [hd, b2 fuel hfuel, bind, Except.bind]
    · intro hcov j hj
      show j ∈ (st1.groupsToFill.Enqueue group).contents ∨ _
      rw [contents_Enqueue groups _ group b3.2]
      by_cases hjg : j = group
      · exact Or.inl (List.mem_append_right _ (by rw [hjg]; exact List.mem_singleton_self _))
      · rcases hother j hjg (hcov j hj) with h | h
        · exact Or.inl (List.mem_append_left _ h)
        · exact Or.inr h
  · refine ⟨f1, err, st1, ?_, ?_, b3, b4, b5, b6, ?_⟩
    · intro fuel hfuel
      unfold addMemberToGroup
      simp only [hd, b1 fuel hfuel, bind, Except.bind, hfull, if_false, pure, Except.pure,
        Bool.false_eq_true]
    · intro fuel hfuel
      unfold addMemberToGroup
      simp only [hd, b2 fuel hfuel, bind, Except.bind]
    · intro hcov j hj
      by_cases hjg : j = group
      · right
        rw [hjg]
        simpa using hfull
      · exact hother j hjg (hcov j hj)

/-! ## The loop of `groupStudentsForProject` -/

/-- The loop of `groupStudentsForProject` never panics: from a state of the fill loop the
embedded loop returns or runs out of fuel. -/
theorem groupStudentsLoop_safe (rand : Nat → Nat) (roster : List Student) (groups : Nat)
    (fuel steps : Nat) :
    ∀ st : FillState, FillInv roster groups st →
      groupStudentsLoop fuel rand roster steps st ≠ .error .panic := by
  induction steps with
  | zero =>
    intro st _
    rw [groupStudentsLoop]
    exact fun h => by cases h
  | succ steps ih =>
    intro st hinv
    rw [groupStudentsLoop]
    by_cases hempty : st.groupsToFill.IsEmpty = true
    · rw [if_pos hempty]
      exact fun h => by cases h
    · rw [if_neg hempty]
      obtain ⟨f1, err, st1, b1, b2, b3, _, _⟩ := addMemberToGroup_spec rand roster groups st hinv
        (by simpa using hempty)
      by_cases hfuel : f1 ≤ fuel
      · rw [b1 fuel hfuel]
        simp only [bind, Except.bind]
        cases err with
        | true => exact fun h => by cases h
        | false =>
          simp only [Bool.false_eq_true, if_false]
          exact ih st1 b3
      · rw [b2 fuel (by omega)]
        exact fun h => by cases h

/-- The loop of `groupStudentsForProject` ends: from a state of the fill loop, with enough
fuel it returns, either with an empty queue or with the reshuffle-quota error.  The number of
reshuffles does not go down, and it ends within the quota, or one above where it started
when that was at or over the quota; and if every group was in the queue or full at the start,
so it is at the end. -/
theorem groupStudentsLoop_terminates (rand : Nat → Nat) (roster : List Student) (groups : Nat)
    (st : FillState) (hinv : FillInv roster groups st) :
    ∃ (f0 : Nat) (r : Bool × FillState),
      (∀ fuel steps, f0 ≤ fuel → f0 ≤ steps →
        groupStudentsLoop fuel rand roster steps st = .ok r) ∧
      (r.1 = false → r.2.groupsToFill.IsEmpty = true) ∧
      (r.1 = true → maxReshuffles ≤ r.2.env.numReshuffles) ∧
      FillInv roster groups r.2 ∧
      st.env.numReshuffles ≤ r.2.env.numReshuffles ∧
      r.2.env.numReshuffles ≤ max (st.env.numReshuffles + 1) maxReshuffles ∧
      (QueuedOrFull groups st → QueuedOrFull groups r.2) := by
  revert hinv
  refine (InvImage.wf (fun st : FillState => fillMeasure roster st.env st.project)
    FillLt_wf).induction
    (C := fun st => FillInv roster groups st →
      ∃ (f0 : Nat) (r : Bool × FillState),
        (∀ fuel steps, f0 ≤ fuel → f0 ≤ steps →
          groupStudentsLoop fuel rand roster steps st = .ok r) ∧
        (r.1 = false → r.2.groupsToFill.IsEmpty = true) ∧
        (r.1 = true → maxReshuffles ≤ r.2.env.numReshuffles) ∧
        FillInv roster groups r.2 ∧
        st.env.numReshuffles ≤ r.2.env.numReshuffles ∧
        r.2.env.numReshuffles ≤ max (st.env.numReshuffles + 1) maxReshuffles ∧
        (QueuedOrFull groups st → QueuedOrFull groups r.2)) st ?_
  intro st ih hinv
  by_cases hempty : st.groupsToFill.IsEmpty = true
  · refine ⟨1, (false, st), ?_, fun _ => hempty, fun h => absurd h Bool.false_ne_true, hinv,
      le_refl _,
      le_max_of_le_left (show st.env.numReshuffles ≤ st.env.numReshuffles + 1 by omega),
      fun h => h⟩
    intro fuel steps _ hsteps
    obtain ⟨k, rfl⟩ : ∃ k, steps = k + 1 := ⟨steps - 1, by omega⟩
    rw [groupStudentsLoop, if_pos hempty]
  · obtain ⟨f1, err, st1, b1, _, b3, b4, b5, b6, b7⟩ :=
      addMemberToGroup_spec rand roster groups st hinv (by simpa using hempty)
    cases err with
    | true =>
      refine ⟨f1 + 1, (true, st1), ?_, fun h => absurd h.symm Bool.false_ne_true,
        fun _ => b5 rfl, b3, ?_, ?_, b7⟩
      rotate_left
      · show st.env.numReshuffles ≤ st1.env.numReshuffles
        omega
      · show st1.env.numReshuffles ≤ max (st.env.numReshuffles + 1) maxReshuffles
        exact le_max_of_le_left (by omega)
      intro fuel steps hfuel hsteps
      obtain ⟨k, rfl⟩ : ∃ k, steps = k + 1 := ⟨steps - 1, by omega⟩
      rw [groupStudentsLoop, if_neg hempty, b1 fuel (by omega)]
      rfl
    | false =>
      have hlt : FillLt (fillMeasure roster st1.env st1.project)
          (fillMeasure roster st.env st.project) := by
        rcases b4 with h | h
        · exact absurd h (by decide)
        · exact h
      obtain ⟨f0, r, r1, r2, r3, r4, r5, r6, r7⟩ := ih st1 hlt b3
      have hup : max (st1.env.numReshuffles + 1) maxReshuffles ≤
          max (st.env.numReshuffles + 1) maxReshuffles := by
        rcases b6 with h | ⟨_, h | h⟩
        · rw [h]
        · exact absurd h (by decide)
        · rw [max_eq_right (by omega)]
          exact le_max_right _ _
      refine ⟨max f1 f0 + 1, r, ?_, r2, r3, r4, by omega, le_trans r6 hup,
        fun h => r7 (b7 h)⟩
      intro fuel steps hfuel hsteps
      obtain ⟨k, rfl⟩ : ∃ k, steps = k + 1 := ⟨steps - 1, by omega⟩
      have h1 : f1 ≤ fuel := by have := le_max_left f1 f0; omega
      have h2 : f0 ≤ fuel := by have := le_max_right f1 f0; omega
      have h3 : f0 ≤ k := by have := le_max_right f1 f0; omega
      rw [groupStudentsLoop, if_neg hempty, b1 fuel h1]
      simp only [bind, Except.bind, Bool.false_eq_true, if_false]
      exact r1 fuel k h2 h3

/-! ## `groupStudentsForProject` on a freshly built project -/

theorem NewProject_fresh (fuel : Nat) (name : String) (roster : List Student) (S : Int)
    (p : Bool) (project : Project) (h : NewProject fuel name roster S p = .ok project) :
    project.UngroupedStudents = roster ∧ ∀ g ∈ project.Groups, g.members = [] := by
  unfold NewProject at h
  cases hs : determineGroupSizes fuel (roster.length : Int) S p with
  | error f => simp [hs, bind, Except.bind] at h
  | ok sizes =>
    simp only [hs, bind, Except.bind, pure, Except.pure, Except.ok.injEq] at h
    subst h
    refine ⟨rfl, ?_⟩
    intro g hg
    obtain ⟨size, _, rfl⟩ := List.mem_map.1 hg
    rfl

/-- The state in which `groupStudentsForProject` starts its loop satisfies the invariant of
the fill loop. -/
theorem FillInv_initial (roster : List Student) (e : Env) (project : Project)
    (hroster : roster ≠ []) (hnn : ∀ x y : Nat, 0 ≤ e.countAt x y)
    (hungrouped : project.UngroupedStudents = roster)
    (hmembers : ∀ g ∈ project.Groups, g.members = []) :
    FillInv roster project.Groups.length
      { env := e, project := project,
        groupsToFill :=
          (List.range project.Groups.length).foldl GroupQueue.Enqueue GroupQueue.empty } := by
  refine ⟨⟨hnn, by rw [hungrouped]; exact hroster, by rw [hungrouped]; exact fun s hs => hs,
    ?_, rfl⟩, ?_⟩
  · intro g hg s hs
    rw [hmembers g hg] at hs
    simp at hs
  · apply QueueInv_foldl_Enqueue
    · exact ⟨[], QueueHolds_empty, fun g hg => by simp at hg⟩
    · intro g hg
      exact List.mem_range.1 hg

/-- C35: for a non-empty roster (and a ledger without negative counts),
`groupStudentsForProject` on a freshly built project never panics, whatever the random
choices: every `rand.Intn` is called on a non-empty collection (the fresh candidates, the
ungrouped students, the candidates to poach, the members of the group in the eviction loop),
every index drawn is in range, and the group dequeued by `addMemberToGroup` is never `nil`.
The embedded run returns, or stops only because its fuel is used up. -/
theorem groupStudentsForProject_never_panics (fuel fuel0 : Nat) (rand : Nat → Nat) (e : Env)
    (roster : List Student) (name : String) (S : Int) (p : Bool) (project : Project)
    (hroster : roster ≠ []) (hnn : ∀ x y : Nat, 0 ≤ e.countAt x y)
    (hproject : NewProject fuel0 name roster S p = .ok project) :
    groupStudentsForProject fuel rand e project roster ≠ .error .panic := by
  obtain ⟨h1, h2⟩ := NewProject_fresh fuel0 name roster S p project hproject
  have hinv := FillInv_initial roster e project hroster hnn h1 h2
  have hsafe := groupStudentsLoop_safe rand roster project.Groups.length fuel fuel _ hinv
  unfold groupStudentsForProject
  simp only [bind, Except.bind]
  cases hl : groupStudentsLoop fuel rand roster fuel
      { env := e, project := project,
        groupsToFill :=
          (List.range project.Groups.length).foldl GroupQueue.Enqueue GroupQueue.empty } with
  | error f =>
    rw [hl] at hsafe
    simp only
    intro h
    rw [Except.error.injEq] at h
    rw [h] at hsafe
    exact hsafe rfl
  | ok r =>
    simp only [pure, Except.pure]
    exact fun h => by cases h

set_option maxRecDepth 100000 in
/-- Witness for C35: the roster `A`, `B`, optimal size 2, empty ledgers, random choices 0. -/
theorem groupStudentsForProject_never_panics_witness :
    NewProject 3 "p" (newRoster [⟨"A", "a"⟩, ⟨"B", "b"⟩] 0) 2 false =
        .ok { Groups := [NewGroup 2], Name := "p",
              UngroupedStudents := newRoster [⟨"A", "a"⟩, ⟨"B", "b"⟩] 0 } ∧
      groupStudentsForProject 5 (fun _ => 0) Env.initial
          { Groups := [NewGroup 2], Name := "p",
            UngroupedStudents := newRoster [⟨"A", "a"⟩, ⟨"B", "b"⟩] 0 }
          (newRoster [⟨"A", "a"⟩, ⟨"B", "b"⟩] 0) ≠ .error .panic :=
  ⟨by decide,
    groupStudentsForProject_never_panics 5 3 (fun _ => 0) Env.initial
      (newRoster [⟨"A", "a"⟩, ⟨"B", "b"⟩] 0) "p" 2 false _ (by decide)
      (fun _ _ => le_refl 0) (by decide)⟩

/-- C32: for every non-empty roster (of at most `2^53` students), every `S ≥ 1`, every
sequence of random choices and every ledger without negative counts, `NewProject` and
`groupStudentsForProject` terminate: with enough fuel the project is built, the fill loop
returns from the queue of all groups, and `groupStudentsForProject` returns what the loop
returned.  It returns either `nil`, and then the fill queue is empty, no group is waiting in
it and every group of the project is full; or the reshuffle-quota error, and then the
reshuffle counter has reached `maxReshuffles`.  The reshuffle counter, which every reshuffle
raises by one, never goes down and ends within the quota, or one above its value at the start
when that was at or over the quota: the quota bounds the number of reshuffles.  The fuel that
suffices bounds the number of calls of `addMemberToGroup`, so of the fresh or stale additions
between two reshuffles, and the number of evictions of every eviction loop. -/
theorem groupStudentsForProject_terminates (rand : Nat → Nat) (e : Env)
    (roster : List Student) (name : String) (S : Int) (p : Bool) (hroster : roster ≠ [])
    (hS : 1 ≤ S) (hexact : (roster.length : Int) ≤ maxExactInt)
    (hnn : ∀ x y : Nat, 0 ≤ e.countAt x y) :
    ∃ (fuel0 : Nat) (project : Project) (r : Bool × FillState),
      (∀ fuel, fuel0 ≤ fuel →
        NewProject fuel name roster S p = .ok project ∧
          groupStudentsLoop fuel rand roster fuel
              { env := e, project := project,
                groupsToFill :=
                  (List.range project.Groups.length).foldl GroupQueue.Enqueue
                    GroupQueue.empty } = .ok r ∧
          groupStudentsForProject fuel rand e project roster =
            .ok (r.1, r.2.env, r.2.project)) ∧
        (r.1 = false →
          r.2.groupsToFill.IsEmpty = true ∧ r.2.groupsToFill.contents = [] ∧
            ∀ g ∈ r.2.project.Groups, g.IsFull = true) ∧
        (r.1 = true → maxReshuffles ≤ r.2.env.numReshuffles) ∧
        e.numReshuffles ≤ r.2.env.numReshuffles ∧
        r.2.env.numReshuffles ≤ max (e.numReshuffles + 1) maxReshuffles := by
  have hsizes : ∃ sizes, determineGroupSizes (S.toNat + 1) (roster.length : Int) S p =
      .ok sizes := by
    by_cases hSN : S ≤ (roster.length : Int)
    · obtain ⟨m, _, h⟩ := determineGroupSizes_balanced (S.toNat + 1) (roster.length : Int) S p
        hS hSN (le_maxInt64_of_exact _ hexact) (by omega)
      exact ⟨_, h⟩
    · exact ⟨_, determineGroupSizes_of_lt _ _ S p (by omega)⟩
  obtain ⟨sizes, hsizes⟩ := hsizes
  have hproject : ∀ fuel, S.toNat + 1 ≤ fuel →
      NewProject fuel name roster S p =
        .ok { Groups := sizes.map NewGroup, Name := name, UngroupedStudents := roster } := by
    intro fuel hfuel
    unfold NewProject
    rw [determineGroupSizes_mono (S.toNat + 1) fuel _ _ _ sizes hfuel hsizes]
    rfl
  obtain ⟨h1, h2⟩ := NewProject_fresh _ name roster S p _ (hproject (S.toNat + 1) (le_refl _))
  have hinv := FillInv_initial roster e _ hroster hnn h1 h2
  have hcov : QueuedOrFull (sizes.map NewGroup).length
      { env := e,
        project := { Groups := sizes.map NewGroup, Name := name, UngroupedStudents := roster },
        groupsToFill :=
          (List.range (sizes.map NewGroup).length).foldl GroupQueue.Enqueue
            GroupQueue.empty } := by
    intro j hj
    left
    show j ∈ GroupQueue.contents _
    rw [contents_initial]
    exact List.mem_range.2 hj
  obtain ⟨f0, r, r1, r2, r3, r4, r5, r6, r7⟩ := groupStudentsLoop_terminates rand roster _ _ hinv
  refine ⟨max (S.toNat + 1) f0,
    { Groups := sizes.map NewGroup, Name := name, UngroupedStudents := roster }, r, ?_, ?_,
    r3, r5, r6⟩
  · intro fuel hfuel
    have hf1 : S.toNat + 1 ≤ fuel := le_trans (le_max_left _ _) hfuel
    have hf2 : f0 ≤ fuel := le_trans (le_max_right _ _) hfuel
    refine ⟨hproject fuel hf1, r1 fuel fuel hf2 hf2, ?_⟩
    unfold groupStudentsForProject
    simp only [bind, Except.bind]
    rw [r1 fuel fuel hf2 hf2]
    rfl
  · intro hnil
    have hempty := r2 hnil
    have hcontents := contents_of_IsEmpty _ hempty
    refine ⟨hempty, hcontents, ?_⟩
    intro g hg
    obtain ⟨j, hj, rfl⟩ := List.mem_iff_getElem.1 hg
    have hfull := r7 hcov j (by rw [← r4.1.groups_length]; exact hj)
    rw [hcontents] at hfull
    rcases hfull with h | h
    · exact absurd h (List.not_mem_nil j)
    · unfold Project.getGroup at h
      rw [List.getD_eq_getElem _ _ hj] at h
      exact h

/-- Witness for C32: the roster `A`, `B`, optimal size 2, empty ledgers, random choices 0. -/
theorem groupStudentsForProject_terminates_witness :
    ∃ (fuel0 : Nat) (project : Project) (r : Bool × FillState),
      (∀ fuel, fuel0 ≤ fuel →
        NewProject fuel "p" (newRoster [⟨"A", "a"⟩, ⟨"B", "b"⟩] 0) 2 false = .ok project ∧
          groupStudentsLoop fuel (fun _ => 0) (newRoster [⟨"A", "a"⟩, ⟨"B", "b"⟩] 0) fuel
              { env := Env.initial, project := project,
                groupsToFill :=
                  (List.range project.Groups.length).foldl GroupQueue.Enqueue
                    GroupQueue.empty } = .ok r ∧
          groupStudentsForProject fuel (fun _ => 0) Env.initial project
            (newRoster [⟨"A", "a"⟩, ⟨"B", "b"⟩] 0) = .ok (r.1, r.2.env, r.2.project)) ∧
        (r.1 = false →
          r.2.groupsToFill.IsEmpty = true ∧ r.2.groupsToFill.contents = [] ∧
            ∀ g ∈ r.2.project.Groups, g.IsFull = true) ∧
        (r.1 = true → maxReshuffles ≤ r.2.env.numReshuffles) ∧
        Env.initial.numReshuffles ≤ r.2.env.numReshuffles ∧
        r.2.env.numReshuffles ≤ max (Env.initial.numReshuffles + 1) maxReshuffles :=
  groupStudentsForProject_terminates (fun _ => 0) Env.initial
    (newRoster [⟨"A", "a"⟩, ⟨"B", "b"⟩] 0) "p" 2 false (by decide) (by decide) (by decide)
    (fun _ _ => le_refl 0)

end generator
